import Mathlib

/-!
# SPIDIR tree operations: a shallow embedding of `Tree.cpp`

The node arena of a `Tree` is a list of nodes; a `Node*` that points into the
arena is the index of the node it points to, and `NULL` is `none`.  Every
operation that the C++ code performs on memory (array reads and writes,
pointer dereferences, `assert`) is a step in the `Except Fault` monad, so a
run that would be undefined behaviour or an abort in C++ is an explicit
`Except.error` here.  `float` arithmetic is idealised as exact arithmetic
over `ℚ`.
-/

namespace Spidir

/-! ## Faults and memory primitives -/

/-- Ways in which a run of the C++ code can fail to return normally. -/
inductive Fault where
  /-- an array is read or written outside its allocated slots -/
  | outOfBounds
  /-- a `NULL` pointer is dereferenced -/
  | nullDeref
  /-- an `assert` does not hold -/
  | assertFailed
  /-- a `while` loop did not stop within the supplied number of steps -/
  | outOfFuel
  deriving DecidableEq, Repr

/-- Read `xs[i]`. -/
def rd {α : Type} (xs : List α) (i : Nat) : Except Fault α :=
  match xs[i]? with
  | some x => .ok x
  | none => .error .outOfBounds

/-- Write `xs[i] = x`. -/
def wr {α : Type} (xs : List α) (i : Nat) (x : α) : Except Fault (List α) :=
  if i < xs.length then .ok (xs.set i x) else .error .outOfBounds

/-- Use a C `int` as an array index. -/
def idx (k : Int) : Except Fault Nat :=
  if 0 ≤ k then .ok k.toNat else .error .outOfBounds

/-- Follow a pointer: `NULL` cannot be dereferenced. -/
def deref (p : Option Nat) : Except Fault Nat :=
  match p with
  | some i => .ok i
  | none => .error .nullDeref

/-- The loop `for (int i = lo; i < lo + count; i++) body`, threading the
state `σ` through the iterations. -/
def forUp {σ : Type} (body : Nat → σ → Except Fault σ) : Nat → Nat → σ → Except Fault σ
  | 0, _, s => .ok s
  | count + 1, lo, s =>
    match body lo s with
    | .ok s1 => forUp body count (lo + 1) s1
    | .error e => .error e

/-! ## Data model -/

/-- A tree node (`class Node`): `children` holds the allocated child slots, of
which the first `nchildren` are in use. -/
structure Node where
  name : Int
  parent : Option Nat
  children : List (Option Nat)
  nchildren : Nat
  dist : ℚ
  deriving DecidableEq

/-- A tree (`class Tree`): the arena `nodes`, its size `nnodes` and the root
pointer. -/
structure Tree where
  nnodes : Nat
  nodes : List Node
  root : Option Nat
  deriving DecidableEq

/-- Modelled from the spec: `Node::allocChildren` of `Tree.h` is not part of
the sources; it gives the node a fresh children array of the given capacity
("children pre-allocated to capacity 2") and leaves `nchildren` alone. -/
def Node.allocChildren (nd : Node) (capacity : Nat) : Node :=
  { nd with children := List.replicate capacity none }

/-- Modelled from the spec: `Node::setChildren` of `Tree.h` is not part of the
sources; it "pre-sizes a node's children sequence" to `count` slots. -/
def Node.setChildren (nd : Node) (count : Nat) : Node :=
  { nd with children := List.replicate count none, nchildren := count }

/-- Modelled from the spec: the constructor `Tree(nnodes)` of `Tree.h` is not
part of the sources; it "allocates an arena of disconnected nodes with
identities `0..nnodes-1`". -/
def Tree.create (nnodes : Nat) : Tree :=
  { nnodes := nnodes
    nodes := (List.range nnodes).map fun (i : Nat) =>
      { name := (i : Int), parent := none, children := [], nchildren := 0, dist := 0 }
    root := none }

/-- Modelled from the spec: `Tree::isRooted` of `Tree.h` is not part of the
sources; it "reports whether `root` has exactly two children". -/
def Tree.isRooted (t : Tree) : Bool :=
  match t.root with
  | some r =>
    match t.nodes[r]? with
    | some nd => nd.nchildren == 2
    | none => false
  | none => false

/-- The children list of node `i`: the child slots in use. -/
def Tree.kidSlots (t : Tree) (i : Nat) : List (Option Nat) :=
  match t.nodes[i]? with
  | some nd => nd.children.take nd.nchildren
  | none => []

/-- The nodes in the children list of node `i`, in list order. -/
def Tree.kids (t : Tree) (i : Nat) : List Nat :=
  (t.kidSlots i).filterMap id

/-- The parent pointer of node `i`. -/
def Tree.parentOf (t : Tree) (i : Nat) : Option Nat :=
  match t.nodes[i]? with
  | some nd => nd.parent
  | none => none

/-- The identity (`name`) of the node a pointer refers to. -/
def Tree.nameOf (t : Tree) (p : Option Nat) : Option Int :=
  match p with
  | some i => (t.nodes[i]?).map Node.name
  | none => none

/-! ## Conversions between parent arrays and trees -/

/-- Body of the first loop of `ptree2tree` ("allocate children"). -/
def allocBody (i : Nat) (nodes : List Node) : Except Fault (List Node) := do
  let nd ← rd nodes i
  wr nodes i { nd.allocChildren 2 with name := (i : Int), nchildren := 0 }

/-- Body of the second loop of `ptree2tree` ("store parent and child
pointers"). -/
def linkBody (ptree : List Int) (i : Nat) (nodes : List Node) : Except Fault (List Node) := do
  let parent ← rd ptree i
  if parent ≠ -1 then do
    let p ← idx parent
    let parentnode ← rd nodes p
    -- parentnode->children[parentnode->nchildren++] = nodes[i]
    let slots ← wr parentnode.children parentnode.nchildren (some i)
    let nodes ← wr nodes p
      { parentnode with children := slots, nchildren := parentnode.nchildren + 1 }
    let nd ← rd nodes i
    wr nodes i { nd with parent := some p }
  else do
    let nd ← rd nodes i
    wr nodes i { nd with parent := none }

/-- The function `ptree2tree`: build the links of `tree` from a parent array. -/
def ptree2tree (nnodes : Nat) (ptree : List Int) (tree : Tree) : Except Fault Tree := do
  let nodes ← forUp allocBody nnodes 0 tree.nodes
  let nodes ← forUp (linkBody ptree) nnodes 0 nodes
  -- set root
  let r ← idx ((nnodes : Int) - 1)
  let _ ← rd nodes r
  pure { tree with nodes := nodes, root := some r }

/-- Body of the loop of `tree2ptree`: the entry `ptree[i]` is appended to the
entries written so far. -/
def parentBody (tree : Tree) (i : Nat) (ptree : List Int) : Except Fault (List Int) := do
  let nd ← rd tree.nodes i
  match nd.parent with
  | some p => do
    let pn ← rd tree.nodes p
    pure (ptree ++ [pn.name])
  | none => pure (ptree ++ [-1])

/-- The function `tree2ptree`: the parent array of a tree, as the list of the
`nnodes` entries it writes. -/
def tree2ptree (tree : Tree) : Except Fault (List Int) :=
  forUp (parentBody tree) tree.nnodes 0 []

/-- The indices below `k` whose parent-array entry is `j`, in increasing order. -/
def childrenOf (p : List Int) (k j : Nat) : List Nat :=
  (List.range k).filter fun c => p[c]? == some (j : Int)

/-- State of the arena after the first `k` rounds of the second loop of
`ptree2tree`. -/
def LinkInv (p : List Int) (n len k : Nat) (nodes : List Node) : Prop :=
  nodes.length = len ∧
  ∀ j, j < n → ∃ nd, nodes[j]? = some nd ∧ nd.name = (j : Int) ∧ nd.children.length = 2 ∧
    nd.nchildren = (childrenOf p k j).length ∧
    nd.children.take nd.nchildren = (childrenOf p k j).map some ∧
    (j < k → (p[j]? = some (-1) → nd.parent = none) ∧
      ∀ q : Nat, p[j]? = some (q : Int) → nd.parent = some q)

/-- A parent array of size `n`: every entry is the sentinel `-1` or an index
in `[0, n)`. -/
def IsParentArray (n : Nat) (p : List Int) : Prop :=
  p.length = n ∧ ∀ x ∈ p, x = -1 ∨ (0 ≤ x ∧ x < (n : Int))

instance (n : Nat) (p : List Int) : Decidable (IsParentArray n p) := by
  unfold IsParentArray; infer_instance

/-- Follow the entries of a parent array upwards for `k` steps, stopping at
the sentinel. -/
def ptreeClimb (p : List Int) : Nat → Int → Int
  | 0, x => x
  | k + 1, x => if x < 0 then x else ptreeClimb p k (p.getD x.toNat (-1))

/-- A valid parent array: a parent array with exactly one sentinel whose
implied graph is acyclic (every index reaches the sentinel by following
parent entries). -/
def ValidParentArray (n : Nat) (p : List Int) : Prop :=
  IsParentArray n p ∧ p.count (-1) = 1 ∧ ∀ i, i < n → ptreeClimb p n (i : Int) = -1

instance (n : Nat) (p : List Int) : Decidable (ValidParentArray n p) := by
  unfold ValidParentArray; infer_instance

/-- No index is the parent of more than two indices. -/
def AtMostBinary (n : Nat) (p : List Int) : Prop :=
  ∀ j, j < n → (childrenOf p n j).length ≤ 2

instance (n : Nat) (p : List Int) : Decidable (AtMostBinary n p) := by
  unfold AtMostBinary; infer_instance

/-- The identities of the nodes in the children list of node `i`. -/
def Tree.childNames (t : Tree) (i : Nat) : List (Option Int) :=
  (t.kidSlots i).map t.nameOf

/-- A well-formed tree: the arena has `nnodes` nodes, node `i` has identity
`i`, every node has at most two children, all in the arena, parent and
children links agree, and exactly one node has no parent, which is the
root. -/
def Tree.WellFormed (t : Tree) : Prop :=
  t.nodes.length = t.nnodes ∧
  (∀ i, i < t.nnodes → t.nameOf (some i) = some (i : Int)) ∧
  (∀ i, i < t.nnodes → (t.kidSlots i).length ≤ 2) ∧
  (∀ i, i < t.nnodes → ∀ s ∈ t.kidSlots i, ∃ c, c < t.nnodes ∧ s = some c) ∧
  (∀ i, i < t.nnodes → ∀ c, c < t.nnodes → (c ∈ t.kids i ↔ t.parentOf c = some i)) ∧
  (∀ i, i < t.nnodes → ∀ q, t.parentOf i = some q → q < t.nnodes) ∧
  ∃ r, r < t.nnodes ∧ t.root = some r ∧ ∀ i, i < t.nnodes → (t.parentOf i = none ↔ i = r)

/-- A three-node tree whose root is node 0, with children 1 and 2. -/
def rootFirstTree : Tree :=
  { nnodes := 3
    nodes := [
      { name := 0, parent := none, children := [some 1, some 2], nchildren := 2, dist := 0 },
      { name := 1, parent := some 0, children := [], nchildren := 0, dist := 1 },
      { name := 2, parent := some 0, children := [], nchildren := 0, dist := 1 }]
    root := some 0 }

/-- The parent array that describes the parent links of a tree whose node `i`
has identity `i`. -/
def Tree.parentArray (t : Tree) : List Int :=
  (List.range t.nnodes).map fun i =>
    match t.parentOf i with
    | some q => (q : Int)
    | none => -1

/-! ## Copying a tree -/

/-- The branch length of node `i`. -/
def Tree.distOf (t : Tree) (i : Nat) : Option ℚ :=
  (t.nodes[i]?).map Node.dist

/-- The number of children (`nchildren`) of node `i`. -/
def Tree.nchildrenOf (t : Tree) (i : Nat) : Option Nat :=
  (t.nodes[i]?).map Node.nchildren

/-- Every pointer of the tree points into its arena of `nnodes` nodes, and
the child slots in use are allocated. -/
def Tree.Valid (t : Tree) : Prop :=
  t.nodes.length = t.nnodes ∧
  (∀ nd ∈ t.nodes, nd.nchildren ≤ nd.children.length ∧
    (∀ s ∈ nd.children.take nd.nchildren, ∀ c, s = some c → c < t.nnodes) ∧
    ∀ q, nd.parent = some q → q < t.nnodes) ∧
  ∀ r, t.root = some r → r < t.nnodes

instance (t : Tree) : Decidable t.Valid := by
  unfold Tree.Valid; infer_instance

/-- Node `i` has identity `i`. -/
def Tree.Named (t : Tree) : Prop :=
  ∀ i, i < t.nnodes → t.nameOf (some i) = some (i : Int)

instance (t : Tree) : Decidable t.Named := by
  unfold Tree.Named; infer_instance

/-- Body of the first loop of `Tree::copy`. -/
def copyInitBody (t : Tree) (i : Nat) (nodes2 : List Node) : Except Fault (List Node) := do
  let nd ← rd t.nodes i
  let nd2 ← rd nodes2 i
  wr nodes2 i { nd2.setChildren nd.nchildren with name := (i : Int), dist := nd.dist }

/-- Body of the inner loop of `Tree::copy`: child slot `j` of node `i`. -/
def copyChildBody (t : Tree) (i j : Nat) (nodes2 : List Node) : Except Fault (List Node) := do
  let nd ← rd t.nodes i
  let child ← rd nd.children j
  let nd2 ← rd nodes2 i
  match child with
  | some c => do
    -- nodes2[i]->children[j] = nodes2[child->name]
    let cn ← rd t.nodes c
    let k ← idx cn.name
    let _ ← rd nodes2 k
    let slots ← wr nd2.children j (some k)
    wr nodes2 i { nd2 with children := slots }
  | none => do
    let slots ← wr nd2.children j none
    wr nodes2 i { nd2 with children := slots }

/-- Body of the second loop of `Tree::copy`: the links of node `i`. -/
def copyLinkBody (t : Tree) (i : Nat) (nodes2 : List Node) : Except Fault (List Node) := do
  let nd ← rd t.nodes i
  let nodes2 ← forUp (copyChildBody t i) nd.nchildren 0 nodes2
  let nd2 ← rd nodes2 i
  match nd.parent with
  | some q => do
    -- nodes2[i]->parent = nodes2[parent->name]
    let pn ← rd t.nodes q
    let k ← idx pn.name
    let _ ← rd nodes2 k
    wr nodes2 i { nd2 with parent := some k }
  | none => wr nodes2 i { nd2 with parent := none }

/-- The method `Tree::copy`. -/
def Tree.copy (t : Tree) : Except Fault Tree := do
  let tree2 := Tree.create t.nnodes
  let nodes2 ← forUp (copyInitBody t) t.nnodes 0 tree2.nodes
  let nodes2 ← forUp (copyLinkBody t) t.nnodes 0 nodes2
  -- tree2->root = nodes2[root->name]
  let r ← deref t.root
  let rn ← rd t.nodes r
  let k ← idx rn.name
  let _ ← rd nodes2 k
  pure { tree2 with nodes := nodes2, root := some k }

/-- Node `j` of the copy after the first loop of `Tree::copy`. -/
def copyInitNode (nd : Node) (j : Nat) : Node :=
  { name := (j : Int), parent := none, children := List.replicate nd.nchildren none,
    nchildren := nd.nchildren, dist := nd.dist }

/-- Node `j` of the copy once its first `m` child slots are filled. -/
def copyPartNode (nd : Node) (j m : Nat) : Node :=
  { copyInitNode nd j with
    children := nd.children.take m ++ List.replicate (nd.nchildren - m) none }

/-- Node `j` of the finished copy. -/
def copyFinalNode (nd : Node) (j : Nat) : Node :=
  { name := (j : Int), parent := nd.parent, children := nd.children.take nd.nchildren,
    nchildren := nd.nchildren, dist := nd.dist }

/-- A five-node tree: root 4 with children 2 and 3, node 2 with the leaves 0
and 1. -/
def fiveTree : Tree :=
  { nnodes := 5
    nodes := [
      { name := 0, parent := some 2, children := [], nchildren := 0, dist := 1 },
      { name := 1, parent := some 2, children := [], nchildren := 0, dist := 2 },
      { name := 2, parent := some 4, children := [some 0, some 1], nchildren := 2, dist := 3 },
      { name := 3, parent := some 4, children := [], nchildren := 0, dist := 4 },
      { name := 4, parent := none, children := [some 2, some 3], nchildren := 2, dist := 0 }]
    root := some 4 }

/-- State of the copy while the child slots of node `i` are being filled. -/
def CopyChildInv (n i : Nat) (nd : Node) (nodes0 : List Node) (m : Nat) (nodes2 : List Node) :
    Prop :=
  nodes2.length = n ∧ (∀ j, j ≠ i → nodes2[j]? = nodes0[j]?) ∧
    nodes2[i]? = some (copyPartNode nd i m)

/-! ## Rerooting -/

/-- The function `findval` of `common.h`, scanning from index `i` with `count`
slots left: the first index at which `array` holds `val`, or `-1`. -/
def findvalFrom {α : Type} [DecidableEq α] (array : List α) (val : α) :
    Nat → Nat → Except Fault Int
  | 0, _ => .ok (-1)
  | count + 1, i =>
    match rd array i with
    | .ok x => if x = val then .ok (i : Int) else findvalFrom array val count (i + 1)
    | .error e => .error e

/-- The function `findval` of `common.h`. -/
def findval {α : Type} [DecidableEq α] (array : List α) (size : Nat) (val : α) :
    Except Fault Int :=
  findvalFrom array val size 0

/-- The node a pointer refers to (`*p`). -/
def Tree.node (t : Tree) (p : Option Nat) : Except Fault Node := do
  let i ← deref p
  rd t.nodes i

/-- The assignment `p->children[slot] = v`. -/
def Tree.setChild (t : Tree) (p : Option Nat) (slot : Int) (v : Option Nat) :
    Except Fault Tree := do
  let i ← deref p
  let nd ← rd t.nodes i
  let s ← idx slot
  let slots ← wr nd.children s v
  let nodes ← wr t.nodes i { nd with children := slots }
  pure { t with nodes := nodes }

/-- The assignment `p->parent = v`. -/
def Tree.setParent (t : Tree) (p : Option Nat) (v : Option Nat) : Except Fault Tree := do
  let i ← deref p
  let nd ← rd t.nodes i
  let nodes ← wr t.nodes i { nd with parent := v }
  pure { t with nodes := nodes }

/-- The assignment `p->name = v`. -/
def Tree.setName (t : Tree) (p : Option Nat) (v : Int) : Except Fault Tree := do
  let i ← deref p
  let nd ← rd t.nodes i
  let nodes ← wr t.nodes i { nd with name := v }
  pure { t with nodes := nodes }

/-- A run of `reroot` ends with the tree it returns, or stops with a fault
and the tree as it stood at that moment. -/
abbrev Run (α : Type) := Except (Fault × Tree) α

/-- Perform a memory step on tree `t`: a fault stops the run in state `t`. -/
def onTree {α : Type} (t : Tree) (x : Except Fault α) : Run α :=
  match x with
  | .ok a => .ok a
  | .error e => .error (e, t)

/-- The test of the trivial case of `Tree::reroot`, with the short-circuit
evaluation of `||` and `&&`. -/
def rerootTrivial (t : Tree) (newroot : Option Nat) (onBranch : Bool) : Except Fault Bool :=
  if t.root = newroot then pure true
  else if onBranch then do
    let rn ← t.node t.root
    if rn.nchildren = 2 then do
      let c0 ← rd rn.children 0
      if c0 = newroot then pure true
      else do
        let c1 ← rd rn.children 1
        pure (decide (c1 = newroot))
    else pure false
  else pure false

/-- The `while` loop of `Tree::reroot` ("reverse parent child relationships"),
run for at most `fuel` rounds; it returns the tree and the final `ptr1`,
`ptr2`. -/
def rerootLoop (stop1 stop2 : Option Nat) :
    Nat → Tree → Option Nat → Option Nat → Run (Tree × Option Nat × Option Nat)
  | fuel, t, ptr1, ptr2 =>
    if ptr1 ≠ stop1 ∧ ptr1 ≠ stop2 then
      match fuel with
      | 0 => .error (.outOfFuel, t)
      | fuel + 1 => do
        let n1 ← onTree t (t.node ptr1)
        let oldchild ← onTree t (findval n1.children n1.nchildren ptr2)
        if oldchild = -1 then .error (.assertFailed, t) else
        let next := n1.parent
        -- ptr1 is now fixed
        let t1 ← onTree t (t.setChild ptr1 oldchild next)
        let t2 ← onTree t1 (t1.setParent ptr1 ptr2)
        -- move pointers
        rerootLoop stop1 stop2 fuel t2 next ptr1
    else .ok (t, ptr1, ptr2)

/-- The method `Tree::reroot`, with assertions enabled.  The local array
`path` is only ever appended to and is left out. -/
def Tree.reroot (fuel : Nat) (t : Tree) (newroot : Option Nat) (onBranch : Bool) : Run Tree := do
  -- handle trivial case, newroot is root
  let trivial ← onTree t (rerootTrivial t newroot onBranch)
  if trivial then .ok t else
  -- determine where to stop ascending
  let oldroot := t.root
  let (stop1, stop2) ← onTree t (
    if t.isRooted then do
      let rn ← t.node t.root
      let c0 ← rd rn.children 0
      let c1 ← rd rn.children 1
      pure (c0, c1)
    else pure (t.root, none))
  -- start the reversal
  let (t1, ptr1, ptr2) ←
    (if onBranch then
      if t.isRooted then do
        -- just need to stick current root somewhere else
        let nr ← onTree t (t.node newroot)
        let other := nr.parent
        let ta ← onTree t (t.setChild oldroot 0 newroot)
        let tb ← onTree ta (ta.setChild oldroot 1 other)
        let tc ← onTree tb (tb.setParent newroot oldroot)
        pure (tc, other, newroot)
      else .error (.assertFailed, t)
    else .error (.assertFailed, t) : Run (Tree × Option Nat × Option Nat))
  -- reverse parent child relationships
  let (t2, ptr1, ptr2) ← rerootLoop stop1 stop2 fuel t1 ptr1 ptr2
  -- handle last two nodes
  let t3 ←
    (if stop2 ≠ none then do
      -- make stop1 parent of stop2
      let (stop1, stop2) := if stop2 = ptr1 then (ptr1, stop1) else (stop1, stop2)
      if ptr1 ≠ stop1 then .error (.assertFailed, t2) else
      let s1 ← onTree t2 (t2.node stop1)
      let oldchild ← onTree t2 (findval s1.children s1.nchildren ptr2)
      let ta ← onTree t2 (t2.setChild stop1 oldchild stop2)
      let tb ← onTree ta (ta.setParent stop1 ptr2)
      onTree tb (tb.setParent stop2 stop1)
    else pure t2 : Run Tree)
  -- assert(root->name = nnodes-1)
  let t4 ← onTree t3 (t3.setName t3.root ((t3.nnodes : Int) - 1))
  if (t3.nnodes : Int) - 1 = 0 then .error (.assertFailed, t4) else
  pure t4


/-- A five-node tree whose root is node 0: the root has the children 1 and 2,
node 1 has the leaves 3 and 4. -/
def rootFirstFive : Tree :=
  { nnodes := 5
    nodes := [
      { name := 0, parent := none, children := [some 1, some 2], nchildren := 2, dist := 0 },
      { name := 1, parent := some 0, children := [some 3, some 4], nchildren := 2, dist := 1 },
      { name := 2, parent := some 0, children := [], nchildren := 0, dist := 2 },
      { name := 3, parent := some 1, children := [], nchildren := 0, dist := 3 },
      { name := 4, parent := some 1, children := [], nchildren := 0, dist := 4 }]
    root := some 0 }
/-! ## Neighbor joining -/

/-- The constant `MAX_FLOAT` of `Tree.cpp`. -/
def MAX_FLOAT : ℚ := 10000000000

/-- The local state of `neighborjoin` together with its two output arrays.
`dists` is the `Matrix<float>` as a list of rows; `denoms` is not a variable
of the program: it records, latest first, every integer denominator `ngenes - 2` or
`nleaves - 2` that a division has used. -/
structure NJ where
  dists : List (List ℚ)
  restdists : List ℚ
  leaves : List Int
  nleaves : Nat
  newnode : Nat
  ptree : List Int
  branches : List ℚ
  denoms : List Int

/-- Read the matrix entry `m[i][j]`. -/
def rd2 (m : List (List ℚ)) (i j : Nat) : Except Fault ℚ := do
  let row ← rd m i
  rd row j

/-- Write the matrix entry `m[i][j] = x`. -/
def wr2 (m : List (List ℚ)) (i j : Nat) (x : ℚ) : Except Fault (List (List ℚ)) := do
  let row ← rd m i
  let row1 ← wr row j x
  wr m i row1

/-- Body of the inner loop of the initialisation: `dists[i][j] = distmat[i][j]`
and `r += distmat[i][j]`. -/
def njInitEntry (distmat : List (List ℚ)) (i j : Nat) (s : List (List ℚ) × ℚ) :
    Except Fault (List (List ℚ) × ℚ) := do
  let x ← rd2 distmat i j
  let dists ← wr2 s.1 i j x
  pure (dists, s.2 + x)

/-- Body of the outer loop of the initialisation ("initialize distances"). -/
def njInitRow (ngenes : Nat) (distmat : List (List ℚ)) (i : Nat) (st : NJ) :
    Except Fault NJ := do
  let (dists, r) ← forUp (njInitEntry distmat i) ngenes 0 (st.dists, 0)
  let restdists ← wr st.restdists i (r / (((ngenes : Int) - 2 : Int) : ℚ))
  pure { st with dists := dists, restdists := restdists,
                 denoms := ((ngenes : Int) - 2) :: st.denoms }

/-- Body of the inner search loop ("search for closest genes"): the running
minimum `low` with its position `(lowi, lowj)`. -/
def njSearchBody (st : NJ) (i j : Nat) (acc : ℚ × Int × Int) : Except Fault (ℚ × Int × Int) := do
  let gene1 ← rd st.leaves i >>= idx
  let gene2 ← rd st.leaves j >>= idx
  let d ← rd2 st.dists gene1 gene2
  let r1 ← rd st.restdists gene1
  let r2 ← rd st.restdists gene2
  let dist := d - r1 - r2
  if dist < acc.1 then pure (dist, (i : Int), (j : Int)) else pure acc

/-- The search of one round: `(low, lowi, lowj)` after both loops. -/
def njSearch (st : NJ) : Except Fault (ℚ × Int × Int) :=
  forUp (fun i acc => forUp (njSearchBody st i) (st.nleaves - (i + 1)) (i + 1) acc)
    st.nleaves 0 (MAX_FLOAT, -1, -1)

/-- Body of the loop that computes the distances of the new node `parent`. -/
def njUpdateBody (lowgene1 lowgene2 parent : Nat) (leaves : List Int) (i : Nat)
    (s : List (List ℚ) × ℚ) : Except Fault (List (List ℚ) × ℚ) := do
  let gene ← rd leaves i >>= idx
  if gene ≠ parent then do
    let d1 ← rd2 s.1 lowgene1 gene
    let d2 ← rd2 s.1 lowgene2 gene
    let d12 ← rd2 s.1 lowgene1 lowgene2
    let v := (d1 + d2 - d12) / 2
    let dists ← wr2 s.1 parent gene v
    let dists ← wr2 dists gene parent v
    pure (dists, s.2 + v)
  else pure s

/-- One round of the join loop of `neighborjoin` (the body of
`while (nleaves > 2)`). -/
def njRound (st : NJ) : Except Fault NJ := do
  -- search for closest genes
  let (_, lowi, lowj) ← njSearch st
  -- join gene1 and gene2
  let li ← idx lowi
  let lj ← idx lowj
  let lowgene1 ← rd st.leaves li >>= idx
  let lowgene2 ← rd st.leaves lj >>= idx
  let parent := st.newnode
  let ptree ← wr st.ptree lowgene1 (parent : Int)
  let ptree ← wr ptree lowgene2 (parent : Int)
  -- set distances
  let d12 ← rd2 st.dists lowgene1 lowgene2
  let r1 ← rd st.restdists lowgene1
  let r2 ← rd st.restdists lowgene2
  let b1 := (d12 + r1 - r2) / 2
  let branches ← wr st.branches lowgene1 b1
  let b1' ← rd branches lowgene1
  let branches ← wr branches lowgene2 (d12 - b1')
  -- gene1 and gene2 are no longer leaves, remove them from leaf set
  let leaves ← wr st.leaves li (parent : Int)
  let last ← idx ((st.nleaves : Int) - 1) >>= rd leaves
  let leaves ← wr leaves lj last
  let nleaves := st.nleaves - 1
  let (dists, r) ← forUp (njUpdateBody lowgene1 lowgene2 parent leaves) nleaves 0 (st.dists, 0)
  if nleaves > 2 then do
    let restdists ← wr st.restdists parent (r / (((nleaves : Int) - 2 : Int) : ℚ))
    pure { st with dists := dists, restdists := restdists, leaves := leaves, nleaves := nleaves,
                   newnode := parent + 1, ptree := ptree, branches := branches,
                   denoms := ((nleaves : Int) - 2) :: st.denoms }
  else
    pure { st with dists := dists, leaves := leaves, nleaves := nleaves,
                   newnode := parent + 1, ptree := ptree, branches := branches }

/-- The join loop `while (nleaves > 2)`, run for at most `fuel` rounds. -/
def njLoop : Nat → NJ → Except Fault NJ
  | 0, st => if st.nleaves > 2 then .error .outOfFuel else .ok st
  | fuel + 1, st =>
    if st.nleaves > 2 then
      match njRound st with
      | .ok st1 => njLoop fuel st1
      | .error e => .error e
    else .ok st

/-- The state of `neighborjoin` when the join loop is entered: distances,
`restdists` and the leaf set initialised.  The matrix and `restdists` start
zero-filled; no entry is read before the program has written it. -/
def njInit (ngenes : Nat) (distmat : List (List ℚ)) (ptree : List Int) (branches : List ℚ) :
    Except Fault NJ := do
  let st0 : NJ :=
    { dists := List.replicate (ngenes * 2 - 1) (List.replicate (ngenes * 2 - 1) 0)
      restdists := List.replicate (ngenes * 2 - 1) 0
      leaves := List.replicate ngenes 0
      nleaves := ngenes
      newnode := ngenes
      ptree := ptree
      branches := branches
      denoms := [] }
  -- initialize distances
  let st1 ← forUp (njInitRow ngenes distmat) ngenes 0 st0
  -- initialize leaves
  let leaves ← forUp (fun i leaves => wr leaves i (i : Int)) ngenes 0 st1.leaves
  pure { st1 with leaves := leaves }

/-- The last step of `neighborjoin` ("join the last two genes"). -/
def njFinish (ngenes : Nat) (st : NJ) : Except Fault NJ := do
  let gene1 ← rd st.leaves 0 >>= idx
  let gene2 ← rd st.leaves 1 >>= idx
  let parent := st.newnode
  let ptree ← wr st.ptree gene1 (parent : Int)
  let ptree ← wr ptree gene2 (parent : Int)
  let ptree ← wr ptree parent (-1)
  let d12 ← rd2 st.dists gene1 gene2
  let branches ← wr st.branches gene1 (d12 / 2)
  let d12 ← rd2 st.dists gene1 gene2
  let branches ← wr branches gene2 (d12 / 2)
  let branches ← wr branches parent 0
  if (parent : Int) = (ngenes : Int) * 2 - 2 then
    pure { st with newnode := parent + 1, ptree := ptree, branches := branches }
  else .error .assertFailed

/-- The function `neighborjoin`: the final state, whose `ptree` and `branches`
are the output arrays.  Every round of the join loop decrements `nleaves`,
so `ngenes` rounds are enough fuel. -/
def neighborjoin (ngenes : Nat) (distmat : List (List ℚ)) (ptree : List Int)
    (branches : List ℚ) : Except Fault NJ := do
  let st ← njInit ngenes distmat ptree branches
  -- join loop
  let st ← njLoop ngenes st
  -- join the last two genes, split the remaining dist evenly
  njFinish ngenes st

/-- The state in which round `k` (counted from 0) of the join loop starts. -/
def njAtRound (ngenes : Nat) (distmat : List (List ℚ)) (ptree : List Int) (branches : List ℚ) :
    Nat → Except Fault NJ
  | 0 => njInit ngenes distmat ptree branches
  | k + 1 =>
    match njAtRound ngenes distmat ptree branches k with
    | .ok st => if st.nleaves > 2 then njRound st else .error .outOfBounds
    | .error e => .error e

/-- The distances of the four taxa A, B, C, D with AB = 2, AC = AD = BC = BD = 4,
CD = 2. -/
def fourTaxa : List (List ℚ) :=
  [[0, 2, 4, 4], [2, 0, 4, 4], [4, 4, 0, 2], [4, 4, 2, 0]]

/-- A symmetric, non-negative, zero-diagonal distance matrix for seven taxa;
every entry is a multiple of `10^12`. -/
def sevenTaxa : List (List ℚ) :=
  [[0, 0, 0, 28, 0, 0, 8],
   [0, 0, 0, 28, 0, 0, 8],
   [0, 0, 0, 26, 0, 1, 8],
   [28, 28, 26, 0, 41, 55, 68],
   [0, 0, 0, 41, 0, 40, 44],
   [0, 0, 1, 55, 40, 0, 24],
   [8, 8, 8, 68, 44, 24, 0]].map fun row => row.map fun x => x * 1000000000000

/-- The entry `m[i][j]` of a matrix given as a list of rows. -/
def entry (m : List (List ℚ)) (i j : Nat) : ℚ :=
  (m.getD i []).getD j 0

/-- The hypotheses on the input of `neighborjoin`: an `ngenes × ngenes` matrix
that is symmetric, non-negative and zero on the diagonal. -/
def IsDistanceMatrix (ngenes : Nat) (distmat : List (List ℚ)) : Prop :=
  distmat.length = ngenes ∧ (∀ row ∈ distmat, row.length = ngenes) ∧
  ∀ i, i < ngenes → ∀ j, j < ngenes →
    entry distmat i j = entry distmat j i ∧ 0 ≤ entry distmat i j ∧ entry distmat i i = 0

instance (ngenes : Nat) (distmat : List (List ℚ)) : Decidable (IsDistanceMatrix ngenes distmat) := by
  unfold IsDistanceMatrix; infer_instance

/-- The distances of four taxa with AB = 2, CD = 4 and all other distances 5. -/
def fourTaxaUneven : List (List ℚ) :=
  [[0, 2, 5, 5], [2, 0, 5, 5], [5, 5, 0, 4], [5, 5, 4, 0]]

/-- The current leaves of a state: the first `nleaves` entries of `leaves`. -/
def NJ.current (st : NJ) : List Int :=
  st.leaves.take st.nleaves

/-- The value `restdist` of leaf `x` recomputed over the current leaf set: the
sum of the distances from `x` to the other current leaves, divided by the
number of current leaves minus two. -/
def NJ.freshRestdist (st : NJ) (x : Int) : ℚ :=
  ((st.current.filter fun y => y ≠ x).map fun y => entry st.dists x.toNat y.toNat).sum /
    (((st.nleaves : Int) - 2 : Int) : ℚ)

/-- The nodes from `x` up to the root of a parent array, following at most
`fuel` parent entries. -/
def rootPath (ptree : List Int) : Nat → Int → List Nat
  | 0, _ => []
  | fuel + 1, x => if x < 0 then [] else x.toNat :: rootPath ptree fuel (ptree.getD x.toNat (-1))

/-- The length of the path between nodes `i` and `j` of the tree given by a
parent array and its branch lengths: the branches of the nodes that lie on
exactly one of the two paths to the root. -/
def treeDist (ptree : List Int) (branches : List ℚ) (i j : Nat) : ℚ :=
  let pi := rootPath ptree ptree.length i
  let pj := rootPath ptree ptree.length j
  ((pi.filter fun x => x ∉ pj).map fun x => branches.getD x 0).sum +
    ((pj.filter fun x => x ∉ pi).map fun x => branches.getD x 0).sum

/-! ## Reconciliation -/

/-- A species tree (`class SpeciesTree`, a `Tree` with the array `depths`); the
class is declared in `Tree.h`, which is not part of the sources. -/
structure SpeciesTree where
  tree : Tree
  depths : List Int

/-- The entry `stree->depths[p->name]` for a node pointer `p`. -/
def SpeciesTree.depthAt (s : SpeciesTree) (p : Option Nat) : Except Fault Int := do
  let nd ← s.tree.node p
  let i ← idx nd.name
  rd s.depths i

/-- The first two loops of `treeLca`, each of the shape
`while (depth > target) { node = node->parent; depth = depths[node->name]; }`,
run for at most `fuel` rounds. -/
def lcaClimb (s : SpeciesTree) (target : Int) : Nat → Option Nat → Int →
    Except Fault (Option Nat × Int)
  | fuel, node, depth =>
    if depth > target then
      match fuel with
      | 0 => .error .outOfFuel
      | fuel + 1 => do
        let nd ← s.tree.node node
        let node1 := nd.parent
        let depth1 ← s.depthAt node1
        lcaClimb s target fuel node1 depth1
    else .ok (node, depth)

/-- The last loop of `treeLca` ("walk up both nodes until they meet"), run for
at most `fuel` rounds. -/
def lcaMeet (s : SpeciesTree) : Nat → Option Nat → Option Nat → Except Fault (Option Nat)
  | fuel, node1, node2 =>
    if node1 ≠ node2 then
      match fuel with
      | 0 => .error .outOfFuel
      | fuel + 1 => do
        let n1 ← s.tree.node node1
        let n2 ← s.tree.node node2
        lcaMeet s fuel n1.parent n2.parent
    else .ok node1

/-- The function `treeLca`; every loop may run for at most `fuel` rounds. -/
def treeLca (fuel : Nat) (s : SpeciesTree) (node1 node2 : Option Nat) :
    Except Fault (Option Nat) := do
  let depth1 ← s.depthAt node1
  let depth2 ← s.depthAt node2
  -- get nodes to same depth
  let (node1, node2) ←
    (if node1 ≠ node2 then do
      let (node1, depth1) ← lcaClimb s depth2 fuel node1 depth1
      let (node2, _) ← lcaClimb s depth1 fuel node2 depth2
      pure (node1, node2)
    else pure (node1, node2) : Except Fault (Option Nat × Option Nat))
  -- walk up both nodes until they meet
  lcaMeet s fuel node1 node2

/-- The `k`-th ancestor of node `x` along the parent links (`x` itself for
`k = 0`), if there is one. -/
def Tree.anc (t : Tree) (x : Nat) : Nat → Option Nat
  | 0 => some x
  | k + 1 => (t.anc x k).bind t.parentOf

/-- Node `a` is an ancestor of node `x` or `x` itself. -/
def Tree.IsAnc (t : Tree) (a x : Nat) : Prop :=
  ∃ k, t.anc x k = some a

/-- Node `l` is the least common ancestor of `x` and `y`: an ancestor-or-self
of both, and a descendant-or-self of every common ancestor. -/
def Tree.IsLca (t : Tree) (l x y : Nat) : Prop :=
  t.IsAnc l x ∧ t.IsAnc l y ∧ ∀ c, t.IsAnc c x → t.IsAnc c y → t.IsAnc c l

/-- The entry `depths[i]` as a number of edges (0 when the entry is missing
or negative). -/
def SpeciesTree.depthOf (s : SpeciesTree) (i : Nat) : Nat :=
  (s.depths.getD i (-1)).toNat

/-- A well-formed species tree with current depths: the arena and `depths`
have `nnodes` entries, node `i` has identity `i`, the root has no parent, and
for every node `i` the entry `depths[i]` is the number of parent links from
`i` to the root (all of them inside the arena). -/
def SpeciesTree.WellFormed (s : SpeciesTree) : Prop :=
  s.tree.nodes.length = s.tree.nnodes ∧ s.depths.length = s.tree.nnodes ∧ s.tree.Named ∧
  ∃ r, r < s.tree.nnodes ∧ s.tree.root = some r ∧ s.tree.parentOf r = none ∧
    ∀ i, i < s.tree.nnodes → 0 ≤ s.depths.getD i (-1) ∧
      s.tree.anc i (s.depthOf i) = some r ∧
      ∀ k, k < s.depthOf i → ∃ a, a < s.tree.nnodes ∧ s.tree.anc i k = some a

instance (s : SpeciesTree) : Decidable s.WellFormed := by
  unfold SpeciesTree.WellFormed; infer_instance

/-- A species tree on five nodes: root 4 with children 2 and 3, node 2 with
the leaves 0 and 1. -/
def fiveSpecies : SpeciesTree :=
  { tree := fiveTree, depths := [2, 2, 1, 1, 0] }

/-- The entry `recon[p->name]` for a node pointer `p` of the gene tree. -/
def reconAt (tree : Tree) (recon : List Int) (p : Option Nat) : Except Fault Int := do
  let nd ← tree.node p
  let i ← idx nd.name
  rd recon i

/-- The function `reconcile_helper`, with at most `fuel` nested calls; `treeLca`
is run with fuel `lcaFuel`. -/
def reconcileHelper (lcaFuel : Nat) (tree : Tree) (stree : SpeciesTree) :
    Nat → Option Nat → List Int → Except Fault (List Int)
  | 0, _, _ => .error .outOfFuel
  | fuel + 1, node, recon => do
    let nd ← tree.node node
    -- recurse
    let recon ← forUp (fun i recon => do
        let child ← rd nd.children i
        reconcileHelper lcaFuel tree stree fuel child recon)
      nd.nchildren 0 recon
    if nd.nchildren > 0 then do
      let child0 ← rd nd.children 0
      let sname1 ← reconAt tree recon child0
      let child1 ← rd nd.children 1
      let sname2 ← reconAt tree recon child1
      -- this node's species is lca of children species
      let s1 ← idx sname1
      let _ ← rd stree.tree.nodes s1
      let s2 ← idx sname2
      let _ ← rd stree.tree.nodes s2
      let lca ← treeLca lcaFuel stree (some s1) (some s2)
      let lcaNode ← stree.tree.node lca
      let i ← idx nd.name
      wr recon i lcaNode.name
    else pure recon

/-- Body of the loop of `reconcile` ("label gene leaves with their species"). -/
def seedBody (tree : Tree) (gene2species : List Int) (i : Nat) (recon : List Int) :
    Except Fault (List Int) := do
  let nd ← rd tree.nodes i
  if nd.nchildren = 0 then do
    let sp ← rd gene2species i
    wr recon i sp
  else pure recon

/-- The function `reconcile`: the array `recon` after the call. -/
def reconcile (lcaFuel fuel : Nat) (tree : Tree) (stree : SpeciesTree)
    (gene2species : List Int) (recon : List Int) : Except Fault (List Int) := do
  let recon ← forUp (seedBody tree gene2species) tree.nnodes 0 recon
  reconcileHelper lcaFuel tree stree fuel tree.root recon

/-- Modelled from the spec: the event constants `EVENT_GENE`, `EVENT_SPEC` and
`EVENT_DUP` of `Tree.h` are not part of the sources; an event label is "one of
{GENE (leaf), DUPLICATION, SPECIATION}". -/
inductive Event where
  | gene
  | spec
  | dup
  deriving DecidableEq, Repr

/-- Body of the loop of `labelEvents`, with the short-circuit evaluation of
`||`. -/
def labelBody (tree : Tree) (recon : List Int) (i : Nat) (events : List Event) :
    Except Fault (List Event) := do
  let nd ← rd tree.nodes i
  if nd.nchildren = 0 then wr events i .gene
  else do
    let ri ← rd recon i
    let child0 ← rd nd.children 0
    let r0 ← reconAt tree recon child0
    if ri = r0 then wr events i .dup
    else do
      let child1 ← rd nd.children 1
      let r1 ← reconAt tree recon child1
      if ri = r1 then wr events i .dup else wr events i .spec

/-- The function `labelEvents`: the array `events` after the call. -/
def labelEvents (tree : Tree) (recon : List Int) (events : List Event) :
    Except Fault (List Event) :=
  forUp (labelBody tree recon) tree.nnodes 0 events

/-- The nodes met by a walk from `x` that follows the children lists `kids`
for at most `fuel` levels, each node before its descendants. -/
def preorder (kids : Nat → List Nat) : Nat → Nat → List Nat
  | 0, _ => []
  | fuel + 1, x => x :: (kids x).flatMap (preorder kids fuel)

/-- The walk from `x` ends within `fuel` levels: no branch is cut off. -/
def covered (kids : Nat → List Nat) : Nat → Nat → Prop
  | 0, _ => False
  | fuel + 1, x => ∀ c ∈ kids x, covered kids fuel c

/-- A gene tree on three nodes: root 2 with the leaves 0 and 1. -/
def cherryTree : Tree :=
  { nnodes := 3
    nodes := [
      { name := 0, parent := some 2, children := [], nchildren := 0, dist := 1 },
      { name := 1, parent := some 2, children := [], nchildren := 0, dist := 1 },
      { name := 2, parent := none, children := [some 0, some 1], nchildren := 2, dist := 0 }]
    root := some 2 }

/-- A gene tree on four nodes whose root 3 has the three leaves 0, 1, 2 as
children. -/
def tripleTree : Tree :=
  { nnodes := 4
    nodes := [
      { name := 0, parent := some 3, children := [], nchildren := 0, dist := 1 },
      { name := 1, parent := some 3, children := [], nchildren := 0, dist := 1 },
      { name := 2, parent := some 3, children := [], nchildren := 0, dist := 1 },
      { name := 3, parent := none, children := [some 0, some 1, some 2], nchildren := 3,
        dist := 0 }]
    root := some 3 }

/-- Local well-formedness of a gene tree: all pointers point into the arena,
node `i` has identity `i`, and no child slot in use is `NULL`. -/
def Tree.Sound (t : Tree) : Prop :=
  t.Valid ∧ t.Named ∧ ∀ nd ∈ t.nodes, ∀ s ∈ nd.children.take nd.nchildren, s ≠ none

instance (t : Tree) : Decidable t.Sound := by
  unfold Tree.Sound; infer_instance

/-- Every node has zero or exactly two children. -/
def Tree.Binary (t : Tree) : Prop :=
  ∀ nd ∈ t.nodes, nd.nchildren = 0 ∨ nd.nchildren = 2

instance (t : Tree) : Decidable t.Binary := by
  unfold Tree.Binary; infer_instance

/-- The condition of `labelEvents` for a duplication at node `i`: `recon[i]`
equals `recon` of the first child or `recon` of the second child. -/
def IsDupAt (t : Tree) (recon : List Int) (i : Nat) : Prop :=
  ∃ c0 c1, t.kidSlots i = [some c0, some c1] ∧
    (recon[i]? = recon[c0]? ∨ recon[i]? = recon[c1]?)


/-- Every internal node has at least two children. -/
def Tree.Branching (t : Tree) : Prop :=
  ∀ nd ∈ t.nodes, nd.nchildren = 0 ∨ 2 ≤ nd.nchildren

instance (t : Tree) : Decidable t.Branching := by
  unfold Tree.Branching; infer_instance

/-- The entry `recon[y]` is the identity of a node of the species tree. -/
def InSpecies (s : SpeciesTree) (recon : List Int) (y : Nat) : Prop :=
  ∃ a : Nat, a < s.tree.nnodes ∧ recon[y]? = some (a : Int)

/-- The entry `recon[v]` is the identity of the node that `treeLca` returns
for the species nodes `recon[c0]` and `recon[c1]`, where `c0` and `c1` are
the first two children of `v`. -/
def LcaAt (lcaFuel : Nat) (t : Tree) (s : SpeciesTree) (recon : List Int) (v : Nat) : Prop :=
  ∃ (c0 c1 a b l : Nat), (t.kidSlots v)[0]? = some (some c0) ∧
    (t.kidSlots v)[1]? = some (some c1) ∧
    recon[c0]? = some (a : Int) ∧ recon[c1]? = some (b : Int) ∧
    treeLca lcaFuel s (some a) (some b) = .ok (some l) ∧
    recon[v]? = s.tree.nameOf (some l)

/-- What a run of `reconcile_helper` over the nodes `us` does to `recon`
(`recon0` before, `recon` after): the length is kept, the entries outside
`us` and the entries of leaves are kept, every entry of `us` is the identity
of a species node, and every internal node of `us` holds the LCA of the
entries of its first two children. -/
def ReconPost (lcaFuel : Nat) (t : Tree) (s : SpeciesTree) (us : List Nat)
    (recon0 recon : List Int) : Prop :=
  recon.length = recon0.length ∧
  (∀ y, (y ∉ us ∨ t.kidSlots y = []) → recon[y]? = recon0[y]?) ∧
  (∀ v ∈ us, InSpecies s recon v) ∧
  (∀ v ∈ us, t.kidSlots v ≠ [] → LcaAt lcaFuel t s recon v)
/-! ## Walks that end, and the state of `Tree::reroot` -/

/-- The walk from `x` along the children lists `kids` ends, and meets the
nodes `l` (in this order). -/
def Trav (kids : Nat → List Nat) (x : Nat) (l : List Nat) : Prop :=
  ∃ f, covered kids f x ∧ preorder kids f x = l

/-- State of the tree in `Tree::reroot` after `j` rounds of the reversal loop
along the path `u 0` (the new root's child), `u 1`, ... towards the old root
`r`: the root has the children `u 0` and `u 1`, node `u 0` hangs under the
root, the nodes `u 1 .. u j` have their path child replaced by their old
parent, and every other node is as in the tree `t` at the start. -/
def RerootInv (t : Tree) (u : Nat → Nat) (r j : Nat) (T : Tree) : Prop :=
  T.nnodes = t.nnodes ∧ T.root = t.root ∧ T.nodes.length = t.nodes.length ∧
  T.kidSlots r = [some (u 0), some (u 1)] ∧
  T.parentOf (u 0) = some r ∧ T.kidSlots (u 0) = t.kidSlots (u 0) ∧
  (∀ i, 1 ≤ i → i ≤ j → ∃ q, (t.kidSlots (u i))[q]? = some (some (u (i - 1))) ∧
    T.kidSlots (u i) = (t.kidSlots (u i)).set q (some (u (i + 1)))) ∧
  (∀ x, x ≠ r → x ≠ u 0 → (∀ i, 1 ≤ i → i ≤ j → x ≠ u i) → T.nodes[x]? = t.nodes[x]?)

/-- A seven-node tree: root 6 with children 4 and 5, node 4 with children 2
and 3, node 2 with the leaves 0 and 1. -/
def sevenTree : Tree :=
  { nnodes := 7
    nodes := [
      { name := 0, parent := some 2, children := [], nchildren := 0, dist := 1 },
      { name := 1, parent := some 2, children := [], nchildren := 0, dist := 1 },
      { name := 2, parent := some 4, children := [some 0, some 1], nchildren := 2, dist := 1 },
      { name := 3, parent := some 4, children := [], nchildren := 0, dist := 2 },
      { name := 4, parent := some 6, children := [some 2, some 3], nchildren := 2, dist := 1 },
      { name := 5, parent := some 6, children := [], nchildren := 0, dist := 3 },
      { name := 6, parent := none, children := [some 4, some 5], nchildren := 2, dist := 0 }]
    root := some 6 }

/-! ## Loop and memory lemmas -/

theorem forUp_inv {σ : Type} (body : Nat → σ → Except Fault σ) (Inv : Nat → σ → Prop) :
    ∀ (count lo : Nat) (s : σ), Inv lo s →
      (∀ i s, lo ≤ i → i < lo + count → Inv i s → ∃ s1, body i s = .ok s1 ∧ Inv (i + 1) s1) →
      ∃ s1, forUp body count lo s = .ok s1 ∧ Inv (lo + count) s1 := by
  intro count
  induction count with
  | zero => intro lo s h0 _; exact ⟨s, rfl, by simpa using h0⟩
  | succ c ih =>
    intro lo s h0 hstep
    obtain ⟨s1, hb, h1⟩ := hstep lo s (le_refl _) (by omega) h0
    obtain ⟨s2, hf, h2⟩ := ih (lo + 1) s1 h1 (fun i s hi hlt hI => hstep i s (by omega) (by omega) hI)
    refine ⟨s2, ?_, ?_⟩
    · simp only [forUp, hb]; exact hf
    · have : lo + (c + 1) = lo + 1 + c := by omega
      rw [this]; exact h2

theorem rd_ok {α : Type} {xs : List α} {i : Nat} {x : α} (h : xs[i]? = some x) :
    rd xs i = .ok x := by
  simp [rd, h]

theorem wr_ok {α : Type} {xs : List α} {i : Nat} (x : α) (h : i < xs.length) :
    wr xs i x = .ok (xs.set i x) := by
  simp [wr, h]

theorem idx_ok (k : Nat) : idx (k : Int) = .ok k := by
  simp [idx]

@[simp] theorem bind_ok {α β : Type} (a : α) (f : α → Except Fault β) :
    (Except.ok a >>= f) = f a := rfl

@[simp] theorem bind_error {α β : Type} (e : Fault) (f : α → Except Fault β) :
    ((Except.error e : Except Fault α) >>= f) = Except.error e := rfl

@[simp] theorem pure_eq_ok {α : Type} (a : α) : (pure a : Except Fault α) = Except.ok a := rfl

theorem childrenOf_succ (p : List Int) (k j : Nat) :
    childrenOf p (k + 1) j =
      childrenOf p k j ++ (if p[k]? = some (j : Int) then [k] else []) := by
  simp only [childrenOf, List.range_succ, List.filter_append, List.filter_cons, List.filter_nil]
  congr 1
  by_cases h : p[k]? = some (j : Int) <;> simp [h]

theorem childrenOf_length_mono (p : List Int) (j : Nat) {k n : Nat} (h : k ≤ n) :
    (childrenOf p k j).length ≤ (childrenOf p n j).length := by
  induction h with
  | refl => exact le_refl _
  | step _ ih =>
    rw [childrenOf_succ, List.length_append]
    omega

theorem ptree2tree_alloc (n : Nat) (nodes0 : List Node) (hlen : n ≤ nodes0.length) :
    ∃ nodes, forUp allocBody n 0 nodes0 = .ok nodes ∧ nodes.length = nodes0.length ∧
      ∀ j, j < n → ∃ nd, nodes[j]? = some nd ∧ nd.name = (j : Int) ∧
        nd.children = [none, none] ∧ nd.nchildren = 0 := by
  have h := forUp_inv allocBody
    (fun k (nodes : List Node) => nodes.length = nodes0.length ∧
      ∀ j, j < k → ∃ nd, nodes[j]? = some nd ∧ nd.name = (j : Int) ∧
        nd.children = [none, none] ∧ nd.nchildren = 0)
    n 0 nodes0 ⟨rfl, fun j hj => absurd hj (Nat.not_lt_zero _)⟩ ?_
  · simpa using h
  · intro i nodes _ hi ⟨hl, hI⟩
    have hi' : i < nodes.length := by omega
    obtain ⟨nd, hnd⟩ : ∃ nd, nodes[i]? = some nd := ⟨nodes[i], List.getElem?_eq_getElem hi'⟩
    refine ⟨nodes.set i { nd.allocChildren 2 with name := (i : Int), nchildren := 0 },
      by simp only [allocBody, rd_ok hnd, bind_ok, wr_ok _ hi'], by simpa using hl, ?_⟩
    intro j hj
    by_cases hji : j = i
    · subst hji
      exact ⟨{ nd.allocChildren 2 with name := (j : Int), nchildren := 0 },
        by simp [List.getElem?_set, hi'], rfl, rfl, rfl⟩
    · obtain ⟨nd', h1, h2⟩ := hI j (by omega)
      exact ⟨nd', by simp [List.getElem?_set, Ne.symm hji, h1], h2⟩

theorem take_succ_set {α : Type} (x : α) : ∀ (l : List α) (i : Nat), i < l.length →
    (l.set i x).take (i + 1) = l.take i ++ [x]
  | [], _, h => absurd h (Nat.not_lt_zero _)
  | _ :: _, 0, _ => rfl
  | a :: l, i + 1, h => by
    have := take_succ_set x l i (by simpa using h)
    simp [List.set, List.take, this]

theorem childrenOf_succ_ne (p : List Int) (k j : Nat) (h : p[k]? ≠ some (j : Int)) :
    childrenOf p (k + 1) j = childrenOf p k j := by
  rw [childrenOf_succ, if_neg h, List.append_nil]

theorem childrenOf_succ_eq (p : List Int) (k j : Nat) (h : p[k]? = some (j : Int)) :
    childrenOf p (k + 1) j = childrenOf p k j ++ [k] := by
  rw [childrenOf_succ, if_pos h]

theorem linkBody_step (p : List Int) (n len k : Nat) (nodes : List Node)
    (hn : n ≤ len) (hk : k < n)
    (hrange : p[k]? = some (-1) ∨ ∃ q, q < n ∧ p[k]? = some (q : Int))
    (hbin : ∀ j, j < n → (childrenOf p n j).length ≤ 2)
    (hI : LinkInv p n len k nodes) :
    ∃ nodes1, linkBody p k nodes = .ok nodes1 ∧ LinkInv p n len (k + 1) nodes1 := by
  obtain ⟨hl, hI⟩ := hI
  have hklen : k < nodes.length := by omega
  obtain ⟨nd, hnd, hname, hcl, hnc, htake, hpar⟩ := hI k hk
  rcases hrange with hm | ⟨q, hq, hpq⟩
  · -- the sentinel: only the parent pointer of node `k` is written
    refine ⟨nodes.set k { nd with parent := none }, ?_, by simpa using hl, ?_⟩
    · simp [linkBody, rd_ok hm, rd_ok hnd, wr_ok _ hklen]
    · intro j hj
      have hne : p[k]? ≠ some (j : Int) := by
        rw [hm]; intro h; injection h with h; omega
      rw [childrenOf_succ_ne p k j hne]
      by_cases hjk : j = k
      · subst hjk
        refine ⟨{ nd with parent := none }, by simp [List.getElem?_set, hklen], hname, hcl, hnc,
          htake, fun _ => ⟨fun _ => rfl, fun q hq => ?_⟩⟩
        rw [hm] at hq; injection hq with hq; omega
      · obtain ⟨nd1, h1, h2, h3, h4, h5, h6⟩ := hI j hj
        exact ⟨nd1, by simp [List.getElem?_set, Ne.symm hjk, h1], h2, h3, h4, h5,
          fun hlt => h6 (by omega)⟩
  · -- a parent `q`: node `k` is appended to the children of `q`
    obtain ⟨pn, hpn, hpname, hpcl, hpnc, hptake, hppar⟩ := hI q hq
    have hqlen : q < nodes.length := by omega
    have hroom : pn.nchildren < pn.children.length := by
      have h1 := childrenOf_length_mono p q (show k + 1 ≤ n by omega)
      rw [childrenOf_succ_eq p k q hpq, List.length_append] at h1
      have h2 := hbin q hq
      simp at h1
      omega
    have hneg : (q : Int) ≠ -1 := by omega
    let pn1 : Node :=
      { pn with children := pn.children.set pn.nchildren (some k), nchildren := pn.nchildren + 1 }
    let nodes1 := nodes.set q pn1
    have hk1 : k < nodes1.length := by simpa [nodes1] using hklen
    obtain ⟨nd1, hnd1⟩ : ∃ nd1, nodes1[k]? = some nd1 := ⟨nodes1[k], List.getElem?_eq_getElem hk1⟩
    refine ⟨nodes1.set k { nd1 with parent := some q }, ?_, by simpa [nodes1] using hl, ?_⟩
    · simp only [linkBody, rd_ok hpq, bind_ok, hneg, ne_eq, not_false_eq_true, if_true, idx_ok,
        rd_ok hpn, wr_ok _ hroom, wr_ok _ hqlen]
      show (rd nodes1 k >>= fun nd => wr nodes1 k { nd with parent := some q }) = _
      simp only [rd_ok hnd1, bind_ok, wr_ok _ hk1]
    · -- the node at `j` before the parent pointer of `k` is written
      have hmid : ∀ j, j < n → ∃ m, nodes1[j]? = some m ∧ m.name = (j : Int) ∧
          m.children.length = 2 ∧ m.nchildren = (childrenOf p (k + 1) j).length ∧
          m.children.take m.nchildren = (childrenOf p (k + 1) j).map some ∧
          (j < k → (p[j]? = some (-1) → m.parent = none) ∧
            ∀ q : Nat, p[j]? = some (q : Int) → m.parent = some q) := by
        intro j hj
        by_cases hjq : j = q
        · subst hjq
          refine ⟨pn1, by simp [nodes1, List.getElem?_set, hqlen], hpname, by simpa [pn1] using hpcl,
            ?_, ?_, hppar⟩
          · rw [childrenOf_succ_eq p k j hpq]; simp [pn1, hpnc]
          · rw [childrenOf_succ_eq p k j hpq]
            show (pn.children.set pn.nchildren (some k)).take (pn.nchildren + 1) = _
            rw [take_succ_set _ _ _ hroom, hptake]; simp
        · obtain ⟨m, h1, h2, h3, h4, h5, h6⟩ := hI j hj
          have hne : p[k]? ≠ some (j : Int) := by
            rw [hpq]; intro h; injection h with h; omega
          rw [childrenOf_succ_ne p k j hne]
          exact ⟨m, by simp [nodes1, List.getElem?_set, Ne.symm hjq, h1], h2, h3, h4, h5, h6⟩
      intro j hj
      by_cases hjk : j = k
      · subst hjk
        obtain ⟨m, h1, h2, h3, h4, h5, _⟩ := hmid j hj
        have hm : m = nd1 := by rw [hnd1] at h1; injection h1 with h1; exact h1.symm
        subst hm
        refine ⟨{ m with parent := some q }, by simp [List.getElem?_set, hk1], h2, h3, h4, h5,
          fun _ => ⟨fun h => ?_, fun q1 h => ?_⟩⟩
        · rw [hpq] at h; injection h with h; omega
        · rw [hpq] at h; injection h with h
          have : q = q1 := by omega
          subst this; rfl
      · obtain ⟨m, h1, h2, h3, h4, h5, h6⟩ := hmid j hj
        exact ⟨m, by simp [List.getElem?_set, Ne.symm hjk, h1], h2, h3, h4, h5,
          fun hlt => h6 (by omega)⟩

theorem ptree2tree_links (n : Nat) (p : List Int) (tree : Tree)
    (hn : 0 < n) (harena : n ≤ tree.nodes.length)
    (hrange : ∀ i, i < n → p[i]? = some (-1) ∨ ∃ q, q < n ∧ p[i]? = some (q : Int))
    (hbin : ∀ j, j < n → (childrenOf p n j).length ≤ 2) :
    ∃ nodes, ptree2tree n p tree = .ok { tree with nodes := nodes, root := some (n - 1) } ∧
      LinkInv p n tree.nodes.length n nodes := by
  obtain ⟨nodes1, hf1, hl1, hA⟩ := ptree2tree_alloc n tree.nodes harena
  have h0 : LinkInv p n tree.nodes.length 0 nodes1 := by
    refine ⟨hl1, fun j hj => ?_⟩
    obtain ⟨nd, h1, h2, h3, h4⟩ := hA j hj
    exact ⟨nd, h1, h2, by simp [h3], by simp [h4, childrenOf], by simp [h4, childrenOf],
      fun h => absurd h (Nat.not_lt_zero _)⟩
  obtain ⟨nodes2, hf2, hI⟩ := forUp_inv (linkBody p) (LinkInv p n tree.nodes.length) n 0 nodes1 h0
    (fun i s _ hi hI => linkBody_step p n _ i s harena (by omega) (hrange i (by omega)) hbin hI)
  rw [Nat.zero_add] at hI
  refine ⟨nodes2, ?_, hI⟩
  obtain ⟨nd, hnd, _⟩ := hI.2 (n - 1) (by omega)
  have hidx : idx ((n : Int) - 1) = .ok (n - 1) := by
    have : ((n : Int) - 1) = ((n - 1 : Nat) : Int) := by omega
    rw [this, idx_ok]
  simp only [ptree2tree, hf1, hf2, bind_ok, hidx, rd_ok hnd, pure_eq_ok]

theorem tree2ptree_eq (t : Tree) (p : List Int) (hlen : p.length = t.nnodes)
    (h : ∀ i, i < t.nnodes → ∃ nd, t.nodes[i]? = some nd ∧
      ((nd.parent = none ∧ p[i]? = some (-1)) ∨
        ∃ q pn, nd.parent = some q ∧ t.nodes[q]? = some pn ∧ p[i]? = some pn.name)) :
    tree2ptree t = .ok p := by
  obtain ⟨l, hf, hl⟩ := forUp_inv (parentBody t) (fun k l => l = p.take k) t.nnodes 0 []
    (by simp) (by
      intro i l _ hi hI
      obtain ⟨nd, hnd, hcase⟩ := h i (by omega)
      rcases hcase with ⟨hp, hpi⟩ | ⟨q, pn, hp, hq, hpi⟩
      · refine ⟨l ++ [-1], by simp [parentBody, rd_ok hnd, hp], ?_⟩
        show l ++ [-1] = List.take (i + 1) p
        rw [List.take_succ, hpi, hI]; rfl
      · refine ⟨l ++ [pn.name], by simp [parentBody, rd_ok hnd, hp, rd_ok hq], ?_⟩
        show l ++ [pn.name] = List.take (i + 1) p
        rw [List.take_succ, hpi, hI]; rfl)
  rw [tree2ptree, hf, hl, Nat.zero_add, ← hlen, List.take_length]

/-! ## Parent arrays and trees: the round trips -/

theorem IsParentArray.entry {n : Nat} {p : List Int} (h : IsParentArray n p) (i : Nat)
    (hi : i < n) : p[i]? = some (-1) ∨ ∃ q, q < n ∧ p[i]? = some (q : Int) := by
  obtain ⟨hlen, hall⟩ := h
  have hi' : i < p.length := by omega
  have hget : p[i]? = some p[i] := List.getElem?_eq_getElem hi'
  rcases hall p[i] (List.getElem_mem hi') with h1 | ⟨h1, h2⟩
  · left; rw [hget, h1]
  · right
    refine ⟨p[i].toNat, by omega, ?_⟩
    rw [hget, Int.toNat_of_nonneg h1]

theorem linkInv_tree2ptree {n : Nat} {p : List Int} {nodes : List Node} (tree : Tree)
    (hp : IsParentArray n p) (hsz : tree.nnodes = n)
    (hI : LinkInv p n tree.nodes.length n nodes) :
    tree2ptree { tree with nodes := nodes, root := some (n - 1) } = .ok p := by
  apply tree2ptree_eq
  · exact hp.1.trans hsz.symm
  · intro i hi
    have hi' : i < n := by simpa [hsz] using hi
    obtain ⟨nd, hnd, _, _, _, _, hpar⟩ := hI.2 i hi'
    refine ⟨nd, hnd, ?_⟩
    rcases hp.entry i hi' with h | ⟨q, hq, h⟩
    · exact Or.inl ⟨(hpar hi').1 h, h⟩
    · obtain ⟨pn, hpn, hname, _⟩ := hI.2 q hq
      exact Or.inr ⟨q, pn, (hpar hi').2 q h, hpn, by rw [h, hname]⟩

/-- C1 (as stated, refuted): `[3, 3, 3, -1]` is a valid parent array of size 4
(entries in range, one sentinel, acyclic), but node 3 is the parent of three
indices, so `ptree2tree` writes a third child into the two allocated child
slots and no tree is built. -/
theorem ptree2tree_three_children_overflow :
    ValidParentArray 4 [3, 3, 3, -1] ∧
      ptree2tree 4 [3, 3, 3, -1] (Tree.create 4) = .error .outOfBounds :=
  ⟨by decide, rfl⟩

/-- C1 (amended): for every valid parent array `p` of size `n` in which no
index is the parent of more than two indices, `ptree2tree` builds a tree in
an arena of `n` nodes, and `tree2ptree` of that tree returns exactly `p`. -/
theorem tree2ptree_ptree2tree (n : Nat) (p : List Int) (tree : Tree)
    (hvalid : ValidParentArray n p) (hbin : AtMostBinary n p)
    (hsz : tree.nnodes = n) (harena : tree.nodes.length = n) :
    ∃ t, ptree2tree n p tree = .ok t ∧ tree2ptree t = .ok p := by
  obtain ⟨hp, hcount, _⟩ := hvalid
  have hn : 0 < n := by
    rcases Nat.eq_zero_or_pos n with h0 | h0
    · have : p = [] := List.length_eq_zero.mp (hp.1.trans h0)
      subst this; simp at hcount
    · exact h0
  obtain ⟨nodes, hrun, hI⟩ := ptree2tree_links n p tree hn (by omega) hp.entry hbin
  exact ⟨_, hrun, linkInv_tree2ptree tree hp hsz hI⟩

theorem tree2ptree_ptree2tree_witness :
    ValidParentArray 5 [3, 3, 4, 4, -1] ∧ AtMostBinary 5 [3, 3, 4, 4, -1] ∧
      ∃ t, ptree2tree 5 [3, 3, 4, 4, -1] (Tree.create 5) = .ok t ∧
        tree2ptree t = .ok [3, 3, 4, 4, -1] :=
  ⟨by decide, by decide,
    tree2ptree_ptree2tree 5 [3, 3, 4, 4, -1] (Tree.create 5) (by decide) (by decide) rfl rfl⟩

/-- C2: for every parent array `p` of size `n ≥ 1` in which no index is the
parent of more than two indices, `ptree2tree` builds a tree in which node `i`
has identity `i`, its parent is node `p[i]` (absent when `p[i] = -1`), its
children list is exactly the indices `j` with `p[j] = i` in increasing order,
and the root is the node at index `n - 1`. -/
theorem ptree2tree_spec (n : Nat) (p : List Int) (tree : Tree)
    (hn : 0 < n) (hp : IsParentArray n p) (hbin : AtMostBinary n p)
    (harena : tree.nodes.length = n) :
    ∃ t, ptree2tree n p tree = .ok t ∧
      (∀ i, i < n →
        t.nameOf (some i) = some (i : Int) ∧
        (p[i]? = some (-1) → t.parentOf i = none) ∧
        (∀ q : Nat, p[i]? = some (q : Int) → t.parentOf i = some q) ∧
        t.kidSlots i = (childrenOf p n i).map some) ∧
      t.root = some (n - 1) := by
  obtain ⟨nodes, hrun, hI⟩ := ptree2tree_links n p tree hn (by omega) hp.entry hbin
  refine ⟨_, hrun, fun i hi => ?_, rfl⟩
  obtain ⟨nd, hnd, hname, _, _, htake, hpar⟩ := hI.2 i hi
  refine ⟨by simp [Tree.nameOf, hnd, hname], fun h => ?_, fun q h => ?_, ?_⟩
  · simpa [Tree.parentOf, hnd] using (hpar hi).1 h
  · simpa [Tree.parentOf, hnd] using (hpar hi).2 q h
  · simpa [Tree.kidSlots, hnd] using htake

theorem ptree2tree_spec_witness :
    ∃ t, ptree2tree 5 [3, 3, 4, 4, -1] (Tree.create 5) = .ok t ∧
      (∀ i, i < 5 →
        t.nameOf (some i) = some (i : Int) ∧
        (([3, 3, 4, 4, -1] : List Int)[i]? = some (-1) → t.parentOf i = none) ∧
        (∀ q : Nat, ([3, 3, 4, 4, -1] : List Int)[i]? = some (q : Int) → t.parentOf i = some q) ∧
        t.kidSlots i = (childrenOf [3, 3, 4, 4, -1] 5 i).map some) ∧
      t.root = some (5 - 1) :=
  ptree2tree_spec 5 [3, 3, 4, 4, -1] (Tree.create 5) (by decide) (by decide) (by decide) rfl

/-! ## From a tree to its parent array and back -/

theorem Tree.parentArray_get (t : Tree) (i : Nat) (hi : i < t.nnodes) :
    t.parentArray[i]? = some (match t.parentOf i with
      | some q => (q : Int)
      | none => -1) := by
  simp [Tree.parentArray, List.getElem?_map, List.getElem?_range hi]

theorem Tree.parentArray_get_eq (t : Tree) (i j : Nat) (hi : i < t.nnodes) :
    t.parentArray[i]? = some (j : Int) ↔ t.parentOf i = some j := by
  rw [t.parentArray_get i hi]
  cases h : t.parentOf i with
  | none => simp
  | some q => simp

theorem Tree.parentArray_get_neg (t : Tree) (i : Nat) (hi : i < t.nnodes) :
    t.parentArray[i]? = some (-1) ↔ t.parentOf i = none := by
  rw [t.parentArray_get i hi]
  cases h : t.parentOf i with
  | none => simp
  | some q => simp

theorem Tree.kids_mem (t : Tree) (i c : Nat) : c ∈ t.kids i ↔ some c ∈ t.kidSlots i := by
  simp [Tree.kids, List.mem_filterMap]

theorem Tree.kids_length_le (t : Tree) (i : Nat) : (t.kids i).length ≤ (t.kidSlots i).length := by
  unfold Tree.kids
  exact List.length_filterMap_le _ _

theorem Tree.WellFormed.parentArray_isParentArray {t : Tree} (h : t.WellFormed) :
    IsParentArray t.nnodes t.parentArray := by
  obtain ⟨_, _, _, _, _, hpv, _⟩ := h
  refine ⟨by simp [Tree.parentArray], fun x hx => ?_⟩
  simp only [Tree.parentArray, List.mem_map, List.mem_range] at hx
  obtain ⟨i, hi, rfl⟩ := hx
  cases hq : t.parentOf i with
  | none => left; rfl
  | some q =>
    right
    have := hpv i hi q hq
    simp only
    omega

theorem Tree.WellFormed.parentArray_binary {t : Tree} (h : t.WellFormed) :
    AtMostBinary t.nnodes t.parentArray := by
  obtain ⟨_, _, hbin, _, hagree, _, _⟩ := h
  intro j hj
  have hsub : childrenOf t.parentArray t.nnodes j ⊆ t.kids j := by
    intro c hc
    simp only [childrenOf, List.mem_filter, List.mem_range, beq_iff_eq] at hc
    exact (hagree j hj c hc.1).2 ((t.parentArray_get_eq c j hc.1).1 hc.2)
  have hnd : (childrenOf t.parentArray t.nnodes j).Nodup :=
    (List.nodup_range _).filter _
  have := (List.subperm_of_subset hnd hsub).length_le
  have := t.kids_length_le j
  have := hbin j hj
  omega

theorem wellFormed_tree2ptree {t : Tree} (h : t.WellFormed) :
    tree2ptree t = .ok t.parentArray := by
  obtain ⟨hsz, hnames, _, _, _, hpv, _⟩ := h
  apply tree2ptree_eq
  · simp [Tree.parentArray]
  · intro i hi
    have hi' : i < t.nodes.length := by omega
    refine ⟨t.nodes[i], List.getElem?_eq_getElem hi', ?_⟩
    have hpo : t.parentOf i = t.nodes[i].parent := by
      simp [Tree.parentOf, List.getElem?_eq_getElem hi']
    cases hq : t.nodes[i].parent with
    | none =>
      left
      exact ⟨rfl, (t.parentArray_get_neg i hi).2 (hpo.trans hq)⟩
    | some q =>
      right
      have hqn : q < t.nnodes := hpv i hi q (hpo.trans hq)
      have hq' : q < t.nodes.length := by omega
      have hname : t.nodes[q].name = (q : Int) := by
        have := hnames q hqn
        simpa [Tree.nameOf, List.getElem?_eq_getElem hq'] using this
      refine ⟨q, t.nodes[q], rfl, List.getElem?_eq_getElem hq', ?_⟩
      rw [hname]
      exact (t.parentArray_get_eq i q hi).2 (hpo.trans hq)

/-- C3 (as stated, refuted): the three-node tree whose root is node 0 is
well-formed, but `ptree2tree` always makes the last node the root, so the
tree rebuilt from its parent array has root identity 2, not 0. -/
theorem ptree2tree_tree2ptree_root_moves :
    rootFirstTree.WellFormed ∧
      rootFirstTree.nameOf rootFirstTree.root = some 0 ∧
      ∃ t, (tree2ptree rootFirstTree >>= fun p => ptree2tree 3 p (Tree.create 3)) = .ok t ∧
        t.nameOf t.root = some 2 :=
  ⟨by unfold Tree.WellFormed; decide, rfl, _, rfl, rfl⟩

/-- C3 (amended): for every well-formed tree `t`, the tree built by
`ptree2tree` from `tree2ptree t` has, at every node, the identity, the parent
identity and the set of child identities of `t`; its root is the node at
index `nnodes - 1`, which has the identity of `t`'s root whenever `t`'s root
is that last node. -/
theorem ptree2tree_tree2ptree (t arena : Tree) (h : t.WellFormed)
    (harena : arena.nodes.length = t.nnodes) :
    ∃ p t1, tree2ptree t = .ok p ∧ ptree2tree t.nnodes p arena = .ok t1 ∧
      (∀ i, i < t.nnodes →
        t1.nameOf (some i) = t.nameOf (some i) ∧
        t1.nameOf (t1.parentOf i) = t.nameOf (t.parentOf i) ∧
        ∀ x, x ∈ t1.childNames i ↔ x ∈ t.childNames i) ∧
      t1.root = some (t.nnodes - 1) ∧
      (t.root = some (t.nnodes - 1) → t1.nameOf t1.root = t.nameOf t.root) := by
  have hwf := h
  obtain ⟨hsz, hnames, _, hkv, hagree, hpv, r, hr, _, _⟩ := h
  have hn : 0 < t.nnodes := by omega
  obtain ⟨t1, hrun, hlinks, hroot⟩ := ptree2tree_spec t.nnodes t.parentArray arena hn
    hwf.parentArray_isParentArray hwf.parentArray_binary harena
  have hname1 : ∀ i, i < t.nnodes → t1.nameOf (some i) = t.nameOf (some i) := fun i hi =>
    ((hlinks i hi).1).trans (hnames i hi).symm
  refine ⟨t.parentArray, t1, wellFormed_tree2ptree hwf, hrun, fun i hi => ⟨hname1 i hi, ?_, ?_⟩, hroot, ?_⟩
  · obtain ⟨_, hneg, hpos, _⟩ := hlinks i hi
    cases hq : t.parentOf i with
    | none => rw [hneg ((t.parentArray_get_neg i hi).2 hq)]; rfl
    | some q =>
      rw [hpos q ((t.parentArray_get_eq i q hi).2 hq)]
      exact hname1 q (hpv i hi q hq)
  · intro x
    obtain ⟨_, _, _, hkids⟩ := hlinks i hi
    simp only [Tree.childNames, hkids, List.mem_map, childrenOf, List.mem_filter, List.mem_range,
      beq_iff_eq]
    constructor
    · rintro ⟨s, ⟨c, ⟨hc, hpc⟩, rfl⟩, rfl⟩
      have hmem : c ∈ t.kids i := (hagree i hi c hc).2 ((t.parentArray_get_eq c i hc).1 hpc)
      exact ⟨some c, (t.kids_mem i c).1 hmem, (hname1 c hc).symm⟩
    · rintro ⟨s, hs, rfl⟩
      obtain ⟨c, hc, rfl⟩ := hkv i hi s hs
      have hpc := (hagree i hi c hc).1 ((t.kids_mem i c).2 hs)
      exact ⟨some c, ⟨c, ⟨hc, (t.parentArray_get_eq c i hc).2 hpc⟩, rfl⟩, hname1 c hc⟩
  · intro hlast
    rw [hroot, hlast]
    exact hname1 _ (by omega)

theorem ptree2tree_tree2ptree_witness :
    ∃ p t1, tree2ptree rootFirstTree = .ok p ∧
      ptree2tree rootFirstTree.nnodes p (Tree.create 3) = .ok t1 ∧
      (∀ i, i < rootFirstTree.nnodes →
        t1.nameOf (some i) = rootFirstTree.nameOf (some i) ∧
        t1.nameOf (t1.parentOf i) = rootFirstTree.nameOf (rootFirstTree.parentOf i) ∧
        ∀ x, x ∈ t1.childNames i ↔ x ∈ rootFirstTree.childNames i) ∧
      t1.root = some (rootFirstTree.nnodes - 1) ∧
      (rootFirstTree.root = some (rootFirstTree.nnodes - 1) →
        t1.nameOf t1.root = rootFirstTree.nameOf rootFirstTree.root) :=
  ptree2tree_tree2ptree rootFirstTree (Tree.create 3) (by unfold Tree.WellFormed; decide) rfl

/-! ## `Tree::copy` -/

theorem set_take_append_replicate {α : Type} (a : α) : ∀ (m : Nat) (cs : List α) (k : Nat) (x : α),
    cs[m]? = some x →
    (cs.take m ++ List.replicate (k + 1) a).set m x = cs.take (m + 1) ++ List.replicate k a
  | _, [], _, _, h => by simp at h
  | 0, c :: cs, k, x, h => by
    simp at h
    simp [List.replicate_succ, h]
  | m + 1, c :: cs, k, x, h => by
    have := set_take_append_replicate a m cs k x (by simpa using h)
    simp [this]

theorem Tree.create_nodes_length (n : Nat) : (Tree.create n).nodes.length = n := by
  simp [Tree.create]

theorem Tree.create_parent (n : Nat) : ∀ nd ∈ (Tree.create n).nodes, nd.parent = none := by
  intro nd h
  simp only [Tree.create, List.mem_map] at h
  obtain ⟨i, _, rfl⟩ := h
  rfl

theorem copy_init (t : Tree) (hsz : t.nodes.length = t.nnodes) :
    ∃ nodes2, forUp (copyInitBody t) t.nnodes 0 (Tree.create t.nnodes).nodes = .ok nodes2 ∧
      nodes2.length = t.nnodes ∧
      ∀ j, j < t.nnodes → ∃ nd, t.nodes[j]? = some nd ∧ nodes2[j]? = some (copyInitNode nd j) := by
  have h := forUp_inv (copyInitBody t)
    (fun k (nodes2 : List Node) => nodes2.length = t.nnodes ∧
      (∀ nd ∈ nodes2, nd.parent = none) ∧
      ∀ j, j < k → ∃ nd, t.nodes[j]? = some nd ∧ nodes2[j]? = some (copyInitNode nd j))
    t.nnodes 0 (Tree.create t.nnodes).nodes
    ⟨Tree.create_nodes_length _, Tree.create_parent _, fun j hj => absurd hj (Nat.not_lt_zero _)⟩ ?_
  · obtain ⟨nodes2, h1, h2, _, h3⟩ := h
    exact ⟨nodes2, h1, h2, by simpa using h3⟩
  · intro i nodes2 _ hi ⟨hl, hfresh, hI⟩
    have hi1 : i < t.nodes.length := by omega
    have hi2 : i < nodes2.length := by omega
    have hnd : t.nodes[i]? = some t.nodes[i] := List.getElem?_eq_getElem hi1
    have hnd2 : nodes2[i]? = some nodes2[i] := List.getElem?_eq_getElem hi2
    refine ⟨nodes2.set i (copyInitNode t.nodes[i] i), ?_, by simpa using hl, ?_, ?_⟩
    · have hpar : nodes2[i].parent = none := hfresh _ (List.getElem_mem _)
      simp [copyInitBody, rd_ok hnd, rd_ok hnd2, wr_ok _ hi2, Node.setChildren, copyInitNode, hpar]
    · intro nd hmem
      rcases List.mem_or_eq_of_mem_set hmem with h | h
      · exact hfresh nd h
      · rw [h]; rfl
    · intro j hj
      by_cases hji : j = i
      · subst hji
        exact ⟨t.nodes[j], hnd, by simp [List.getElem?_set, hi2]⟩
      · obtain ⟨nd, h1, h2⟩ := hI j (by omega)
        exact ⟨nd, h1, by simp [List.getElem?_set, Ne.symm hji, h2]⟩

theorem copy_child_step (t : Tree) (hv : t.Valid) (hnamed : t.Named) (i m : Nat) (nd : Node)
    (hnd : t.nodes[i]? = some nd) (hm : m < nd.nchildren) (nodes0 nodes2 : List Node)
    (hI : CopyChildInv t.nnodes i nd nodes0 m nodes2) :
    ∃ nodes3, copyChildBody t i m nodes2 = .ok nodes3 ∧
      CopyChildInv t.nnodes i nd nodes0 (m + 1) nodes3 := by
  obtain ⟨hl, hothers, hself⟩ := hI
  obtain ⟨hsz, hnodes, _⟩ := hv
  have hmem : nd ∈ t.nodes := List.getElem?_mem hnd
  obtain ⟨hcap, hkids, _⟩ := hnodes nd hmem
  have hmc : m < nd.children.length := by omega
  have hchild : nd.children[m]? = some nd.children[m] := List.getElem?_eq_getElem hmc
  have hi : i < nodes2.length := by
    rcases Nat.lt_or_ge i nodes2.length with h | h
    · exact h
    · rw [List.getElem?_eq_none h] at hself; cases hself
  have hpart : (copyPartNode nd i m).children =
      nd.children.take m ++ List.replicate (nd.nchildren - m - 1 + 1) none := by
    have : nd.nchildren - m = nd.nchildren - m - 1 + 1 := by omega
    simp only [copyPartNode]; rw [← this]
  have hslot : m < (copyPartNode nd i m).children.length := by
    rw [hpart]; simp; omega
  have hnew : ∀ x, nd.children[m]? = some x →
      { copyPartNode nd i m with children := (copyPartNode nd i m).children.set m x } =
        copyPartNode nd i (m + 1) := by
    intro x hx
    have := set_take_append_replicate (none : Option Nat) m nd.children (nd.nchildren - m - 1) x hx
    simp only [copyPartNode, copyInitNode] at hpart ⊢
    rw [hpart, this]
    rfl
  have hfinal : CopyChildInv t.nnodes i nd nodes0 (m + 1)
      (nodes2.set i (copyPartNode nd i (m + 1))) :=
    ⟨by simpa using hl, fun j hj => by simp [List.getElem?_set, Ne.symm hj, hothers j hj],
      by simp [List.getElem?_set, hi]⟩
  refine ⟨nodes2.set i (copyPartNode nd i (m + 1)), ?_, hfinal⟩
  cases hc : nd.children[m] with
  | none =>
    rw [hc] at hchild
    simp only [copyChildBody, rd_ok hnd, bind_ok, rd_ok hchild, rd_ok hself, wr_ok _ hslot,
      wr_ok _ hi, hnew none hchild]
  | some c =>
    rw [hc] at hchild
    have hcn : c < t.nnodes :=
      hkids (some c) (by
        rw [List.mem_take_iff_getElem]
        exact ⟨m, by simp; omega, by simpa using hc⟩) c rfl
    have hc1 : c < t.nodes.length := by omega
    have hname : t.nodes[c].name = (c : Int) := by
      have := hnamed c hcn
      simpa [Tree.nameOf, List.getElem?_eq_getElem hc1] using this
    have hc2 : nodes2[c]? = some nodes2[c] := List.getElem?_eq_getElem (by omega)
    simp only [copyChildBody, rd_ok hnd, bind_ok, rd_ok hchild, rd_ok hself,
      rd_ok (List.getElem?_eq_getElem hc1), hname, idx_ok, rd_ok hc2, wr_ok _ hslot,
      wr_ok _ hi, hnew (some c) hchild]

theorem copyPartNode_zero (nd : Node) (i : Nat) : copyPartNode nd i 0 = copyInitNode nd i := by
  simp [copyPartNode, copyInitNode]

theorem copyPartNode_full (nd : Node) (i : Nat) :
    { copyPartNode nd i nd.nchildren with parent := nd.parent } = copyFinalNode nd i := by
  simp [copyPartNode, copyInitNode, copyFinalNode]

theorem copy_link_step (t : Tree) (hv : t.Valid) (hnamed : t.Named) (i : Nat)
    (hi : i < t.nnodes) (nodes2 : List Node)
    (hI : nodes2.length = t.nnodes ∧ ∀ j, j < t.nnodes → ∃ nd, t.nodes[j]? = some nd ∧
      nodes2[j]? = some (if j < i then copyFinalNode nd j else copyInitNode nd j)) :
    ∃ nodes3, copyLinkBody t i nodes2 = .ok nodes3 ∧
      nodes3.length = t.nnodes ∧ ∀ j, j < t.nnodes → ∃ nd, t.nodes[j]? = some nd ∧
        nodes3[j]? = some (if j < i + 1 then copyFinalNode nd j else copyInitNode nd j) := by
  obtain ⟨hl, hI⟩ := hI
  obtain ⟨nd, hnd, hnd2⟩ := hI i hi
  rw [if_neg (Nat.lt_irrefl i)] at hnd2
  obtain ⟨nodes3, hrun, hl3, hothers, hself⟩ := forUp_inv (copyChildBody t i)
    (CopyChildInv t.nnodes i nd nodes2) nd.nchildren 0 nodes2
    ⟨hl, fun _ _ => rfl, by rw [copyPartNode_zero]; exact hnd2⟩
    (fun m s _ hm hI => copy_child_step t hv hnamed i m nd hnd (by omega) nodes2 s hI)
  rw [Nat.zero_add] at hself
  have hi3 : i < nodes3.length := by omega
  have hsz := hv.1
  have hq : ∀ q, nd.parent = some q → q < t.nnodes := ((hv.2.1) nd (List.getElem?_mem hnd)).2.2
  refine ⟨nodes3.set i (copyFinalNode nd i), ?_, by simpa using hl3, ?_⟩
  · rw [← copyPartNode_full]
    cases hp : nd.parent with
    | none =>
      simp only [copyLinkBody, rd_ok hnd, bind_ok, hrun, rd_ok hself, hp, wr_ok _ hi3]
    | some q =>
      have hqn := hq q hp
      have hq1 : q < t.nodes.length := by omega
      have hname : t.nodes[q].name = (q : Int) := by
        have := hnamed q hqn
        simpa [Tree.nameOf, List.getElem?_eq_getElem hq1] using this
      have hq3 : nodes3[q]? = some nodes3[q] := List.getElem?_eq_getElem (by omega)
      simp only [copyLinkBody, rd_ok hnd, bind_ok, hrun, rd_ok hself, hp,
        rd_ok (List.getElem?_eq_getElem hq1), hname, idx_ok, rd_ok hq3, wr_ok _ hi3]
  · intro j hj
    by_cases hji : j = i
    · subst hji
      exact ⟨nd, hnd, by simp [List.getElem?_set, hi3]⟩
    · obtain ⟨nd1, h1, h2⟩ := hI j hj
      refine ⟨nd1, h1, ?_⟩
      rw [List.getElem?_set_ne (Ne.symm hji), hothers j hji, h2]
      have : (j < i + 1) = (j < i) := by
        apply propext; constructor <;> intro h <;> omega
      simp only [this]

theorem copy_nodes (t : Tree) (hv : t.Valid) (hnamed : t.Named) (r : Nat)
    (hroot : t.root = some r) :
    ∃ nodes2, t.copy = .ok { nnodes := t.nnodes, nodes := nodes2, root := some r } ∧
      nodes2.length = t.nnodes ∧
      ∀ j, j < t.nnodes → ∃ nd, t.nodes[j]? = some nd ∧ nodes2[j]? = some (copyFinalNode nd j) := by
  obtain ⟨nodes1, hrun1, hl1, hinit⟩ := copy_init t hv.1
  obtain ⟨nodes2, hrun2, hl2, hfin⟩ := forUp_inv (copyLinkBody t)
    (fun k (nodes2 : List Node) => nodes2.length = t.nnodes ∧ ∀ j, j < t.nnodes →
      ∃ nd, t.nodes[j]? = some nd ∧
        nodes2[j]? = some (if j < k then copyFinalNode nd j else copyInitNode nd j))
    t.nnodes 0 nodes1 ⟨hl1, fun j hj => by simpa using hinit j hj⟩
    (fun i s _ hi hI => copy_link_step t hv hnamed i (by omega) s hI)
  have hr : r < t.nnodes := hv.2.2 r hroot
  have hr1 : r < t.nodes.length := by rw [hv.1]; exact hr
  have hname : t.nodes[r].name = (r : Int) := by
    have := hnamed r hr
    simpa [Tree.nameOf, List.getElem?_eq_getElem hr1] using this
  have hr2 : nodes2[r]? = some nodes2[r] := List.getElem?_eq_getElem (by omega)
  refine ⟨nodes2, ?_, hl2, fun j hj => ?_⟩
  · simp only [Tree.copy, hrun1, bind_ok, hrun2, hroot, deref,
      rd_ok (List.getElem?_eq_getElem hr1), hname, idx_ok, rd_ok hr2, pure_eq_ok]
    rfl
  · obtain ⟨nd, h1, h2⟩ := hfin j hj
    exact ⟨nd, h1, by simpa [hj] using h2⟩

/-- C4: for every tree `t` (all pointers into its arena) that has a root and
in which node `i` has identity `i`, `t.copy()` returns a tree with the same
node count in which every node `i` has identity `i`, the branch length and
the number of children of `t`'s node `i`, children with the same identities
in the same order and a parent with the same identity (or none), and whose
root has the identity of `t`'s root. -/
theorem copy_spec (t : Tree) (hv : t.Valid) (hnamed : t.Named) (hroot : t.root ≠ none) :
    ∃ t2, t.copy = .ok t2 ∧ t2.nnodes = t.nnodes ∧ t2.nodes.length = t.nodes.length ∧
      (∀ i, i < t.nnodes →
        t2.nameOf (some i) = some (i : Int) ∧
        t2.distOf i = t.distOf i ∧
        t2.nchildrenOf i = t.nchildrenOf i ∧
        t2.childNames i = t.childNames i ∧
        t2.nameOf (t2.parentOf i) = t.nameOf (t.parentOf i)) ∧
      t2.nameOf t2.root = t.nameOf t.root := by
  obtain ⟨r, hr⟩ := Option.ne_none_iff_exists'.mp hroot
  obtain ⟨nodes2, hrun, hl, hnodes⟩ := copy_nodes t hv hnamed r hr
  have hname2 : ∀ i, i < t.nnodes →
      Tree.nameOf { nnodes := t.nnodes, nodes := nodes2, root := some r } (some i) =
        some (i : Int) := by
    intro i hi
    obtain ⟨nd, _, h2⟩ := hnodes i hi
    simp [Tree.nameOf, h2, copyFinalNode]
  have hsame : ∀ s : Option Nat, (∀ c, s = some c → c < t.nnodes) →
      Tree.nameOf { nnodes := t.nnodes, nodes := nodes2, root := some r } s = t.nameOf s := by
    intro s hs
    cases s with
    | none => rfl
    | some c => rw [hname2 c (hs c rfl), hnamed c (hs c rfl)]
  refine ⟨_, hrun, rfl, by rw [hl, hv.1], fun i hi => ?_, ?_⟩
  · obtain ⟨nd, h1, h2⟩ := hnodes i hi
    obtain ⟨_, hkids, hpar⟩ := hv.2.1 nd (List.getElem?_mem h1)
    refine ⟨hname2 i hi, by simp [Tree.distOf, h1, h2, copyFinalNode],
      by simp [Tree.nchildrenOf, h1, h2, copyFinalNode], ?_, ?_⟩
    · have hslots : Tree.kidSlots { nnodes := t.nnodes, nodes := nodes2, root := some r } i =
          t.kidSlots i := by
        simp [Tree.kidSlots, h1, h2, copyFinalNode]
      simp only [Tree.childNames, hslots]
      apply List.map_congr_left
      intro s hs
      exact hsame s (hkids s (by simpa [Tree.kidSlots, h1] using hs))
    · have hp : Tree.parentOf { nnodes := t.nnodes, nodes := nodes2, root := some r } i =
          t.parentOf i := by
        simp [Tree.parentOf, h1, h2, copyFinalNode]
      rw [hp]
      exact hsame _ (fun q hq => hpar q (by simpa [Tree.parentOf, h1] using hq))
  · rw [hr]
    exact hsame _ (fun c hc => hv.2.2 c (by rw [hr]; exact hc))

theorem copy_spec_witness :
    fiveTree.Valid ∧ fiveTree.Named ∧ fiveTree.root ≠ none ∧
    ∃ t2, fiveTree.copy = .ok t2 ∧ t2.nnodes = fiveTree.nnodes ∧
      t2.nodes.length = fiveTree.nodes.length ∧
      (∀ i, i < fiveTree.nnodes →
        t2.nameOf (some i) = some (i : Int) ∧
        t2.distOf i = fiveTree.distOf i ∧
        t2.nchildrenOf i = fiveTree.nchildrenOf i ∧
        t2.childNames i = fiveTree.childNames i ∧
        t2.nameOf (t2.parentOf i) = fiveTree.nameOf (fiveTree.parentOf i)) ∧
      t2.nameOf t2.root = fiveTree.nameOf fiveTree.root :=
  ⟨by decide, by decide, by decide, copy_spec fiveTree (by decide) (by decide) (by decide)⟩

/-! ## `Tree::reroot` -/

@[simp] theorem run_bind_ok {α β : Type} (a : α) (f : α → Run β) :
    ((Except.ok a : Run α) >>= f) = f a := rfl

@[simp] theorem run_bind_error {α β : Type} (e : Fault × Tree) (f : α → Run β) :
    ((Except.error e : Run α) >>= f) = Except.error e := rfl

@[simp] theorem run_pure {α : Type} (a : α) : (pure a : Run α) = Except.ok a := rfl

@[simp] theorem onTree_ok {α : Type} (t : Tree) (a : α) : onTree t (.ok a) = .ok a := rfl

@[simp] theorem onTree_error {α : Type} (t : Tree) (e : Fault) :
    onTree t (.error e : Except Fault α) = .error (e, t) := rfl

theorem Tree.node_some {t : Tree} {i : Nat} {nd : Node} (h : t.nodes[i]? = some nd) :
    t.node (some i) = .ok nd := by
  simp [Tree.node, deref, rd_ok h]

theorem rerootTrivial_of_trivial (t : Tree) (newroot : Option Nat) (onBranch : Bool)
    (h : t.root = newroot ∨ (onBranch = true ∧ ∃ r nd, t.root = some r ∧
      t.nodes[r]? = some nd ∧ nd.nchildren = 2 ∧
      (nd.children[0]? = some newroot ∨ nd.children[1]? = some newroot))) :
    rerootTrivial t newroot onBranch = .ok true := by
  unfold rerootTrivial
  by_cases hroot : t.root = newroot
  · simp [hroot]
  · rcases h with h | ⟨hb, r, nd, hr, hnd, hnc, hkid⟩
    · exact absurd h hroot
    · rw [if_neg hroot, if_pos hb, hr, Tree.node_some hnd]
      simp only [bind_ok, hnc, if_true]
      rcases hkid with h0 | h1
      · simp [rd_ok h0]
      · have hlen : 0 < nd.children.length := by
          have := (List.getElem?_eq_some_iff.mp h1).1
          omega
        rw [rd_ok (List.getElem?_eq_getElem hlen)]
        simp only [bind_ok]
        split
        · rfl
        · simp [rd_ok h1]

/-- C5: `reroot` is a no-op in its trivial cases.  When `newroot` is the
current root (for either value of `onBranch`), and also when `onBranch` is
set, the root has exactly two children and `newroot` is one of them, the call
returns the tree it was given: every parent link, children list, branch
length, identity and the root are unchanged. -/
theorem reroot_trivial_noop (fuel : Nat) (t : Tree) (newroot : Option Nat) (onBranch : Bool)
    (h : t.root = newroot ∨ (onBranch = true ∧ ∃ r nd, t.root = some r ∧
      t.nodes[r]? = some nd ∧ nd.nchildren = 2 ∧
      (nd.children[0]? = some newroot ∨ nd.children[1]? = some newroot))) :
    t.reroot fuel newroot onBranch = .ok t := by
  simp [Tree.reroot, rerootTrivial_of_trivial t newroot onBranch h]

theorem reroot_trivial_noop_witness :
    (fiveTree.root = some 3 ∨ (true = true ∧ ∃ r nd, fiveTree.root = some r ∧
      fiveTree.nodes[r]? = some nd ∧ nd.nchildren = 2 ∧
      (nd.children[0]? = some (some 3) ∨ nd.children[1]? = some (some 3)))) ∧
    fiveTree.reroot 5 (some 3) true = .ok fiveTree :=
  ⟨Or.inr ⟨rfl, 4, _, rfl, rfl, rfl, Or.inr rfl⟩,
    reroot_trivial_noop 5 fiveTree (some 3) true (Or.inr ⟨rfl, 4, _, rfl, rfl, rfl, Or.inr rfl⟩)⟩

theorem Tree.isRooted_iff (t : Tree) :
    t.isRooted = true ↔ ∃ r nd, t.root = some r ∧ t.nodes[r]? = some nd ∧ nd.nchildren = 2 := by
  unfold Tree.isRooted
  cases hr : t.root with
  | none => simp
  | some r =>
    cases hnd : t.nodes[r]? with
    | none => simp [hnd]
    | some nd => simp [hnd]

/-- C8: in every unsupported combination — `newroot` is not the current root
and either `onBranch` is false, or `onBranch` is true and the root does not
have exactly two children — `reroot` stops at an `assert` before it has
written anything: the tree at that moment is the tree it was given. -/
theorem reroot_unsupported_fails (fuel : Nat) (t : Tree) (newroot : Option Nat)
    (onBranch : Bool) (hv : t.Valid) (hne : t.root ≠ newroot)
    (h : onBranch = false ∨ (onBranch = true ∧ ∃ r nd, t.root = some r ∧
      t.nodes[r]? = some nd ∧ nd.nchildren ≠ 2)) :
    t.reroot fuel newroot onBranch = .error (.assertFailed, t) := by
  rcases h with hb | ⟨hb, r, nd, hr, hnd, hnc⟩
  · subst hb
    have htriv : rerootTrivial t newroot false = .ok false := by
      simp [rerootTrivial, hne]
    by_cases hrooted : t.isRooted = true
    · obtain ⟨r, nd, hr, hnd, hnc⟩ := t.isRooted_iff.mp hrooted
      have hcap := (hv.2.1 nd (List.getElem?_mem hnd)).1
      have h0 : nd.children[0]? = some nd.children[0] := List.getElem?_eq_getElem (by omega)
      have h1 : nd.children[1]? = some nd.children[1] := List.getElem?_eq_getElem (by omega)
      simp [Tree.reroot, htriv, hrooted, hr, Tree.node_some hnd, rd_ok h0, rd_ok h1]
    · simp [Tree.reroot, htriv, hrooted]
  · subst hb
    have htriv : rerootTrivial t newroot true = .ok false := by
      rw [hr] at hne
      simp [rerootTrivial, hne, hr, Tree.node_some hnd, hnc]
    have hrooted : t.isRooted = false := by
      simp [Tree.isRooted, hr, hnd, hnc]
    simp [Tree.reroot, htriv, hrooted]

theorem reroot_unsupported_fails_witness :
    fiveTree.Valid ∧ fiveTree.root ≠ some 0 ∧
    (false = false ∨ (false = true ∧ ∃ r nd, fiveTree.root = some r ∧
      fiveTree.nodes[r]? = some nd ∧ nd.nchildren ≠ 2)) ∧
    fiveTree.reroot 5 (some 0) false = .error (.assertFailed, fiveTree) :=
  ⟨by decide, by decide, Or.inl rfl,
    reroot_unsupported_fails 5 fiveTree (some 0) false (by decide) (by decide) (Or.inl rfl)⟩

/-- C6 (the code at the failing input): `fiveTree` is a well-formed rooted
binary tree and node 0 is neither its root nor a child of its root, yet after
`reroot(node 0, onBranch = true)` node 2 is in the children list of the root
(node 4) while its parent link is node 0: children lists and parent links
disagree. -/
theorem reroot_breaks_parent_link :
    fiveTree.WellFormed ∧
      ∃ t, fiveTree.reroot 5 (some 0) true = .ok t ∧ t.root = some 4 ∧
        2 ∈ t.kids 4 ∧ t.parentOf 2 = some 0 ∧ 2 ∉ t.kids 0 :=
  ⟨by unfold Tree.WellFormed; decide, _, rfl, by decide⟩


/-- C22 (the code at the failing input): `rootFirstFive` is a well-formed
rooted binary tree whose root is node 0, with identity 0.  The call
`reroot(node 3, onBranch = true)` completes, and afterwards the root (still
node 0) has identity 4, as has node 4: the statement
`assert(root->name = nnodes-1)` has assigned to the identity of the root. -/
theorem reroot_renames_root :
    rootFirstFive.WellFormed ∧ rootFirstFive.nameOf (some 0) = some 0 ∧
      ∃ t, rootFirstFive.reroot 5 (some 3) true = .ok t ∧ t.root = some 0 ∧
        t.nameOf (some 0) = some 4 ∧ t.nameOf (some 4) = some 4 ∧ ¬ t.Named :=
  ⟨by unfold Tree.WellFormed; decide, rfl, _, rfl, rfl, rfl, rfl, by decide⟩
/-! ## `neighborjoin` -/

theorem sevenTaxa_isDistanceMatrix : IsDistanceMatrix 7 sevenTaxa := by
  decide!

/-- C9 (the code at the failing input): `sevenTaxa` is a symmetric,
non-negative, zero-diagonal matrix for `ngenes = 7`, but `neighborjoin` does
not fill `ptree`: in the fifth round of the join loop no pair has a
criterion below `MAX_FLOAT`, `lowi` stays `-1`, and `leaves[lowi]` is read
out of bounds. -/
theorem neighborjoin_seven_out_of_bounds :
    IsDistanceMatrix 7 sevenTaxa ∧
      neighborjoin 7 sevenTaxa (List.replicate 13 0) (List.replicate 13 0) =
        .error .outOfBounds :=
  ⟨sevenTaxa_isDistanceMatrix, by with_unfolding_all rfl⟩

/-- C10 (the code at the failing input): on `sevenTaxa` the fifth round of
the join loop starts with the three leaves 10, 8, 9; the search leaves `low`
at `MAX_FLOAT` and `(lowi, lowj)` at `(-1, -1)`, so no pair of current leaves
is selected, and the round stops at the read of `leaves[-1]`. -/
theorem njSearch_seven_selects_no_pair :
    ∃ st, njAtRound 7 sevenTaxa (List.replicate 13 0) (List.replicate 13 0) 4 = .ok st ∧
      st.nleaves = 3 ∧ st.leaves.take 3 = [10, 8, 9] ∧
      njSearch st = .ok (MAX_FLOAT, -1, -1) ∧ njRound st = .error .outOfBounds := by
  with_unfolding_all exact ⟨_, rfl, rfl, rfl, rfl, rfl⟩

/-- C11 (the code at the failing input): for the four taxa of `fourTaxaUneven`
the second round of the join loop starts with the current leaves 4, 3, 2; the
entry `restdists[3]` it uses is still 7, the value of the initialisation
over four leaves, while the sum of the distances from leaf 3 to the other
current leaves divided by `nleaves - 2` is 8.  Only the new node 4 has a
recomputed value. -/
theorem restdists_stale_after_join :
    IsDistanceMatrix 4 fourTaxaUneven ∧
    ∃ st, njAtRound 4 fourTaxaUneven (List.replicate 7 0) (List.replicate 7 0) 1 = .ok st ∧
      st.current = [4, 3, 2] ∧
      rd st.restdists 3 = .ok 7 ∧ st.freshRestdist 3 = 8 ∧
      rd st.restdists 4 = .ok 8 ∧ st.freshRestdist 4 = 8 := by
  refine ⟨by decide!, ?_⟩
  with_unfolding_all exact ⟨_, rfl, rfl, rfl, rfl, rfl, rfl⟩


/-- C12 (the code at the failing input): for the four taxa of `fourTaxaUneven`
the second round of the join loop starts with the current leaves 4, 3, 2 and
joins the pair (4, 3), whose distance is 4.  Recomputed over the current
leaves, `restdist` is 8 for both, so the formula
`(dist(a,b) + restdist(a) - restdist(b)) / 2` gives 2 for node 4 (and
`4 - 2 = 2` for node 3).  The code reads the array `restdists`, whose entry
for leaf 3 is still 7, and returns `branches[4] = 5/2` and
`branches[3] = 3/2` (nodes 4 and 3 have the parent 5 in `ptree`). -/
theorem neighborjoin_branch_from_stale_restdist :
    IsDistanceMatrix 4 fourTaxaUneven ∧
    ∃ st out, njAtRound 4 fourTaxaUneven (List.replicate 7 0) (List.replicate 7 0) 1 = .ok st ∧
      st.current = [4, 3, 2] ∧ njSearch st = .ok (-11, 0, 1) ∧
      entry st.dists 4 3 = 4 ∧ st.freshRestdist 4 = 8 ∧ st.freshRestdist 3 = 8 ∧
      (entry st.dists 4 3 + st.freshRestdist 4 - st.freshRestdist 3) / 2 = 2 ∧
      rd st.restdists 4 = .ok 8 ∧ rd st.restdists 3 = .ok 7 ∧
      neighborjoin 4 fourTaxaUneven (List.replicate 7 0) (List.replicate 7 0) = .ok out ∧
      out.ptree = [4, 4, 6, 5, 5, 6, -1] ∧
      out.branches = [1, 1, 1, 3 / 2, 5 / 2, 1, 0] := by
  refine ⟨by decide!, ?_⟩
  with_unfolding_all exact ⟨_, _, rfl, rfl, rfl, rfl, rfl, rfl, rfl, rfl, rfl, rfl, rfl, rfl⟩
/-- C13: on the four taxa A, B, C, D (indices 0..3) with AB = 2, AC = AD = BC =
BD = 4, CD = 2, `neighborjoin` returns the parent array `[4, 4, 6, 5, 5, 6, -1]`
with branch lengths `[1, 1, 1/2, 1, 2, 1/2, 0]`.  A and B hang under node 4 at
length 1 each; D hangs under node 5 at length 1, and C reaches node 5 through
the final join node 6 (branch length 0, a point on the edge from C to node
5) at total length 1, so C and D are the other pair; the path length between
every two leaves is their input distance. -/
theorem neighborjoin_fourTaxa :
    ∃ st, neighborjoin 4 fourTaxa (List.replicate 7 0) (List.replicate 7 0) = .ok st ∧
      st.ptree = [4, 4, 6, 5, 5, 6, -1] ∧ st.branches = [1, 1, 1/2, 1, 2, 1/2, 0] ∧
      treeDist st.ptree st.branches 0 4 = 1 ∧ treeDist st.ptree st.branches 1 4 = 1 ∧
      treeDist st.ptree st.branches 2 5 = 1 ∧ treeDist st.ptree st.branches 3 5 = 1 ∧
      ∀ i, i < 4 → ∀ j, j < 4 → treeDist st.ptree st.branches i j = entry fourTaxa i j := by
  refine ⟨_, by with_unfolding_all rfl, by with_unfolding_all rfl, by with_unfolding_all rfl, ?_⟩
  decide!

theorem njRound_denoms (st st1 : NJ) (h : njRound st = .ok st1) :
    st1.denoms = st.denoms ∨
      (3 ≤ ((st.nleaves - 1 : Nat) : Int) ∧
        st1.denoms = (((st.nleaves - 1 : Nat) : Int) - 2) :: st.denoms) := by
  simp only [njRound, bind, Except.bind] at h
  repeat' split at h
  all_goals cases h
  all_goals first
    | exact Or.inl rfl
    | exact Or.inr ⟨by omega, rfl⟩

theorem forUp_ok_inv {σ : Type} (body : Nat → σ → Except Fault σ) (P : Nat → σ → Prop)
    (hstep : ∀ i s s1, P i s → body i s = .ok s1 → P (i + 1) s1) :
    ∀ (count lo : Nat) (s s1 : σ), P lo s → forUp body count lo s = .ok s1 → P (lo + count) s1 := by
  intro count
  induction count with
  | zero =>
    intro lo s s1 h0 h
    simp only [forUp] at h
    cases h
    exact h0
  | succ c ih =>
    intro lo s s1 h0 h
    simp only [forUp] at h
    split at h
    · rename_i s2 hb
      have := ih (lo + 1) s2 s1 (hstep lo s s2 h0 hb) h
      have e : lo + (c + 1) = lo + 1 + c := by omega
      rw [e]; exact this
    · cases h

theorem njInitRow_denoms (ngenes : Nat) (distmat : List (List ℚ)) (i : Nat) (st st1 : NJ)
    (h : njInitRow ngenes distmat i st = .ok st1) :
    st1.denoms = ((ngenes : Int) - 2) :: st.denoms := by
  simp only [njInitRow, bind, Except.bind] at h
  repeat' split at h
  all_goals cases h
  all_goals rfl

theorem njInit_denoms (ngenes : Nat) (distmat : List (List ℚ)) (ptree : List Int)
    (branches : List ℚ) (st : NJ) (h : njInit ngenes distmat ptree branches = .ok st) :
    st.denoms = List.replicate ngenes ((ngenes : Int) - 2) := by
  simp only [njInit, bind, Except.bind] at h
  repeat' split at h
  all_goals cases h
  rename_i st1 hrows _ _ _
  have := forUp_ok_inv (njInitRow ngenes distmat)
    (fun k (s : NJ) => s.denoms = List.replicate k ((ngenes : Int) - 2))
    (fun i s s1 hP hb => by
      show s1.denoms = List.replicate (i + 1) ((ngenes : Int) - 2)
      have hP1 : s.denoms = List.replicate i ((ngenes : Int) - 2) := hP
      rw [njInitRow_denoms ngenes distmat i s s1 hb, hP1]; rfl)
    ngenes 0 _ st1 rfl hrows
  simpa using this

theorem njLoop_denoms : ∀ (fuel : Nat) (st st1 : NJ), njLoop fuel st = .ok st1 →
    (∀ d ∈ st.denoms, (1 : Int) ≤ d) → ∀ d ∈ st1.denoms, (1 : Int) ≤ d := by
  intro fuel
  induction fuel with
  | zero =>
    intro st st1 h hd
    simp only [njLoop] at h
    split at h
    · cases h
    · cases h; exact hd
  | succ f ih =>
    intro st st1 h hd
    simp only [njLoop] at h
    split at h
    · split at h
      · rename_i st2 hround
        refine ih st2 st1 h ?_
        rcases njRound_denoms st st2 hround with e | ⟨h3, e⟩
        · rw [e]; exact hd
        · rw [e]
          intro d hmem
          rcases List.mem_cons.mp hmem with rfl | hmem
          · omega
          · exact hd d hmem
      · cases h
    · cases h; exact hd

theorem njFinish_denoms (ngenes : Nat) (st st1 : NJ) (h : njFinish ngenes st = .ok st1) :
    st1.denoms = st.denoms := by
  simp only [njFinish, bind, Except.bind] at h
  repeat' split at h
  all_goals cases h
  all_goals rfl

theorem njAtRound_denoms (ngenes : Nat) (h3 : 3 ≤ ngenes) (distmat : List (List ℚ))
    (ptree : List Int) (branches : List ℚ) :
    ∀ (k : Nat) (st : NJ), njAtRound ngenes distmat ptree branches k = .ok st →
      ∀ d ∈ st.denoms, (1 : Int) ≤ d := by
  intro k
  induction k with
  | zero =>
    intro st h d hd
    rw [njInit_denoms ngenes distmat ptree branches st h] at hd
    have := List.eq_of_mem_replicate hd
    omega
  | succ k ih =>
    intro st h
    simp only [njAtRound] at h
    split at h
    · rename_i st0 h0
      split at h
      · rcases njRound_denoms st0 st h with e | ⟨h3, e⟩
        · rw [e]; exact ih st0 h0
        · rw [e]
          intro d hmem
          rcases List.mem_cons.mp hmem with rfl | hmem
          · omega
          · exact ih st0 h0 d hmem
      · cases h
    · cases h

/-- C14: when `ngenes ≥ 3`, `neighborjoin` never divides by zero.  Every
integer denominator used up to any round of the join loop, and up to the
end of the run, is at least 1: the initialisation divides `ngenes` times by
`ngenes - 2`, a round divides by `nleaves - 2` only under `nleaves > 2`, and
the final two-leaf join adds no such division (it only halves). -/
theorem neighborjoin_denominators_pos (ngenes : Nat) (h3 : 3 ≤ ngenes)
    (distmat : List (List ℚ)) (ptree : List Int) (branches : List ℚ) :
    (∀ st, njInit ngenes distmat ptree branches = .ok st →
      st.denoms = List.replicate ngenes ((ngenes : Int) - 2)) ∧
    (∀ k st, njAtRound ngenes distmat ptree branches k = .ok st →
      ∀ d ∈ st.denoms, (1 : Int) ≤ d) ∧
    (∀ st st1, njFinish ngenes st = .ok st1 → st1.denoms = st.denoms) ∧
    (∀ st, neighborjoin ngenes distmat ptree branches = .ok st →
      ∀ d ∈ st.denoms, (1 : Int) ≤ d) := by
  refine ⟨njInit_denoms ngenes distmat ptree branches,
    njAtRound_denoms ngenes h3 distmat ptree branches, njFinish_denoms ngenes, ?_⟩
  intro st h
  simp only [neighborjoin, bind, Except.bind] at h
  split at h
  · cases h
  · rename_i st0 h0
    split at h
    · cases h
    · rename_i st1 h1
      rw [njFinish_denoms ngenes st1 st h]
      exact njLoop_denoms ngenes st0 st1 h1
        (njAtRound_denoms ngenes h3 distmat ptree branches 0 st0 h0)

theorem neighborjoin_denominators_pos_witness :
    3 ≤ 4 ∧
    (∀ st, njInit 4 fourTaxa (List.replicate 7 0) (List.replicate 7 0) = .ok st →
      st.denoms = List.replicate 4 (((4 : Nat) : Int) - 2)) ∧
    (∀ k st, njAtRound 4 fourTaxa (List.replicate 7 0) (List.replicate 7 0) k = .ok st →
      ∀ d ∈ st.denoms, (1 : Int) ≤ d) ∧
    (∀ st st1, njFinish 4 st = .ok st1 → st1.denoms = st.denoms) ∧
    (∀ st, neighborjoin 4 fourTaxa (List.replicate 7 0) (List.replicate 7 0) = .ok st →
      ∀ d ∈ st.denoms, (1 : Int) ≤ d) :=
  ⟨by decide, neighborjoin_denominators_pos 4 (by decide) fourTaxa _ _⟩

/-! ## `treeLca` -/

example : fiveSpecies.WellFormed := by decide

theorem Tree.anc_succ_left (t : Tree) (x : Nat) : ∀ k,
    t.anc x (k + 1) = (t.parentOf x).bind fun p => t.anc p k
  | 0 => by simp [Tree.anc]
  | k + 1 => by
    rw [Tree.anc, Tree.anc_succ_left t x k]
    cases t.parentOf x with
    | none => rfl
    | some p => simp [Tree.anc]

theorem Tree.anc_add (t : Tree) (x : Nat) (k : Nat) : ∀ m,
    t.anc x (k + m) = (t.anc x k).bind fun y => t.anc y m
  | 0 => by simp [Tree.anc]
  | m + 1 => by
    rw [← Nat.add_assoc, Tree.anc, Tree.anc_add t x k m]
    cases t.anc x k with
    | none => rfl
    | some y => simp [Tree.anc]

theorem Tree.anc_root (t : Tree) (r : Nat) (hr : t.parentOf r = none) :
    ∀ k a, t.anc r k = some a → k = 0 := by
  intro k a h
  cases k with
  | zero => rfl
  | succ k => rw [Tree.anc_succ_left, hr] at h; cases h

theorem Tree.anc_to_root_unique (t : Tree) (r : Nat) (hr : t.parentOf r = none) (x m1 m2 : Nat)
    (h1 : t.anc x m1 = some r) (h2 : t.anc x m2 = some r) : m1 = m2 := by
  have key : ∀ a b : Nat, t.anc x a = some r → t.anc x b = some r → a ≤ b → a = b := by
    intro a b ha hb hab
    obtain ⟨c, rfl⟩ := Nat.exists_eq_add_of_le hab
    rw [Tree.anc_add, ha] at hb
    have := Tree.anc_root t r hr c r hb
    omega
  rcases Nat.le_total m1 m2 with h | h
  · exact key m1 m2 h1 h2 h
  · exact (key m2 m1 h2 h1 h).symm

theorem wf_anc_depth {s : SpeciesTree} (hwf : s.WellFormed) (i k a : Nat)
    (hi : i < s.tree.nnodes) (h : s.tree.anc i k = some a) :
    k ≤ s.depthOf i ∧ a < s.tree.nnodes ∧ s.depthOf a + k = s.depthOf i := by
  obtain ⟨_, _, _, r, hr, _, hpr, hdepth⟩ := hwf
  obtain ⟨_, htop, hrange⟩ := hdepth i hi
  have hk : k ≤ s.depthOf i := by
    rcases Nat.lt_or_ge (s.depthOf i) k with hlt | hge
    · obtain ⟨c, rfl⟩ := Nat.exists_eq_add_of_le (Nat.le_of_lt hlt)
      rw [Tree.anc_add, htop] at h
      have := Tree.anc_root s.tree r hpr c a h
      omega
    · exact hge
  have ha : a < s.tree.nnodes := by
    rcases Nat.lt_or_ge k (s.depthOf i) with hlt | hge
    · obtain ⟨a1, ha1, h1⟩ := hrange k hlt
      rw [h] at h1; cases h1; exact ha1
    · have : k = s.depthOf i := by omega
      subst this
      rw [htop] at h; cases h; exact hr
  refine ⟨hk, ha, ?_⟩
  obtain ⟨_, htopa, _⟩ := hdepth a ha
  have h2 : s.tree.anc a (s.depthOf i - k) = some r := by
    have : s.depthOf i = k + (s.depthOf i - k) := by omega
    rw [this, Tree.anc_add, h] at htop
    exact htop
  have := Tree.anc_to_root_unique s.tree r hpr a _ _ htopa h2
  omega

theorem wf_depthAt {s : SpeciesTree} (hwf : s.WellFormed) (x : Nat) (hx : x < s.tree.nnodes) :
    s.depthAt (some x) = .ok (s.depthOf x : Int) := by
  obtain ⟨hlen, hdl, hnamed, r, _, _, _, hdepth⟩ := hwf
  obtain ⟨h0, _, _⟩ := hdepth x hx
  have hx1 : x < s.tree.nodes.length := by omega
  have hname : s.tree.nodes[x].name = (x : Int) := by
    have := hnamed x hx
    simpa [Tree.nameOf, List.getElem?_eq_getElem hx1] using this
  have hd : s.depths[x]? = some (s.depthOf x : Int) := by
    have hx2 : x < s.depths.length := by omega
    rw [List.getElem?_eq_getElem hx2]
    have e : s.depths.getD x (-1) = s.depths[x] := List.getD_eq_getElem _ _ hx2
    rw [SpeciesTree.depthOf, e, Int.toNat_of_nonneg (by rw [← e]; exact h0)]
  simp [SpeciesTree.depthAt, Tree.node, deref, rd_ok (List.getElem?_eq_getElem hx1), hname,
    idx_ok, rd_ok hd]

theorem wf_parent {s : SpeciesTree} (hwf : s.WellFormed) (x : Nat) (hx : x < s.tree.nnodes)
    (hpos : 0 < s.depthOf x) :
    ∃ p nd, p < s.tree.nnodes ∧ s.tree.nodes[x]? = some nd ∧ nd.parent = some p ∧
      s.tree.parentOf x = some p ∧ s.depthOf p + 1 = s.depthOf x := by
  have hwf' := hwf
  obtain ⟨hlen, _, _, r, hr, _, hpr, hdepth⟩ := hwf
  obtain ⟨_, htop, hrange⟩ := hdepth x hx
  have h1 : ∃ p, s.tree.anc x 1 = some p := by
    rcases Nat.lt_or_ge 1 (s.depthOf x) with hlt | hge
    · obtain ⟨a, _, ha⟩ := hrange 1 hlt
      exact ⟨a, ha⟩
    · have : s.depthOf x = 1 := by omega
      rw [this] at htop
      exact ⟨r, htop⟩
  obtain ⟨p, hp⟩ := h1
  obtain ⟨_, hpn, hpd⟩ := wf_anc_depth hwf' x 1 p hx hp
  have hpar : s.tree.parentOf x = some p := by
    simpa [Tree.anc] using hp
  have hx1 : x < s.tree.nodes.length := by omega
  refine ⟨p, s.tree.nodes[x], hpn, List.getElem?_eq_getElem hx1, ?_, hpar, by omega⟩
  simpa [Tree.parentOf, List.getElem?_eq_getElem hx1] using hpar

theorem lcaClimb_le (s : SpeciesTree) (target : Int) (fuel : Nat) (node : Option Nat)
    (depth : Int) (h : ¬ depth > target) :
    lcaClimb s target fuel node depth = .ok (node, depth) := by
  cases fuel <;> simp [lcaClimb, h]

theorem lcaClimb_spec {s : SpeciesTree} (hwf : s.WellFormed) (target : Nat) :
    ∀ (m fuel x : Nat), x < s.tree.nnodes → m ≤ fuel → s.depthOf x = target + m →
      ∃ y, y < s.tree.nnodes ∧ s.tree.anc x m = some y ∧ s.depthOf y = target ∧
        lcaClimb s (target : Int) fuel (some x) (s.depthOf x : Int) =
          .ok (some y, (target : Int)) := by
  intro m
  induction m with
  | zero =>
    intro fuel x hx _ hd
    refine ⟨x, hx, rfl, by omega, ?_⟩
    rw [lcaClimb_le s _ fuel _ _ (by omega)]
    simp only [hd, Nat.add_zero]
  | succ m ih =>
    intro fuel x hx hfuel hd
    obtain ⟨p, nd, hp, hnd, hndp, hpar, hpd⟩ := wf_parent hwf x hx (by omega)
    obtain ⟨f, rfl⟩ : ∃ f, fuel = f + 1 := ⟨fuel - 1, by omega⟩
    obtain ⟨y, hy, hanc, hyd, hrun⟩ := ih f p hp (by omega) (by omega)
    refine ⟨y, hy, ?_, hyd, ?_⟩
    · rw [Tree.anc_succ_left, hpar]; exact hanc
    · have hgt : (s.depthOf x : Int) > (target : Int) := by omega
      rw [lcaClimb]
      simp only [hgt, if_true, Tree.node_some hnd, bind_ok, hndp, wf_depthAt hwf p hp]
      exact hrun

theorem lcaMeet_spec {s : SpeciesTree} (hwf : s.WellFormed) :
    ∀ (m fuel x y : Nat), x < s.tree.nnodes → y < s.tree.nnodes → m ≤ fuel →
      s.depthOf x = m → s.depthOf y = m →
      ∃ l j, l < s.tree.nnodes ∧ lcaMeet s fuel (some x) (some y) = .ok (some l) ∧
        s.tree.anc x j = some l ∧ s.tree.anc y j = some l ∧
        ∀ i, i < j → s.tree.anc x i ≠ s.tree.anc y i := by
  intro m
  induction m with
  | zero =>
    intro fuel x y hx hy _ hdx hdy
    have hwf' := hwf
    obtain ⟨_, _, _, r, _, _, _, hdepth⟩ := hwf'
    have hxr : x = r := by
      have := (hdepth x hx).2.1
      rw [hdx] at this
      simpa [Tree.anc] using this
    have hyr : y = r := by
      have := (hdepth y hy).2.1
      rw [hdy] at this
      simpa [Tree.anc] using this
    have hxy : x = y := hxr.trans hyr.symm
    subst hxy
    refine ⟨x, 0, hx, ?_, rfl, rfl, fun i hi => absurd hi (Nat.not_lt_zero _)⟩
    cases fuel <;> simp [lcaMeet]
  | succ m ih =>
    intro fuel x y hx hy hfuel hdx hdy
    by_cases hxy : x = y
    · subst hxy
      refine ⟨x, 0, hx, ?_, rfl, rfl, fun i hi => absurd hi (Nat.not_lt_zero _)⟩
      cases fuel <;> simp [lcaMeet]
    · obtain ⟨px, ndx, hpx, hndx, hndxp, hparx, hpxd⟩ := wf_parent hwf x hx (by omega)
      obtain ⟨py, ndy, hpy, hndy, hndyp, hpary, hpyd⟩ := wf_parent hwf y hy (by omega)
      obtain ⟨f, rfl⟩ : ∃ f, fuel = f + 1 := ⟨fuel - 1, by omega⟩
      obtain ⟨l, j, hl, hrun, hax, hay, hne⟩ := ih f px py hpx hpy (by omega) (by omega) (by omega)
      refine ⟨l, j + 1, hl, ?_, ?_, ?_, ?_⟩
      · have hne' : (some x : Option Nat) ≠ some y := by
          intro e; injection e with e; exact hxy e
        rw [lcaMeet]
        simp only [hne', ne_eq, not_false_eq_true, if_true, Tree.node_some hndx,
          Tree.node_some hndy, bind_ok, hndxp, hndyp]
        exact hrun
      · rw [Tree.anc_succ_left, hparx]; exact hax
      · rw [Tree.anc_succ_left, hpary]; exact hay
      · intro i hi
        cases i with
        | zero =>
          intro e
          simp only [Tree.anc] at e
          injection e with e
          exact hxy e
        | succ i =>
          rw [Tree.anc_succ_left, Tree.anc_succ_left, hparx, hpary]
          exact hne i (by omega)

theorem lca_of_meet {s : SpeciesTree} (hwf : s.WellFormed) (x y x1 y1 l mx my j : Nat)
    (hx : x < s.tree.nnodes) (hy : y < s.tree.nnodes)
    (hx1 : s.tree.anc x mx = some x1) (hy1 : s.tree.anc y my = some y1)
    (hlevel : s.depthOf x1 = s.depthOf y1) (hzero : mx = 0 ∨ my = 0)
    (hlx : s.tree.anc x1 j = some l) (hly : s.tree.anc y1 j = some l)
    (hmin : ∀ i, i < j → s.tree.anc x1 i ≠ s.tree.anc y1 i) :
    s.tree.IsLca l x y := by
  refine ⟨⟨mx + j, by rw [Tree.anc_add, hx1]; exact hlx⟩,
    ⟨my + j, by rw [Tree.anc_add, hy1]; exact hly⟩, ?_⟩
  rintro c ⟨kx, hcx⟩ ⟨ky, hcy⟩
  obtain ⟨hkx, _, hdcx⟩ := wf_anc_depth hwf x kx c hx hcx
  obtain ⟨hky, _, hdcy⟩ := wf_anc_depth hwf y ky c hy hcy
  obtain ⟨hmx, hx1n, hdx1⟩ := wf_anc_depth hwf x mx x1 hx hx1
  obtain ⟨hmy, hy1n, hdy1⟩ := wf_anc_depth hwf y my y1 hy hy1
  -- `c` lies `e` levels above `x1` and above `y1`
  obtain ⟨e, hex, hey⟩ : ∃ e, kx = mx + e ∧ ky = my + e := ⟨kx - mx, by omega, by omega⟩
  subst hex hey
  rw [Tree.anc_add, hx1] at hcx
  rw [Tree.anc_add, hy1] at hcy
  simp only [Option.some_bind] at hcx hcy
  have hje : j ≤ e := by
    rcases Nat.lt_or_ge e j with hlt | hge
    · exact absurd (hcx.trans hcy.symm) (hmin e hlt)
    · exact hge
  obtain ⟨d, rfl⟩ := Nat.exists_eq_add_of_le hje
  rw [Tree.anc_add, hlx] at hcx
  exact ⟨d, hcx⟩

theorem lcaMeet_same (s : SpeciesTree) (fuel : Nat) (node : Option Nat) :
    lcaMeet s fuel node node = .ok node := by
  cases fuel <;> simp [lcaMeet]

theorem treeLca_isLca {s : SpeciesTree} (hwf : s.WellFormed) (fuel : Nat)
    (hfuel : ∀ i, i < s.tree.nnodes → s.depthOf i ≤ fuel) (x y : Nat)
    (hx : x < s.tree.nnodes) (hy : y < s.tree.nnodes) :
    ∃ l, l < s.tree.nnodes ∧ treeLca fuel s (some x) (some y) = .ok (some l) ∧
      s.tree.IsLca l x y := by
  by_cases hxy : x = y
  · subst hxy
    refine ⟨x, hx, ?_, ⟨0, rfl⟩, ⟨0, rfl⟩, fun c hc _ => hc⟩
    simp [treeLca, wf_depthAt hwf x hx, lcaMeet_same]
  · have hne : (some x : Option Nat) ≠ some y := by
      intro e; injection e with e; exact hxy e
    rcases Nat.lt_or_ge (s.depthOf x) (s.depthOf y) with hlt | hge
    · -- `y` is deeper: only the second loop climbs
      obtain ⟨y1, hy1, hanc, hy1d, hclimb⟩ := lcaClimb_spec hwf (s.depthOf x)
        (s.depthOf y - s.depthOf x) fuel y hy (by have := hfuel y hy; omega) (by omega)
      obtain ⟨l, j, hl, hmeet, hlx, hly, hmin⟩ := lcaMeet_spec hwf (s.depthOf x) fuel x y1 hx hy1
        (hfuel x hx) rfl hy1d
      refine ⟨l, hl, ?_, lca_of_meet hwf x y x y1 l 0 _ j hx hy rfl hanc hy1d.symm (Or.inl rfl) hlx hly hmin⟩
      have hle : ¬ ((s.depthOf x : Int) > (s.depthOf y : Int)) := by omega
      simp only [treeLca, wf_depthAt hwf x hx, wf_depthAt hwf y hy, bind_ok, hne, ne_eq,
        not_false_eq_true, if_true, lcaClimb_le s _ fuel _ _ hle, hclimb, pure_eq_ok]
      exact hmeet
    · -- `x` is at least as deep: only the first loop climbs
      obtain ⟨x1, hx1, hanc, hx1d, hclimb⟩ := lcaClimb_spec hwf (s.depthOf y)
        (s.depthOf x - s.depthOf y) fuel x hx (by have := hfuel x hx; omega) (by omega)
      obtain ⟨l, j, hl, hmeet, hlx, hly, hmin⟩ := lcaMeet_spec hwf (s.depthOf y) fuel x1 y hx1 hy
        (hfuel y hy) hx1d rfl
      refine ⟨l, hl, ?_, lca_of_meet hwf x y x1 y l _ 0 j hx hy hanc rfl hx1d (Or.inr rfl) hlx hly hmin⟩
      have hle : ¬ ((s.depthOf y : Int) > (s.depthOf y : Int)) := by omega
      simp only [treeLca, wf_depthAt hwf x hx, wf_depthAt hwf y hy, bind_ok, hne, ne_eq,
        not_false_eq_true, if_true, hclimb, lcaClimb_le s _ fuel _ _ hle, pure_eq_ok]
      exact hmeet

/-- C15: for every well-formed species tree with current depths and every two
nodes `n1`, `n2` of it, `treeLca` (with fuel for at least the deepest node)
returns a node without following an absent parent, and that node is the
least common ancestor of `n1` and `n2`: an ancestor-or-self of both and a
descendant-or-self of every common ancestor. -/
theorem treeLca_spec (s : SpeciesTree) (hwf : s.WellFormed) (fuel : Nat)
    (hfuel : ∀ i, i < s.tree.nnodes → s.depthOf i ≤ fuel) (n1 n2 : Nat)
    (h1 : n1 < s.tree.nnodes) (h2 : n2 < s.tree.nnodes) :
    ∃ l, l < s.tree.nnodes ∧ treeLca fuel s (some n1) (some n2) = .ok (some l) ∧
      s.tree.IsAnc l n1 ∧ s.tree.IsAnc l n2 ∧
      ∀ c, s.tree.IsAnc c n1 → s.tree.IsAnc c n2 → s.tree.IsAnc c l := by
  obtain ⟨l, hl, hrun, hlca⟩ := treeLca_isLca hwf fuel hfuel n1 n2 h1 h2
  exact ⟨l, hl, hrun, hlca⟩

theorem treeLca_spec_witness :
    fiveSpecies.WellFormed ∧ (∀ i, i < fiveSpecies.tree.nnodes → fiveSpecies.depthOf i ≤ 2) ∧
    0 < fiveSpecies.tree.nnodes ∧ 3 < fiveSpecies.tree.nnodes ∧
    ∃ l, l < fiveSpecies.tree.nnodes ∧ treeLca 2 fiveSpecies (some 0) (some 3) = .ok (some l) ∧
      fiveSpecies.tree.IsAnc l 0 ∧ fiveSpecies.tree.IsAnc l 3 ∧
      ∀ c, fiveSpecies.tree.IsAnc c 0 → fiveSpecies.tree.IsAnc c 3 →
        fiveSpecies.tree.IsAnc c l :=
  ⟨by decide, by decide, by decide, by decide,
    treeLca_spec fiveSpecies (by decide) 2 (by decide) 0 3 (by decide) (by decide)⟩

theorem isLca_unique {s : SpeciesTree} (hwf : s.WellFormed) (l1 l2 x y : Nat)
    (hl1 : l1 < s.tree.nnodes) (hl2 : l2 < s.tree.nnodes)
    (h1 : s.tree.IsLca l1 x y) (h2 : s.tree.IsLca l2 y x) : l1 = l2 := by
  obtain ⟨k1, hk1⟩ := h1.2.2 l2 h2.2.1 h2.1
  obtain ⟨k2, hk2⟩ := h2.2.2 l1 h1.2.1 h1.1
  obtain ⟨_, _, hd1⟩ := wf_anc_depth hwf l1 k1 l2 hl1 hk1
  obtain ⟨_, _, hd2⟩ := wf_anc_depth hwf l2 k2 l1 hl2 hk2
  have : k1 = 0 := by omega
  subst this
  simpa [Tree.anc] using hk1

/-- C16: `treeLca` is reflexive and symmetric.  For every well-formed species
tree with current depths (and fuel for at least the deepest node),
`treeLca(t, n, n)` returns `n` for every node `n`, and `treeLca(t, a, b)` and
`treeLca(t, b, a)` return the same node for every two nodes `a`, `b`. -/
theorem treeLca_refl_symm (s : SpeciesTree) (hwf : s.WellFormed) (fuel : Nat)
    (hfuel : ∀ i, i < s.tree.nnodes → s.depthOf i ≤ fuel) :
    (∀ n, n < s.tree.nnodes → treeLca fuel s (some n) (some n) = .ok (some n)) ∧
    ∀ a b, a < s.tree.nnodes → b < s.tree.nnodes →
      treeLca fuel s (some a) (some b) = treeLca fuel s (some b) (some a) ∧
      ∃ l, treeLca fuel s (some a) (some b) = .ok (some l) := by
  constructor
  · intro n hn
    simp [treeLca, wf_depthAt hwf n hn, lcaMeet_same]
  · intro a b ha hb
    obtain ⟨l1, hl1, hrun1, hlca1⟩ := treeLca_isLca hwf fuel hfuel a b ha hb
    obtain ⟨l2, hl2, hrun2, hlca2⟩ := treeLca_isLca hwf fuel hfuel b a hb ha
    have := isLca_unique hwf l1 l2 a b hl1 hl2 hlca1 hlca2
    subst this
    exact ⟨by rw [hrun1, hrun2], l1, hrun1⟩

theorem treeLca_refl_symm_witness :
    fiveSpecies.WellFormed ∧ (∀ i, i < fiveSpecies.tree.nnodes → fiveSpecies.depthOf i ≤ 2) ∧
    (∀ n, n < fiveSpecies.tree.nnodes →
      treeLca 2 fiveSpecies (some n) (some n) = .ok (some n)) ∧
    ∀ a b, a < fiveSpecies.tree.nnodes → b < fiveSpecies.tree.nnodes →
      treeLca 2 fiveSpecies (some a) (some b) = treeLca 2 fiveSpecies (some b) (some a) ∧
      ∃ l, treeLca 2 fiveSpecies (some a) (some b) = .ok (some l) :=
  ⟨by decide, by decide, treeLca_refl_symm fiveSpecies (by decide) 2 (by decide)⟩

/-! ## `reconcile` and `labelEvents` -/

example : reconcile 2 4 cherryTree fiveSpecies [0, 1, 9] [7, 7, 7] = .ok [0, 1, 2] := by rfl
example : reconcile 2 4 cherryTree fiveSpecies [0, 3, 9] [7, 7, 7] = .ok [0, 3, 4] := by rfl
example : reconcile 2 4 tripleTree fiveSpecies [0, 1, 3, 9] [7, 7, 7, 7] = .ok [0, 1, 3, 2] := by
  rfl
example : labelEvents cherryTree [0, 1, 2] [.gene, .gene, .gene] = .ok [.gene, .gene, .spec] := by
  rfl
example : labelEvents cherryTree [0, 0, 0] [.gene, .gene, .gene] = .ok [.gene, .gene, .dup] := by
  rfl
example : preorder fiveTree.kids 6 4 = [4, 2, 0, 1, 3] := by rfl

theorem Tree.Sound.node_facts {t : Tree} (h : t.Sound) (i : Nat) (hi : i < t.nnodes) :
    ∃ nd, t.nodes[i]? = some nd ∧ nd.name = (i : Int) ∧ nd.nchildren ≤ nd.children.length ∧
      ∀ q, q < nd.nchildren → ∃ c, c < t.nnodes ∧ nd.children[q]? = some (some c) := by
  obtain ⟨⟨hlen, hnodes, _⟩, hnamed, hslots⟩ := h
  have hi1 : i < t.nodes.length := by omega
  have hmem : t.nodes[i] ∈ t.nodes := List.getElem_mem _
  obtain ⟨hcap, hkids, _⟩ := hnodes _ hmem
  refine ⟨t.nodes[i], List.getElem?_eq_getElem hi1, ?_, hcap, fun q hq => ?_⟩
  · have := hnamed i hi
    simpa [Tree.nameOf, List.getElem?_eq_getElem hi1] using this
  · have hq1 : q < t.nodes[i].children.length := by omega
    have hin : t.nodes[i].children[q] ∈ t.nodes[i].children.take t.nodes[i].nchildren := by
      rw [List.mem_take_iff_getElem]
      exact ⟨q, by simp; omega, rfl⟩
    cases hc : t.nodes[i].children[q] with
    | none => exact absurd hc (hslots _ hmem _ hin)
    | some c =>
      exact ⟨c, hkids _ hin c hc, by rw [List.getElem?_eq_getElem hq1, hc]⟩

theorem reconAt_ok {t : Tree} (h : t.Sound) (recon : List Int) (c : Nat) (hc : c < t.nnodes) :
    reconAt t recon (some c) = rd recon c := by
  obtain ⟨nd, hnd, hname, _⟩ := h.node_facts c hc
  simp [reconAt, Tree.node_some hnd, hname, idx_ok]

theorem kidSlots_binary {t : Tree} (h : t.Sound) (i : Nat) (hi : i < t.nnodes) (nd : Node)
    (hnd : t.nodes[i]? = some nd) (h2 : nd.nchildren = 2) :
    ∃ c0 c1, c0 < t.nnodes ∧ c1 < t.nnodes ∧ nd.children[0]? = some (some c0) ∧
      nd.children[1]? = some (some c1) ∧ t.kidSlots i = [some c0, some c1] := by
  obtain ⟨nd1, hnd1, _, hcap, hq⟩ := h.node_facts i hi
  rw [hnd] at hnd1; cases hnd1
  obtain ⟨c0, hc0, h0⟩ := hq 0 (by omega)
  obtain ⟨c1, hc1, h1⟩ := hq 1 (by omega)
  refine ⟨c0, c1, hc0, hc1, h0, h1, ?_⟩
  simp only [Tree.kidSlots, hnd, h2]
  apply List.ext_getElem?
  intro q
  rcases q with _ | _ | q
  · simpa [List.getElem?_take] using h0
  · simpa [List.getElem?_take] using h1
  · simp [List.getElem?_take]

theorem labelBody_step {t : Tree} (h : t.Sound) (hbin : t.Binary) (recon : List Int)
    (events : List Event) (i : Nat) (hi : i < t.nnodes) (hrec : t.nnodes ≤ recon.length)
    (hev : t.nnodes ≤ events.length) :
    ∃ e, labelBody t recon i events = .ok (events.set i e) ∧
      (e = .gene ↔ t.kidSlots i = []) ∧ (e = .dup ↔ IsDupAt t recon i) ∧
      (e = .spec ↔ t.kidSlots i ≠ [] ∧ ¬ IsDupAt t recon i) := by
  obtain ⟨nd, hnd, _, _, _⟩ := h.node_facts i hi
  have hie : i < events.length := by omega
  rcases hbin nd (List.getElem?_mem hnd) with h0 | h2
  · have hk : t.kidSlots i = [] := by simp [Tree.kidSlots, hnd, h0]
    have hnodup : ¬ IsDupAt t recon i := by
      rintro ⟨c0, c1, hk', _⟩
      rw [hk] at hk'; cases hk'
    refine ⟨.gene, by simp [labelBody, rd_ok hnd, h0, wr_ok _ hie], by simp [hk], ?_, ?_⟩
    · exact ⟨fun e => (by cases e), fun e => absurd e hnodup⟩
    · exact ⟨fun e => (by cases e), fun e => absurd hk e.1⟩
  · obtain ⟨c0, c1, hc0, hc1, hs0, hs1, hk⟩ := kidSlots_binary h i hi nd hnd h2
    have hne : t.kidSlots i ≠ [] := by rw [hk]; simp
    have hri : recon[i]? = some recon[i] := List.getElem?_eq_getElem (by omega)
    have hr0 : recon[c0]? = some recon[c0] := List.getElem?_eq_getElem (by omega)
    have hr1 : recon[c1]? = some recon[c1] := List.getElem?_eq_getElem (by omega)
    have hdup : IsDupAt t recon i ↔ (recon[i] = recon[c0] ∨ recon[i] = recon[c1]) := by
      constructor
      · rintro ⟨d0, d1, hk', hor⟩
        rw [hk] at hk'
        injection hk' with e0 e1
        injection e1 with e1 _
        injection e0 with e0
        injection e1 with e1
        subst e0 e1
        rw [hri, hr0, hr1] at hor
        rcases hor with e | e
        · left; injection e
        · right; injection e
      · intro hor
        refine ⟨c0, c1, hk, ?_⟩
        rw [hri, hr0, hr1]
        rcases hor with e | e
        · left; rw [e]
        · right; rw [e]
    have hnc : ¬ nd.nchildren = 0 := by omega
    by_cases e0 : recon[i] = recon[c0]
    · refine ⟨.dup, ?_, ?_, ?_, ?_⟩
      · simp [labelBody, rd_ok hnd, hnc, rd_ok hri, rd_ok hs0, reconAt_ok h recon c0 hc0,
          rd_ok hr0, e0, wr_ok _ hie]
      · exact ⟨fun e => (by cases e), fun e => absurd e hne⟩
      · exact ⟨fun _ => hdup.mpr (Or.inl e0), fun _ => rfl⟩
      · exact ⟨fun e => (by cases e), fun e => absurd (hdup.mpr (Or.inl e0)) e.2⟩
    · by_cases e1 : recon[i] = recon[c1]
      · refine ⟨.dup, ?_, ?_, ?_, ?_⟩
        · simp [labelBody, rd_ok hnd, hnc, rd_ok hri, rd_ok hs0, reconAt_ok h recon c0 hc0,
            rd_ok hr0, e0, rd_ok hs1, reconAt_ok h recon c1 hc1, rd_ok hr1, e1, wr_ok _ hie]
        · exact ⟨fun e => (by cases e), fun e => absurd e hne⟩
        · exact ⟨fun _ => hdup.mpr (Or.inr e1), fun _ => rfl⟩
        · exact ⟨fun e => (by cases e), fun e => absurd (hdup.mpr (Or.inr e1)) e.2⟩
      · have hnd' : ¬ IsDupAt t recon i := fun e => by
          rcases hdup.mp e with e | e
          · exact e0 e
          · exact e1 e
        refine ⟨.spec, ?_, ?_, ?_, ?_⟩
        · simp [labelBody, rd_ok hnd, hnc, rd_ok hri, rd_ok hs0, reconAt_ok h recon c0 hc0,
            rd_ok hr0, e0, rd_ok hs1, reconAt_ok h recon c1 hc1, rd_ok hr1, e1, wr_ok _ hie]
        · exact ⟨fun e => (by cases e), fun e => absurd e hne⟩
        · exact ⟨fun e => (by cases e), fun e => absurd e hnd'⟩
        · exact ⟨fun _ => ⟨hne, hnd'⟩, fun _ => rfl⟩

theorem labelEvents_post (t : Tree) (recon : List Int) (events0 : List Event)
    (h : t.Sound) (hbin : t.Binary) (hrec : t.nnodes ≤ recon.length)
    (hev : t.nnodes ≤ events0.length) :
    ∃ events, labelEvents t recon events0 = .ok events ∧ ∀ i, i < t.nnodes →
      (events[i]? = some .gene ↔ t.kidSlots i = []) ∧
      (events[i]? = some .dup ↔ IsDupAt t recon i) ∧
      (events[i]? = some .spec ↔ t.kidSlots i ≠ [] ∧ ¬ IsDupAt t recon i) := by
  obtain ⟨events, hrun, _, hI⟩ := forUp_inv (labelBody t recon)
    (fun k (ev : List Event) => ev.length = events0.length ∧ ∀ i, i < k →
      (ev[i]? = some .gene ↔ t.kidSlots i = []) ∧
      (ev[i]? = some .dup ↔ IsDupAt t recon i) ∧
      (ev[i]? = some .spec ↔ t.kidSlots i ≠ [] ∧ ¬ IsDupAt t recon i))
    t.nnodes 0 events0 ⟨rfl, fun i hi => absurd hi (Nat.not_lt_zero _)⟩
    (fun k ev _ hk ⟨hl, hI⟩ => by
      obtain ⟨e, hrun, hg, hd, hs⟩ := labelBody_step h hbin recon ev k (by omega) hrec (by omega)
      refine ⟨ev.set k e, hrun, by simpa using hl, fun i hi => ?_⟩
      by_cases hik : i = k
      · subst hik
        have hget : (ev.set i e)[i]? = some e := List.getElem?_set_self (by omega)
        rw [hget]
        simp only [Option.some.injEq]
        exact ⟨hg, hd, hs⟩
      · rw [List.getElem?_set_ne (Ne.symm hik)]
        exact hI i (by omega))
  exact ⟨events, hrun, fun i hi => hI i (by omega)⟩

/-- C19: `labelEvents` computes `events` from the tree shape and `recon` alone
(it is a function of the two, and returns only the array `events`).  For every
binary gene tree and every array `recon`, `events[i]` is GENE exactly when
node `i` has no children, DUPLICATION exactly when node `i` is internal and
`recon[i]` equals `recon` of its first child or of its second child, and
SPECIATION for every other internal node. -/
theorem labelEvents_spec (t : Tree) (recon : List Int) (events0 : List Event)
    (h : t.Sound) (hbin : t.Binary) (hrec : t.nnodes ≤ recon.length)
    (hev : t.nnodes ≤ events0.length) :
    ∃ events, labelEvents t recon events0 = .ok events ∧ ∀ i, i < t.nnodes →
      (events[i]? = some .gene ↔ t.kidSlots i = []) ∧
      (events[i]? = some .dup ↔ IsDupAt t recon i) ∧
      (events[i]? = some .spec ↔ t.kidSlots i ≠ [] ∧ ¬ IsDupAt t recon i) :=
  labelEvents_post t recon events0 h hbin hrec hev

theorem labelEvents_spec_witness :
    cherryTree.Sound ∧ cherryTree.Binary ∧
    ∃ events, labelEvents cherryTree [0, 1, 2] [.gene, .gene, .gene] = .ok events ∧
      ∀ i, i < cherryTree.nnodes →
        (events[i]? = some .gene ↔ cherryTree.kidSlots i = []) ∧
        (events[i]? = some .dup ↔ IsDupAt cherryTree [0, 1, 2] i) ∧
        (events[i]? = some .spec ↔ cherryTree.kidSlots i ≠ [] ∧ ¬ IsDupAt cherryTree [0, 1, 2] i) :=
  ⟨by decide, by decide,
    labelEvents_spec cherryTree [0, 1, 2] [.gene, .gene, .gene] (by decide) (by decide)
      (by decide) (by decide)⟩

/-! ## Walks along children lists -/

theorem length_le_flatMap {α β : Type} (g : α → List β) : ∀ (l : List α) (c : α), c ∈ l →
    (g c).length ≤ (l.flatMap g).length
  | [], _, h => by cases h
  | a :: l, c, h => by
    rw [List.flatMap_cons, List.length_append]
    rcases List.mem_cons.mp h with rfl | h
    · omega
    · have := length_le_flatMap g l c h
      omega

theorem covered_succ (K : Nat → List Nat) : ∀ (f x : Nat), covered K f x →
    covered K (f + 1) x ∧ preorder K (f + 1) x = preorder K f x
  | 0, _, h => by cases h
  | f + 1, x, h => by
    have ih : ∀ c ∈ K x, covered K (f + 1) c ∧ preorder K (f + 1) c = preorder K f c :=
      fun c hc => covered_succ K f c (h c hc)
    refine ⟨fun c hc => (ih c hc).1, ?_⟩
    show x :: (K x).flatMap (preorder K (f + 1)) = x :: (K x).flatMap (preorder K f)
    rw [List.flatMap_congr fun c hc => (ih c hc).2]

theorem covered_mono (K : Nat → List Nat) (f x : Nat) (h : covered K f x) :
    ∀ g, f ≤ g → covered K g x ∧ preorder K g x = preorder K f x := by
  intro g hg
  induction hg with
  | refl => exact ⟨h, rfl⟩
  | step _ ih =>
    obtain ⟨h1, h2⟩ := covered_succ K _ x ih.1
    exact ⟨h1, h2.trans ih.2⟩

theorem length_of_not_covered (K : Nat → List Nat) : ∀ (f x : Nat), ¬ covered K f x →
    f ≤ (preorder K f x).length
  | 0, _, _ => Nat.zero_le _
  | f + 1, x, h => by
    have : ∃ c, c ∈ K x ∧ ¬ covered K f c := by
      by_contra hcon
      apply h
      intro c hc
      by_contra hnc
      exact hcon ⟨c, hc, hnc⟩
    obtain ⟨c, hc, hnc⟩ := this
    have h1 := length_of_not_covered K f c hnc
    have h2 := length_le_flatMap (preorder K f) (K x) c hc
    show f + 1 ≤ (x :: (K x).flatMap (preorder K f)).length
    rw [List.length_cons]
    omega

theorem covered_of_perm (K : Nat → List Nat) (n r : Nat)
    (h : (preorder K (n + 1) r).Perm (List.range n)) : covered K (n + 1) r := by
  by_contra hnc
  have h1 := length_of_not_covered K (n + 1) r hnc
  have h2 := h.length_eq
  rw [List.length_range] at h2
  omega

theorem mem_preorder_self (K : Nat → List Nat) (f x : Nat) (h : covered K f x) :
    x ∈ preorder K f x := by
  cases f with
  | zero => cases h
  | succ f => exact List.mem_cons_self _ _

theorem mem_preorder_kid (K : Nat → List Nat) : ∀ (f x v c : Nat), covered K f x →
    v ∈ preorder K f x → c ∈ K v → c ∈ preorder K f x
  | 0, _, _, _, h, _, _ => by cases h
  | f + 1, x, v, c, h, hv, hc => by
    rcases List.mem_cons.mp hv with rfl | hv
    · refine List.mem_cons_of_mem _ (List.mem_flatMap.mpr ⟨c, hc, ?_⟩)
      exact mem_preorder_self K f c (h c hc)
    · obtain ⟨d, hd, hvd⟩ := List.mem_flatMap.mp hv
      exact List.mem_cons_of_mem _
        (List.mem_flatMap.mpr ⟨d, hd, mem_preorder_kid K f d v c (h d hd) hvd hc⟩)

theorem preorder_lt (K : Nat → List Nat) (n : Nat) (hK : ∀ x, x < n → ∀ c ∈ K x, c < n) :
    ∀ (f x : Nat), x < n → ∀ y ∈ preorder K f x, y < n
  | 0, _, _, _, hy => by cases hy
  | f + 1, x, hx, y, hy => by
    rcases List.mem_cons.mp hy with rfl | hy
    · exact hx
    · obtain ⟨d, hd, hyd⟩ := List.mem_flatMap.mp hy
      exact preorder_lt K n hK f d (hK x hx d hd) y hyd

theorem flatMap_take_succ {α β : Type} (g : α → List β) (l : List α) (i : Nat) (c : α)
    (h : l[i]? = some c) :
    (l.take (i + 1)).flatMap g = (l.take i).flatMap g ++ g c := by
  rw [List.take_succ, h]
  simp

theorem flatMap_take_sublist {α β : Type} (g : α → List β) (l : List α) (i : Nat) :
    ((l.take i).flatMap g).Sublist (l.flatMap g) := by
  conv => rhs; rw [← List.take_append_drop i l]
  rw [List.flatMap_append]
  exact List.sublist_append_left _ _

/-! ## `reconcile`: the recursion over the gene tree -/

theorem map_some_filterMap : ∀ (l : List (Option Nat)), (∀ s ∈ l, s ≠ none) →
    (l.filterMap id).map some = l
  | [], _ => rfl
  | none :: _, h => absurd rfl (h none (List.mem_cons_self _ _))
  | some c :: l, h => by
    have ih := map_some_filterMap l (fun s hs => h s (List.mem_cons_of_mem _ hs))
    simp [List.filterMap_cons, ih]

theorem Tree.Sound.kidSlots_eq {t : Tree} (h : t.Sound) (i : Nat) :
    t.kidSlots i = (t.kids i).map some := by
  unfold Tree.kids
  symm
  apply map_some_filterMap
  intro s hs
  unfold Tree.kidSlots at hs
  split at hs
  · next nd hnd => exact h.2.2 nd (List.getElem?_mem hnd) s hs
  · cases hs

theorem Tree.Sound.kids_get {t : Tree} (h : t.Sound) (i q c : Nat) :
    (t.kids i)[q]? = some c ↔ (t.kidSlots i)[q]? = some (some c) := by
  rw [h.kidSlots_eq i, List.getElem?_map]
  cases (t.kids i)[q]? <;> simp

theorem Tree.Sound.kids_lt {t : Tree} (h : t.Sound) (x : Nat) :
    ∀ c ∈ t.kids x, c < t.nnodes := by
  intro c hc
  have hs : some c ∈ t.kidSlots x := by
    rw [h.kidSlots_eq x]; exact List.mem_map_of_mem _ hc
  unfold Tree.kidSlots at hs
  split at hs
  · next nd hnd => exact (h.1.2.1 nd (List.getElem?_mem hnd)).2.1 _ hs c rfl
  · cases hs

theorem kidSlots_of_node {t : Tree} {x : Nat} {nd : Node} (hnd : t.nodes[x]? = some nd) :
    t.kidSlots x = nd.children.take nd.nchildren := by
  simp [Tree.kidSlots, hnd]

theorem Tree.Sound.kids_length {t : Tree} (h : t.Sound) (x : Nat)
    (nd : Node) (hnd : t.nodes[x]? = some nd) : (t.kids x).length = nd.nchildren := by
  have h1 : (t.kidSlots x).length = (t.kids x).length := by
    rw [h.kidSlots_eq x, List.length_map]
  rw [← h1, kidSlots_of_node hnd, List.length_take]
  have := (h.1.2.1 nd (List.getElem?_mem hnd)).1
  omega

theorem Tree.Sound.child_slot {t : Tree} (h : t.Sound) (x : Nat) (nd : Node)
    (hnd : t.nodes[x]? = some nd) (q c : Nat) (hq : (t.kids x)[q]? = some c) :
    q < nd.nchildren ∧ nd.children[q]? = some (some c) := by
  have h1 := (h.kids_get x q c).mp hq
  rw [kidSlots_of_node hnd, List.getElem?_take] at h1
  split at h1
  · next hlt => exact ⟨hlt, h1⟩
  · cases h1

theorem inSpecies_congr {s : SpeciesTree} {R R1 : List Int} {y : Nat} (h : R1[y]? = R[y]?)
    (hy : InSpecies s R y) : InSpecies s R1 y := by
  obtain ⟨a, ha, hr⟩ := hy
  exact ⟨a, ha, h.trans hr⟩

theorem lcaAt_congr {lcaFuel : Nat} {t : Tree} {s : SpeciesTree} {R R1 : List Int} {v : Nat}
    (hs : t.Sound) (hv : R1[v]? = R[v]?) (hk : ∀ c ∈ t.kids v, R1[c]? = R[c]?)
    (h : LcaAt lcaFuel t s R v) : LcaAt lcaFuel t s R1 v := by
  obtain ⟨c0, c1, a, b, l, h0, h1, ha, hb, hl, hr⟩ := h
  have m0 : c0 ∈ t.kids v := List.getElem?_mem ((hs.kids_get v 0 c0).mpr h0)
  have m1 : c1 ∈ t.kids v := List.getElem?_mem ((hs.kids_get v 1 c1).mpr h1)
  exact ⟨c0, c1, a, b, l, h0, h1, (hk c0 m0).trans ha, (hk c1 m1).trans hb, hl, hv.trans hr⟩

theorem mem_flatMap_kid (K : Nat → List Nat) (f : Nat) (l : List Nat)
    (hcov : ∀ d ∈ l, covered K f d) (v c : Nat) (hv : v ∈ l.flatMap (preorder K f))
    (hc : c ∈ K v) : c ∈ l.flatMap (preorder K f) := by
  obtain ⟨d, hd, hvd⟩ := List.mem_flatMap.mp hv
  exact List.mem_flatMap.mpr ⟨d, hd, mem_preorder_kid K f d v c (hcov d hd) hvd hc⟩

theorem reconcile_children {t : Tree} {s : SpeciesTree} (hs : t.Sound) (lcaFuel f : Nat)
    (IH : ∀ (x : Nat) (R : List Int), x < t.nnodes → covered t.kids f x →
      (preorder t.kids f x).Nodup → t.nnodes ≤ R.length →
      (∀ y ∈ preorder t.kids f x, t.kidSlots y = [] → InSpecies s R y) →
      ∃ R1, reconcileHelper lcaFuel t s f (some x) R = .ok R1 ∧
        ReconPost lcaFuel t s (preorder t.kids f x) R R1)
    (x : Nat) (nd : Node) (hndx : t.nodes[x]? = some nd)
    (hcov : ∀ c ∈ t.kids x, covered t.kids f c)
    (hnodup : ((t.kids x).flatMap (preorder t.kids f)).Nodup)
    (R : List Int) (hlen : t.nnodes ≤ R.length)
    (hleaf : ∀ y ∈ (t.kids x).flatMap (preorder t.kids f), t.kidSlots y = [] →
      InSpecies s R y) :
    ∃ R1, forUp (fun i recon => do
          let child ← rd nd.children i
          reconcileHelper lcaFuel t s f child recon) nd.nchildren 0 R = .ok R1 ∧
      ReconPost lcaFuel t s ((t.kids x).flatMap (preorder t.kids f)) R R1 := by
  have hklen := hs.kids_length x nd hndx
  obtain ⟨R1, hrun, hI⟩ := forUp_inv (fun i recon => do
      let child ← rd nd.children i
      reconcileHelper lcaFuel t s f child recon)
    (fun i Ri => ReconPost lcaFuel t s (((t.kids x).take i).flatMap (preorder t.kids f)) R Ri)
    nd.nchildren 0 R
    ⟨rfl, fun _ _ => rfl, fun v hv => by simp at hv, fun v hv => by simp at hv⟩
    (fun i Ri _ hi hI => by
      have hi1 : i < (t.kids x).length := by omega
      have hci : (t.kids x)[i]? = some (t.kids x)[i] := List.getElem?_eq_getElem hi1
      generalize (t.kids x)[i] = c at hci
      have hcm : c ∈ t.kids x := List.getElem?_mem hci
      obtain ⟨_, hslot⟩ := hs.child_slot x nd hndx i c hci
      have hU : ((t.kids x).take (i + 1)).flatMap (preorder t.kids f) =
          ((t.kids x).take i).flatMap (preorder t.kids f) ++ preorder t.kids f c :=
        flatMap_take_succ _ _ i c hci
      have hnd1 : (((t.kids x).take i).flatMap (preorder t.kids f) ++
          preorder t.kids f c).Nodup := by
        rw [← hU]
        exact (flatMap_take_sublist _ _ (i + 1)).nodup hnodup
      obtain ⟨_, hndc, hdisj⟩ := List.nodup_append.mp hnd1
      have hsub : ∀ v, v ∈ ((t.kids x).take i).flatMap (preorder t.kids f) →
          v ∈ (t.kids x).flatMap (preorder t.kids f) :=
        fun v hv => (flatMap_take_sublist _ _ i).subset hv
      have hcsub : ∀ v, v ∈ preorder t.kids f c →
          v ∈ (t.kids x).flatMap (preorder t.kids f) :=
        fun v hv => List.mem_flatMap.mpr ⟨c, hcm, hv⟩
      obtain ⟨hIlen, hIagree, hIin, hIlca⟩ := hI
      obtain ⟨R2, hrun2, h2len, h2agree, h2in, h2lca⟩ := IH c Ri (hs.kids_lt x c hcm)
        (hcov c hcm) hndc (by omega)
        (fun y hy hl => inSpecies_congr (hIagree y (Or.inr hl)) (hleaf y (hcsub y hy) hl))
      refine ⟨R2, by simp [rd_ok hslot, hrun2], ?_⟩
      show ReconPost lcaFuel t s (((t.kids x).take (i + 1)).flatMap (preorder t.kids f)) R R2
      rw [hU]
      refine ⟨h2len.trans hIlen, fun y hy => ?_, fun v hv => ?_, fun v hv hne => ?_⟩
      · rcases hy with hy | hy
        · rw [List.mem_append, not_or] at hy
          exact (h2agree y (Or.inl hy.2)).trans (hIagree y (Or.inl hy.1))
        · exact (h2agree y (Or.inr hy)).trans (hIagree y (Or.inr hy))
      · rcases List.mem_append.mp hv with hv | hv
        · exact inSpecies_congr (h2agree v (Or.inl fun hvc => hdisj hv hvc)) (hIin v hv)
        · exact h2in v hv
      · rcases List.mem_append.mp hv with hv | hv
        · refine lcaAt_congr hs (h2agree v (Or.inl fun hvc => hdisj hv hvc)) (fun k hk => ?_)
            (hIlca v hv hne)
          have hkU := mem_flatMap_kid t.kids f ((t.kids x).take i)
            (fun d hd => hcov d (List.mem_of_mem_take hd)) v k hv hk
          exact h2agree k (Or.inl fun hkc => hdisj hkU hkc)
        · exact h2lca v hv hne)
  refine ⟨R1, hrun, ?_⟩
  have : ((t.kids x).take (0 + nd.nchildren)) = t.kids x := by
    rw [Nat.zero_add, ← hklen, List.take_length]
  rw [this] at hI
  exact hI

theorem reconcileHelper_post {t : Tree} {s : SpeciesTree} (hs : t.Sound) (hb : t.Branching)
    (hwf : s.WellFormed) (lcaFuel : Nat)
    (hfuel : ∀ i, i < s.tree.nnodes → s.depthOf i ≤ lcaFuel) :
    ∀ (f x : Nat) (R : List Int), x < t.nnodes → covered t.kids f x →
      (preorder t.kids f x).Nodup → t.nnodes ≤ R.length →
      (∀ y ∈ preorder t.kids f x, t.kidSlots y = [] → InSpecies s R y) →
      ∃ R1, reconcileHelper lcaFuel t s f (some x) R = .ok R1 ∧
        ReconPost lcaFuel t s (preorder t.kids f x) R R1 := by
  intro f
  induction f with
  | zero => intro x R _ hcov; cases hcov
  | succ f ih =>
    intro x R hx hcov hnodup hlen hleaf
    obtain ⟨nd, hndx, hname, hcap, hq⟩ := hs.node_facts x hx
    have hklen := hs.kids_length x nd hndx
    have hpre : preorder t.kids (f + 1) x = x :: (t.kids x).flatMap (preorder t.kids f) := rfl
    rw [hpre] at hnodup hleaf ⊢
    obtain ⟨hxU, hUnd⟩ := List.nodup_cons.mp hnodup
    obtain ⟨R1, hrun, hIlen, hIagree, hIin, hIlca⟩ := reconcile_children hs lcaFuel f ih x nd
      hndx hcov hUnd R hlen (fun y hy hl => hleaf y (List.mem_cons_of_mem _ hy) hl)
    have hkid : ∀ v ∈ (t.kids x).flatMap (preorder t.kids f), ∀ k ∈ t.kids v,
        k ∈ (t.kids x).flatMap (preorder t.kids f) :=
      fun v hv k hk => mem_flatMap_kid t.kids f (t.kids x) hcov v k hv hk
    rcases hb nd (List.getElem?_mem hndx) with h0 | h2
    · -- a leaf
      have hxl : t.kidSlots x = [] := by rw [kidSlots_of_node hndx, h0]; rfl
      refine ⟨R1, ?_, hIlen, fun y hy => ?_, fun v hv => ?_, fun v hv hne => ?_⟩
      · simp only [reconcileHelper, Tree.node_some hndx, bind_ok, hrun]
        simp [h0]
      · rcases hy with hy | hy
        · exact hIagree y (Or.inl fun h => hy (List.mem_cons_of_mem _ h))
        · exact hIagree y (Or.inr hy)
      · rcases List.mem_cons.mp hv with rfl | hv
        · exact inSpecies_congr (hIagree v (Or.inr hxl)) (hleaf v (List.mem_cons_self _ _) hxl)
        · exact hIin v hv
      · rcases List.mem_cons.mp hv with rfl | hv
        · exact absurd hxl hne
        · exact hIlca v hv hne
    · -- an internal node
      obtain ⟨c0, hc0, hs0⟩ := hq 0 (by omega)
      obtain ⟨c1, hc1, hs1⟩ := hq 1 (by omega)
      have hk0 : (t.kidSlots x)[0]? = some (some c0) := by
        rw [kidSlots_of_node hndx, List.getElem?_take]; simp [hs0]; omega
      have hk1 : (t.kidSlots x)[1]? = some (some c1) := by
        rw [kidSlots_of_node hndx, List.getElem?_take]; simp [hs1]; omega
      have m0 : c0 ∈ t.kids x := List.getElem?_mem ((hs.kids_get x 0 c0).mpr hk0)
      have m1 : c1 ∈ t.kids x := List.getElem?_mem ((hs.kids_get x 1 c1).mpr hk1)
      have u0 : c0 ∈ (t.kids x).flatMap (preorder t.kids f) :=
        List.mem_flatMap.mpr ⟨c0, m0, mem_preorder_self _ _ _ (hcov c0 m0)⟩
      have u1 : c1 ∈ (t.kids x).flatMap (preorder t.kids f) :=
        List.mem_flatMap.mpr ⟨c1, m1, mem_preorder_self _ _ _ (hcov c1 m1)⟩
      obtain ⟨a, ha, hra⟩ := hIin c0 u0
      obtain ⟨b, hb1, hrb⟩ := hIin c1 u1
      obtain ⟨l, hl, hlca, _⟩ := treeLca_isLca hwf lcaFuel hfuel a b ha hb1
      have hslen : s.tree.nodes.length = s.tree.nnodes := hwf.1
      have hna : s.tree.nodes[a]? = some (s.tree.nodes.get ⟨a, by omega⟩) :=
        List.getElem?_eq_getElem (by omega)
      have hnb : s.tree.nodes[b]? = some (s.tree.nodes.get ⟨b, by omega⟩) :=
        List.getElem?_eq_getElem (by omega)
      have hnl : s.tree.nodes[l]? = some (s.tree.nodes.get ⟨l, by omega⟩) :=
        List.getElem?_eq_getElem (by omega)
      have hlname : (s.tree.nodes.get ⟨l, by omega⟩).name = (l : Int) := by
        have := hwf.2.2.1 l hl
        simpa [Tree.nameOf, hnl] using this
      have hxne : t.kidSlots x ≠ [] := by
        intro e
        have e1 := congrArg List.length e
        rw [kidSlots_of_node hndx, List.length_take] at e1
        simp only [List.length_nil] at e1
        omega
      have hx1 : x < R1.length := by omega
      have hpos : nd.nchildren > 0 := by omega
      have hne0 : x ≠ c0 := fun e => hxU (by rw [← e] at u0; exact u0)
      have hne1 : x ≠ c1 := fun e => hxU (by rw [← e] at u1; exact u1)
      refine ⟨R1.set x (l : Int), ?_, by simpa using hIlen, fun y hy => ?_, fun v hv => ?_,
        fun v hv hne => ?_⟩
      · simp only [reconcileHelper, Tree.node_some hndx, bind_ok, hrun, hpos, if_true,
          rd_ok hs0, rd_ok hs1, reconAt_ok hs R1 c0 hc0, reconAt_ok hs R1 c1 hc1, rd_ok hra,
          rd_ok hrb, idx_ok, rd_ok hna, rd_ok hnb, hlca, Tree.node_some hnl, hname, hlname,
          wr_ok _ hx1]
      · have hyx : x ≠ y := by
          rcases hy with hy | hy
          · intro e; exact hy (e ▸ List.mem_cons_self _ _)
          · intro e; exact hxne (e ▸ hy)
        rw [List.getElem?_set_ne hyx]
        rcases hy with hy | hy
        · exact hIagree y (Or.inl fun h => hy (List.mem_cons_of_mem _ h))
        · exact hIagree y (Or.inr hy)
      · rcases List.mem_cons.mp hv with rfl | hv
        · exact ⟨l, hl, List.getElem?_set_self hx1⟩
        · have hvx : x ≠ v := fun e => hxU (e ▸ hv)
          exact inSpecies_congr (List.getElem?_set_ne hvx) (hIin v hv)
      · rcases List.mem_cons.mp hv with rfl | hv
        · refine ⟨c0, c1, a, b, l, hk0, hk1, ?_, ?_, hlca, ?_⟩
          · rw [List.getElem?_set_ne hne0]; exact hra
          · rw [List.getElem?_set_ne hne1]; exact hrb
          · rw [List.getElem?_set_self hx1, hwf.2.2.1 l hl]
        · have hvx : x ≠ v := fun e => hxU (e ▸ hv)
          refine lcaAt_congr hs (List.getElem?_set_ne hvx) (fun k hk => ?_) (hIlca v hv hne)
          have hkU := hkid v hv k hk
          exact List.getElem?_set_ne (fun e => hxU (by rw [← e] at hkU; exact hkU))

theorem Tree.Sound.leaf_iff {t : Tree} (h : t.Sound) (i : Nat) (nd : Node)
    (hnd : t.nodes[i]? = some nd) : t.kidSlots i = [] ↔ nd.nchildren = 0 := by
  have hcap := (h.1.2.1 nd (List.getElem?_mem hnd)).1
  rw [kidSlots_of_node hnd]
  constructor
  · intro e
    have e1 := congrArg List.length e
    rw [List.length_take] at e1
    simp only [List.length_nil] at e1
    omega
  · intro e; rw [e]; rfl

theorem seed_post {t : Tree} (hs : t.Sound) (g R : List Int) (hg : t.nnodes ≤ g.length)
    (hR : t.nnodes ≤ R.length) :
    ∃ R0, forUp (seedBody t g) t.nnodes 0 R = .ok R0 ∧ R0.length = R.length ∧
      ∀ i, i < t.nnodes → (t.kidSlots i = [] → R0[i]? = g[i]?) ∧
        (t.kidSlots i ≠ [] → R0[i]? = R[i]?) := by
  obtain ⟨R0, hrun, hlen, hI⟩ := forUp_inv (seedBody t g)
    (fun k (Rk : List Int) => Rk.length = R.length ∧ ∀ i, i < t.nnodes →
      (i < k → (t.kidSlots i = [] → Rk[i]? = g[i]?) ∧ (t.kidSlots i ≠ [] → Rk[i]? = R[i]?)) ∧
      (k ≤ i → Rk[i]? = R[i]?))
    t.nnodes 0 R ⟨rfl, fun i _ => ⟨fun h => absurd h (Nat.not_lt_zero _), fun _ => rfl⟩⟩
    (fun k Rk _ hk ⟨hl, hI⟩ => by
      have hk1 : k < t.nnodes := by omega
      obtain ⟨nd, hnd, _⟩ := hs.node_facts k hk1
      have hleaf := hs.leaf_iff k nd hnd
      by_cases h0 : nd.nchildren = 0
      · have hgk : g[k]? = some g[k] := List.getElem?_eq_getElem (by omega)
        have hkR : k < Rk.length := by omega
        refine ⟨Rk.set k g[k], by simp [seedBody, rd_ok hnd, h0, rd_ok hgk, wr_ok _ hkR],
          by simpa using hl, fun i hi => ⟨fun hik => ?_, fun hik => ?_⟩⟩
        · by_cases e : i = k
          · subst e
            rw [List.getElem?_set_self hkR, hgk]
            exact ⟨fun _ => rfl, fun hne => absurd (hleaf.mpr h0) hne⟩
          · rw [List.getElem?_set_ne (Ne.symm e)]
            exact (hI i hi).1 (by omega)
        · rw [List.getElem?_set_ne (by omega)]
          exact (hI i hi).2 (by omega)
      · refine ⟨Rk, by simp [seedBody, rd_ok hnd, h0], hl, fun i hi => ⟨fun hik => ?_,
          fun hik => (hI i hi).2 (by omega)⟩⟩
        by_cases e : i = k
        · subst e
          exact ⟨fun hl0 => absurd (hleaf.mp hl0) h0, fun _ => (hI i hi).2 (le_refl _)⟩
        · exact (hI i hi).1 (by omega))
  exact ⟨R0, hrun, hlen, fun i hi => (hI i hi).1 (by omega)⟩

theorem reconcile_post {t : Tree} {s : SpeciesTree} (hs : t.Sound) (hb : t.Branching)
    (r : Nat) (hroot : t.root = some r)
    (htree : (preorder t.kids (t.nnodes + 1) r).Perm (List.range t.nnodes))
    (hwf : s.WellFormed) (lcaFuel fuel : Nat)
    (hlf : ∀ i, i < s.tree.nnodes → s.depthOf i ≤ lcaFuel) (hfuel : t.nnodes + 1 ≤ fuel)
    (g recon0 : List Int) (hg : t.nnodes ≤ g.length)
    (hgr : ∀ i, i < t.nnodes → t.kidSlots i = [] → InSpecies s g i)
    (hrec : t.nnodes ≤ recon0.length) :
    ∃ recon, reconcile lcaFuel fuel t s g recon0 = .ok recon ∧
      recon.length = recon0.length ∧
      (∀ i, i < t.nnodes → t.kidSlots i = [] → recon[i]? = g[i]?) ∧
      (∀ v, v < t.nnodes → InSpecies s recon v) ∧
      (∀ v, v < t.nnodes → t.kidSlots v ≠ [] → LcaAt lcaFuel t s recon v) := by
  obtain ⟨R0, hseed, hlen0, h0⟩ := seed_post hs g recon0 hg hrec
  have hr : r < t.nnodes := hs.1.2.2 r hroot
  obtain ⟨hcov, hpre⟩ := covered_mono t.kids _ r (covered_of_perm t.kids _ r htree) fuel hfuel
  have hmem : ∀ v, v ∈ preorder t.kids fuel r ↔ v < t.nnodes := by
    intro v; rw [hpre, htree.mem_iff, List.mem_range]
  have hnodup : (preorder t.kids fuel r).Nodup := by
    rw [hpre]; exact htree.nodup_iff.mpr (List.nodup_range _)
  obtain ⟨R1, hrun, hlen1, hagree, hin, hlca⟩ := reconcileHelper_post hs hb hwf lcaFuel hlf
    fuel r R0 hr hcov hnodup (by omega)
    (fun y hy hl => inSpecies_congr ((h0 y ((hmem y).mp hy)).1 hl) (hgr y ((hmem y).mp hy) hl))
  refine ⟨R1, by simp [reconcile, hseed, hroot, hrun], hlen1.trans hlen0,
    fun i hi hl => (hagree i (Or.inr hl)).trans ((h0 i hi).1 hl),
    fun v hv => hin v ((hmem v).mpr hv), fun v hv hne => hlca v ((hmem v).mpr hv) hne⟩
/-! ## `reconcile`: the claims -/

theorem Tree.Binary.branching {t : Tree} (h : t.Binary) : t.Branching := by
  intro nd hnd
  rcases h nd hnd with h0 | h2
  · exact Or.inl h0
  · exact Or.inr (by omega)

/-- C17: `reconcile` on binary gene trees.  For every well-formed binary gene
tree (pointers inside the arena, node `i` has identity `i`, every node has
zero or exactly two children, and the walk from the root along the children
lists meets every node exactly once), every well-formed species tree with
current depths, and every leaf map `gene2species` whose entries at the leaves
are identities of species nodes, `reconcile` returns, and afterwards
`recon[l] = gene2species[l]` for every leaf `l`, and every internal node `v`
has exactly two children `c0`, `c1` with `recon[v]` the identity of the node
that `treeLca` returns for the species nodes `recon[c0]` and `recon[c1]`. -/
theorem reconcile_spec (t : Tree) (s : SpeciesTree) (gene2species recon0 : List Int)
    (lcaFuel fuel r : Nat) (hs : t.Sound) (hbin : t.Binary) (hroot : t.root = some r)
    (htree : (preorder t.kids (t.nnodes + 1) r).Perm (List.range t.nnodes))
    (hwf : s.WellFormed) (hlf : ∀ i, i < s.tree.nnodes → s.depthOf i ≤ lcaFuel)
    (hfuel : t.nnodes + 1 ≤ fuel) (hg : t.nnodes ≤ gene2species.length)
    (hgr : ∀ i, i < t.nnodes → t.kidSlots i = [] → InSpecies s gene2species i)
    (hrec : t.nnodes ≤ recon0.length) :
    ∃ recon, reconcile lcaFuel fuel t s gene2species recon0 = .ok recon ∧
      (∀ l, l < t.nnodes → t.kidSlots l = [] → recon[l]? = gene2species[l]?) ∧
      ∀ v, v < t.nnodes → t.kidSlots v ≠ [] → ∃ (c0 c1 a b l : Nat),
        t.kidSlots v = [some c0, some c1] ∧
        recon[c0]? = some (a : Int) ∧ recon[c1]? = some (b : Int) ∧
        treeLca lcaFuel s (some a) (some b) = .ok (some l) ∧
        recon[v]? = s.tree.nameOf (some l) := by
  obtain ⟨recon, hrun, _, hleaf, _, hlca⟩ := reconcile_post hs hbin.branching r hroot htree hwf
    lcaFuel fuel hlf hfuel gene2species recon0 hg hgr hrec
  refine ⟨recon, hrun, hleaf, fun v hv hne => ?_⟩
  obtain ⟨c0, c1, a, b, l, h0, h1, ha, hb, hl, hr⟩ := hlca v hv hne
  obtain ⟨nd, hnd, _⟩ := hs.node_facts v hv
  rcases hbin nd (List.getElem?_mem hnd) with hz | h2
  · exact absurd ((hs.leaf_iff v nd hnd).mpr hz) hne
  · obtain ⟨d0, d1, _, _, _, _, hk⟩ := kidSlots_binary hs v hv nd hnd h2
    rw [hk] at h0 h1
    simp only [List.getElem?_cons_zero, List.getElem?_cons_succ, Option.some.injEq] at h0 h1
    subst h0 h1
    exact ⟨d0, d1, a, b, l, hk, ha, hb, hl, hr⟩

theorem reconcile_spec_witness :
    cherryTree.Sound ∧ cherryTree.Binary ∧ cherryTree.root = some 2 ∧
    (preorder cherryTree.kids (cherryTree.nnodes + 1) 2).Perm (List.range cherryTree.nnodes) ∧
    fiveSpecies.WellFormed ∧
    ∃ recon, reconcile 2 4 cherryTree fiveSpecies [0, 3, 9] [7, 7, 7] = .ok recon ∧
      (∀ l, l < cherryTree.nnodes → cherryTree.kidSlots l = [] →
        recon[l]? = ([0, 3, 9] : List Int)[l]?) ∧
      ∀ v, v < cherryTree.nnodes → cherryTree.kidSlots v ≠ [] → ∃ (c0 c1 a b l : Nat),
        cherryTree.kidSlots v = [some c0, some c1] ∧
        recon[c0]? = some (a : Int) ∧ recon[c1]? = some (b : Int) ∧
        treeLca 2 fiveSpecies (some a) (some b) = .ok (some l) ∧
        recon[v]? = fiveSpecies.tree.nameOf (some l) :=
  ⟨by decide, by decide, rfl, by decide, by decide,
    reconcile_spec cherryTree fiveSpecies [0, 3, 9] [7, 7, 7] 2 4 2 (by decide) (by decide) rfl
      (by decide) (by decide) (by decide) (by decide) (by decide)
      (fun i hi hl => by
        have hi3 : i < 3 := hi
        interval_cases i
        · exact ⟨0, by decide, rfl⟩
        · exact ⟨3, by decide, rfl⟩
        · exact absurd hl (by decide))
      (by decide)⟩

/-- C18 (counterexample): `reconcile` does not reject a gene tree whose root
has three children.  On `tripleTree` it returns a mapping without any error,
and `recon[root]` is the LCA of the species of the first two children only:
the species of the third child does not enter the result. -/
theorem reconcile_triple_not_rejected :
    tripleTree.Sound ∧ (∃ nd ∈ tripleTree.nodes, nd.nchildren = 3) ∧
    reconcile 2 5 tripleTree fiveSpecies [0, 1, 3, 9] [7, 7, 7, 7] = .ok [0, 1, 3, 2] ∧
    reconcile 2 5 tripleTree fiveSpecies [0, 1, 0, 9] [7, 7, 7, 7] = .ok [0, 1, 0, 2] ∧
    treeLca 2 fiveSpecies (some 0) (some 1) = .ok (some 2) ∧
    treeLca 2 fiveSpecies (some 2) (some 3) = .ok (some 4) :=
  ⟨by decide, by decide, by rfl, by rfl, by rfl, by rfl⟩

/-- C18 (amended): `reconcile` has no error path and reads the first two
children of an internal node.  For every well-formed gene tree in which every
internal node has two or more children, `reconcile` returns a mapping:
`recon[l] = gene2species[l]` for every leaf `l`, and for every internal node
`v`, with `c0` and `c1` its first two children, `recon[v]` is the identity of
the node that `treeLca` returns for the species nodes `recon[c0]` and
`recon[c1]`; further children of `v` are not consulted. -/
theorem reconcile_first_two_children (t : Tree) (s : SpeciesTree)
    (gene2species recon0 : List Int) (lcaFuel fuel r : Nat) (hs : t.Sound)
    (hb : t.Branching) (hroot : t.root = some r)
    (htree : (preorder t.kids (t.nnodes + 1) r).Perm (List.range t.nnodes))
    (hwf : s.WellFormed) (hlf : ∀ i, i < s.tree.nnodes → s.depthOf i ≤ lcaFuel)
    (hfuel : t.nnodes + 1 ≤ fuel) (hg : t.nnodes ≤ gene2species.length)
    (hgr : ∀ i, i < t.nnodes → t.kidSlots i = [] → InSpecies s gene2species i)
    (hrec : t.nnodes ≤ recon0.length) :
    ∃ recon, reconcile lcaFuel fuel t s gene2species recon0 = .ok recon ∧
      (∀ l, l < t.nnodes → t.kidSlots l = [] → recon[l]? = gene2species[l]?) ∧
      ∀ v, v < t.nnodes → t.kidSlots v ≠ [] → ∃ (c0 c1 a b l : Nat),
        (t.kidSlots v)[0]? = some (some c0) ∧ (t.kidSlots v)[1]? = some (some c1) ∧
        recon[c0]? = some (a : Int) ∧ recon[c1]? = some (b : Int) ∧
        treeLca lcaFuel s (some a) (some b) = .ok (some l) ∧
        recon[v]? = s.tree.nameOf (some l) := by
  obtain ⟨recon, hrun, _, hleaf, _, hlca⟩ := reconcile_post hs hb r hroot htree hwf
    lcaFuel fuel hlf hfuel gene2species recon0 hg hgr hrec
  exact ⟨recon, hrun, hleaf, fun v hv hne => hlca v hv hne⟩

theorem reconcile_first_two_children_witness :
    tripleTree.Sound ∧ tripleTree.Branching ∧ tripleTree.root = some 3 ∧
    (preorder tripleTree.kids (tripleTree.nnodes + 1) 3).Perm (List.range tripleTree.nnodes) ∧
    fiveSpecies.WellFormed ∧
    ∃ recon, reconcile 2 5 tripleTree fiveSpecies [0, 1, 3, 9] [7, 7, 7, 7] = .ok recon ∧
      (∀ l, l < tripleTree.nnodes → tripleTree.kidSlots l = [] →
        recon[l]? = ([0, 1, 3, 9] : List Int)[l]?) ∧
      ∀ v, v < tripleTree.nnodes → tripleTree.kidSlots v ≠ [] → ∃ (c0 c1 a b l : Nat),
        (tripleTree.kidSlots v)[0]? = some (some c0) ∧
        (tripleTree.kidSlots v)[1]? = some (some c1) ∧
        recon[c0]? = some (a : Int) ∧ recon[c1]? = some (b : Int) ∧
        treeLca 2 fiveSpecies (some a) (some b) = .ok (some l) ∧
        recon[v]? = fiveSpecies.tree.nameOf (some l) :=
  ⟨by decide, by decide, rfl, by decide, by decide,
    reconcile_first_two_children tripleTree fiveSpecies [0, 1, 3, 9] [7, 7, 7, 7] 2 5 3
      (by decide) (by decide) rfl (by decide) (by decide) (by decide) (by decide) (by decide)
      (fun i hi hl => by
        have hi4 : i < 4 := hi
        interval_cases i
        · exact ⟨0, by decide, rfl⟩
        · exact ⟨1, by decide, rfl⟩
        · exact ⟨3, by decide, rfl⟩
        · exact absurd hl (by decide))
      (by decide)⟩

/-! ## `reconcile` followed by `labelEvents` -/

theorem isAnc_antisymm {s : SpeciesTree} (hwf : s.WellFormed) (a b : Nat)
    (ha : a < s.tree.nnodes) (hb : b < s.tree.nnodes) (h1 : s.tree.IsAnc a b)
    (h2 : s.tree.IsAnc b a) : a = b := by
  obtain ⟨k, hk⟩ := h1
  obtain ⟨j, hj⟩ := h2
  obtain ⟨_, _, hd1⟩ := wf_anc_depth hwf b k a hb hk
  obtain ⟨_, _, hd2⟩ := wf_anc_depth hwf a j b ha hj
  have : j = 0 := by omega
  subst this
  simpa [Tree.anc] using hj

theorem isLca_eq_left_iff {s : SpeciesTree} (hwf : s.WellFormed) (l a b : Nat)
    (hl : l < s.tree.nnodes) (ha : a < s.tree.nnodes) (h : s.tree.IsLca l a b) :
    l = a ↔ s.tree.IsAnc a b := by
  constructor
  · intro e; rw [← e]; exact h.2.1
  · intro hab
    exact isAnc_antisymm hwf l a hl ha h.1 (h.2.2 a ⟨0, rfl⟩ hab)

theorem isLca_symm {t : Tree} {l a b : Nat} (h : t.IsLca l a b) : t.IsLca l b a :=
  ⟨h.2.1, h.1, fun c hb ha => h.2.2 c ha hb⟩

theorem reconcile_lca {t : Tree} {s : SpeciesTree} (hs : t.Sound) (hb : t.Branching)
    (r : Nat) (hroot : t.root = some r)
    (htree : (preorder t.kids (t.nnodes + 1) r).Perm (List.range t.nnodes))
    (hwf : s.WellFormed) (lcaFuel fuel : Nat)
    (hlf : ∀ i, i < s.tree.nnodes → s.depthOf i ≤ lcaFuel) (hfuel : t.nnodes + 1 ≤ fuel)
    (g recon0 : List Int) (hg : t.nnodes ≤ g.length)
    (hgr : ∀ i, i < t.nnodes → t.kidSlots i = [] → InSpecies s g i)
    (hrec : t.nnodes ≤ recon0.length) :
    ∃ recon, reconcile lcaFuel fuel t s g recon0 = .ok recon ∧
      recon.length = recon0.length ∧
      (∀ i, i < t.nnodes → t.kidSlots i = [] → recon[i]? = g[i]?) ∧
      ∀ v, v < t.nnodes → t.kidSlots v ≠ [] → ∃ (c0 c1 a b l : Nat),
        (t.kidSlots v)[0]? = some (some c0) ∧ (t.kidSlots v)[1]? = some (some c1) ∧
        a < s.tree.nnodes ∧ b < s.tree.nnodes ∧ l < s.tree.nnodes ∧
        recon[c0]? = some (a : Int) ∧ recon[c1]? = some (b : Int) ∧
        s.tree.IsLca l a b ∧ recon[v]? = some (l : Int) := by
  obtain ⟨recon, hrun, hlen, hleaf, hin, hlca⟩ := reconcile_post hs hb r hroot htree hwf
    lcaFuel fuel hlf hfuel g recon0 hg hgr hrec
  refine ⟨recon, hrun, hlen, hleaf, fun v hv hne => ?_⟩
  obtain ⟨c0, c1, a, b, l, h0, h1, hra, hrb, hl, hr⟩ := hlca v hv hne
  have m0 : c0 ∈ t.kids v := List.getElem?_mem ((hs.kids_get v 0 c0).mpr h0)
  have m1 : c1 ∈ t.kids v := List.getElem?_mem ((hs.kids_get v 1 c1).mpr h1)
  obtain ⟨a1, ha1, hra1⟩ := hin c0 (hs.kids_lt v c0 m0)
  obtain ⟨b1, hb1, hrb1⟩ := hin c1 (hs.kids_lt v c1 m1)
  have ea : a1 = a := by
    rw [hra] at hra1; injection hra1 with e; exact (Int.ofNat.inj e).symm
  have eb : b1 = b := by
    rw [hrb] at hrb1; injection hrb1 with e; exact (Int.ofNat.inj e).symm
  subst ea eb
  obtain ⟨l1, hl1, hrun1, hlca1⟩ := treeLca_isLca hwf lcaFuel hlf a1 b1 ha1 hb1
  have el : l1 = l := by
    rw [hl] at hrun1; injection hrun1 with e; injection e with e; exact e.symm
  subst el
  exact ⟨c0, c1, a1, b1, l1, h0, h1, ha1, hb1, hl1, hra, hrb, hlca1,
    hr.trans (hwf.2.2.1 l1 hl1)⟩

theorem isDupAt_iff {t : Tree} {recon : List Int} {v c0 c1 a b l : Nat}
    (hk : t.kidSlots v = [some c0, some c1]) (hra : recon[c0]? = some (a : Int))
    (hrb : recon[c1]? = some (b : Int)) (hr : recon[v]? = some (l : Int)) :
    IsDupAt t recon v ↔ (l = a ∨ l = b) := by
  constructor
  · rintro ⟨d0, d1, hk1, hor⟩
    rw [hk] at hk1
    simp only [List.cons.injEq, Option.some.injEq, and_true] at hk1
    obtain ⟨e0, e1⟩ := hk1
    subst e0 e1
    rw [hr, hra, hrb] at hor
    simp only [Option.some.injEq, Nat.cast_inj] at hor
    exact hor
  · intro hor
    refine ⟨c0, c1, hk, ?_⟩
    rw [hr, hra, hrb]
    simp only [Option.some.injEq, Nat.cast_inj]
    exact hor

theorem reconcile_label {t : Tree} {s : SpeciesTree} (hs : t.Sound) (hbin : t.Binary)
    (r : Nat) (hroot : t.root = some r)
    (htree : (preorder t.kids (t.nnodes + 1) r).Perm (List.range t.nnodes))
    (hwf : s.WellFormed) (lcaFuel fuel : Nat)
    (hlf : ∀ i, i < s.tree.nnodes → s.depthOf i ≤ lcaFuel) (hfuel : t.nnodes + 1 ≤ fuel)
    (g recon0 : List Int) (events0 : List Event) (hg : t.nnodes ≤ g.length)
    (hgr : ∀ i, i < t.nnodes → t.kidSlots i = [] → InSpecies s g i)
    (hrec : t.nnodes ≤ recon0.length) (hev : t.nnodes ≤ events0.length) :
    ∃ recon events, reconcile lcaFuel fuel t s g recon0 = .ok recon ∧
      labelEvents t recon events0 = .ok events ∧
      (∀ i, i < t.nnodes → t.kidSlots i = [] → recon[i]? = g[i]?) ∧
      ∀ v, v < t.nnodes → t.kidSlots v ≠ [] → ∃ (c0 c1 a b l : Nat),
        t.kidSlots v = [some c0, some c1] ∧
        a < s.tree.nnodes ∧ b < s.tree.nnodes ∧ l < s.tree.nnodes ∧
        recon[c0]? = some (a : Int) ∧ recon[c1]? = some (b : Int) ∧
        s.tree.IsLca l a b ∧ recon[v]? = some (l : Int) ∧
        (events[v]? = some .dup ↔ (l = a ∨ l = b)) ∧
        (events[v]? = some .spec ↔ (l ≠ a ∧ l ≠ b)) := by
  obtain ⟨recon, hrun, hlen, hleaf, hlca⟩ := reconcile_lca hs hbin.branching r hroot htree hwf
    lcaFuel fuel hlf hfuel g recon0 hg hgr hrec
  obtain ⟨events, hlab, hev1⟩ := labelEvents_post t recon events0 hs hbin (by omega) hev
  refine ⟨recon, events, hrun, hlab, hleaf, fun v hv hne => ?_⟩
  obtain ⟨c0, c1, a, b, l, h0, h1, ha, hb, hl, hra, hrb, hisl, hr⟩ := hlca v hv hne
  obtain ⟨nd, hnd, _⟩ := hs.node_facts v hv
  rcases hbin nd (List.getElem?_mem hnd) with hz | h2
  · exact absurd ((hs.leaf_iff v nd hnd).mpr hz) hne
  · obtain ⟨d0, d1, _, _, _, _, hk⟩ := kidSlots_binary hs v hv nd hnd h2
    rw [hk] at h0 h1
    simp only [List.getElem?_cons_zero, List.getElem?_cons_succ, Option.some.injEq] at h0 h1
    subst h0 h1
    have hdup := isDupAt_iff hk hra hrb hr
    obtain ⟨_, hd, hsp⟩ := hev1 v hv
    refine ⟨d0, d1, a, b, l, hk, ha, hb, hl, hra, hrb, hisl, hr, hd.trans hdup, ?_⟩
    rw [hsp, hdup, not_or]
    exact ⟨fun h => h.2, fun h => ⟨hne, h⟩⟩

theorem isLca_siblings {s : SpeciesTree} (hwf : s.WellFormed) (s1 s2 p : Nat)
    (h1 : s1 < s.tree.nnodes) (h2 : s2 < s.tree.nnodes) (hne : s1 ≠ s2)
    (hp1 : s.tree.parentOf s1 = some p) (hp2 : s.tree.parentOf s2 = some p) :
    p < s.tree.nnodes ∧ p ≠ s1 ∧ p ≠ s2 ∧ s.tree.IsLca p s1 s2 := by
  have a1 : s.tree.anc s1 1 = some p := by rw [Tree.anc_succ_left, hp1]; rfl
  have a2 : s.tree.anc s2 1 = some p := by rw [Tree.anc_succ_left, hp2]; rfl
  obtain ⟨_, hp, hd1⟩ := wf_anc_depth hwf s1 1 p h1 a1
  obtain ⟨_, _, hd2⟩ := wf_anc_depth hwf s2 1 p h2 a2
  refine ⟨hp, fun e => ?_, fun e => ?_, ⟨1, a1⟩, ⟨1, a2⟩, fun c hc1 hc2 => ?_⟩
  · rw [e] at hd1; omega
  · rw [e] at hd2; omega
  · obtain ⟨k, hk⟩ := hc1
    cases k with
    | zero =>
      have e : s1 = c := by simpa [Tree.anc] using hk
      subst e
      obtain ⟨j, hj⟩ := hc2
      obtain ⟨_, _, hd3⟩ := wf_anc_depth hwf s2 j s1 h2 hj
      have : j = 0 := by omega
      subst this
      have e2 : s2 = s1 := by simpa [Tree.anc] using hj
      exact absurd e2.symm hne
    | succ k =>
      rw [Tree.anc_succ_left, hp1] at hk
      exact ⟨k, hk⟩

theorem cherry_nodes {t : Tree} (hs : t.Sound) (r c0 c1 : Nat) (hroot : t.root = some r)
    (htree : (preorder t.kids (t.nnodes + 1) r).Perm (List.range t.nnodes))
    (hk : t.kidSlots r = [some c0, some c1]) (hl0 : t.kidSlots c0 = [])
    (hl1 : t.kidSlots c1 = []) :
    r < t.nnodes ∧ ∀ i, i < t.nnodes → i = r ∨ i = c0 ∨ i = c1 := by
  have hr : r < t.nnodes := hs.1.2.2 r hroot
  refine ⟨hr, fun i hi => ?_⟩
  have hmem : i ∈ preorder t.kids (t.nnodes + 1) r := htree.mem_iff.mpr (List.mem_range.mpr hi)
  obtain ⟨m, hm⟩ : ∃ m, t.nnodes = m + 1 := ⟨t.nnodes - 1, by omega⟩
  rw [hm] at hmem
  have hkr : t.kids r = [c0, c1] := by simp [Tree.kids, hk]
  have hk0 : t.kids c0 = [] := by simp [Tree.kids, hl0]
  have hk1 : t.kids c1 = [] := by simp [Tree.kids, hl1]
  simp only [preorder, hkr, hk0, hk1, List.flatMap_cons, List.flatMap_nil, List.mem_cons,
    List.mem_append, List.mem_nil_iff, or_false, List.nil_append, List.singleton_append] at hmem
  exact hmem

/-! ## `reconcile` followed by `labelEvents`: the claims -/

/-- C20: a cherry over two sibling species is a speciation.  For every
well-formed gene tree made of a root `r` with the two leaf children `c0` and
`c1`, and every well-formed species tree with current depths in which the two
gene leaves are mapped to two different species nodes `s1`, `s2` whose parent
links point to the same species node `p`, `reconcile` returns with
`recon[r] = p`, and `labelEvents` then returns with `events[r] = SPECIATION`. -/
theorem reconcile_cherry_speciation (t : Tree) (s : SpeciesTree)
    (gene2species recon0 : List Int) (events0 : List Event)
    (lcaFuel fuel r c0 c1 s1 s2 p : Nat) (hs : t.Sound) (hbin : t.Binary)
    (hroot : t.root = some r)
    (htree : (preorder t.kids (t.nnodes + 1) r).Perm (List.range t.nnodes))
    (hk : t.kidSlots r = [some c0, some c1]) (hl0 : t.kidSlots c0 = [])
    (hl1 : t.kidSlots c1 = [])
    (hwf : s.WellFormed) (hlf : ∀ i, i < s.tree.nnodes → s.depthOf i ≤ lcaFuel)
    (hfuel : t.nnodes + 1 ≤ fuel) (hg : t.nnodes ≤ gene2species.length)
    (hrec : t.nnodes ≤ recon0.length) (hev : t.nnodes ≤ events0.length)
    (h1 : s1 < s.tree.nnodes) (h2 : s2 < s.tree.nnodes) (hne : s1 ≠ s2)
    (hp1 : s.tree.parentOf s1 = some p) (hp2 : s.tree.parentOf s2 = some p)
    (hg0 : gene2species[c0]? = some (s1 : Int)) (hg1 : gene2species[c1]? = some (s2 : Int)) :
    ∃ recon events, reconcile lcaFuel fuel t s gene2species recon0 = .ok recon ∧
      labelEvents t recon events0 = .ok events ∧
      recon[r]? = some (p : Int) ∧ events[r]? = some .spec := by
  obtain ⟨hr, hall⟩ := cherry_nodes hs r c0 c1 hroot htree hk hl0 hl1
  have hrne : t.kidSlots r ≠ [] := by rw [hk]; simp
  have hc0 : c0 < t.nnodes := hs.kids_lt r c0 (by simp [Tree.kids, hk])
  have hc1 : c1 < t.nnodes := hs.kids_lt r c1 (by simp [Tree.kids, hk])
  obtain ⟨recon, events, hrun, hlab, hleaf, hint⟩ := reconcile_label hs hbin r hroot htree hwf
    lcaFuel fuel hlf hfuel gene2species recon0 events0 hg
    (fun i hi hl => by
      rcases hall i hi with e | e | e
      · rw [e] at hl; exact absurd hl hrne
      · rw [e]; exact ⟨s1, h1, hg0⟩
      · rw [e]; exact ⟨s2, h2, hg1⟩)
    hrec hev
  obtain ⟨d0, d1, a, b, l, hk1, ha, hb, hl, hra, hrb, hisl, hrr, _, hsp⟩ := hint r hr hrne
  rw [hk] at hk1
  simp only [List.cons.injEq, Option.some.injEq, and_true] at hk1
  obtain ⟨e0, e1⟩ := hk1
  subst e0 e1
  rw [hleaf c0 hc0 hl0, hg0] at hra
  rw [hleaf c1 hc1 hl1, hg1] at hrb
  simp only [Option.some.injEq, Nat.cast_inj] at hra hrb
  subst hra hrb
  obtain ⟨hp, hps1, hps2, hlcap⟩ := isLca_siblings hwf s1 s2 p h1 h2 hne hp1 hp2
  have elp : l = p := isLca_unique hwf l p s1 s2 hl hp hisl (isLca_symm hlcap)
  subst elp
  exact ⟨recon, events, hrun, hlab, hrr, hsp.mpr ⟨hps1, hps2⟩⟩

theorem reconcile_cherry_speciation_witness :
    cherryTree.Sound ∧ cherryTree.Binary ∧ cherryTree.kidSlots 2 = [some 0, some 1] ∧
    fiveSpecies.WellFormed ∧ fiveSpecies.tree.parentOf 0 = some 2 ∧
    fiveSpecies.tree.parentOf 1 = some 2 ∧
    ∃ recon events, reconcile 2 4 cherryTree fiveSpecies [0, 1, 9] [7, 7, 7] = .ok recon ∧
      labelEvents cherryTree recon [.gene, .gene, .gene] = .ok events ∧
      recon[2]? = some ((2 : Nat) : Int) ∧ events[2]? = some .spec :=
  ⟨by decide, by decide, rfl, by decide, rfl, rfl,
    reconcile_cherry_speciation cherryTree fiveSpecies [0, 1, 9] [7, 7, 7] [.gene, .gene, .gene]
      2 4 2 0 1 0 1 2 (by decide) (by decide) rfl (by decide) rfl rfl rfl (by decide)
      (by decide) (by decide) (by decide) (by decide) (by decide) (by decide) (by decide)
      (by decide) rfl rfl rfl rfl⟩

/-- C21: a cherry over one species is a duplication.  For every well-formed
gene tree made of a root `r` with the two leaf children `c0` and `c1`, and
every well-formed species tree with current depths in which both gene leaves
are mapped to the same species node `sp`, `reconcile` returns with
`recon[r] = sp`, and `labelEvents` then returns with
`events[r] = DUPLICATION`. -/
theorem reconcile_cherry_duplication (t : Tree) (s : SpeciesTree)
    (gene2species recon0 : List Int) (events0 : List Event)
    (lcaFuel fuel r c0 c1 sp : Nat) (hs : t.Sound) (hbin : t.Binary)
    (hroot : t.root = some r)
    (htree : (preorder t.kids (t.nnodes + 1) r).Perm (List.range t.nnodes))
    (hk : t.kidSlots r = [some c0, some c1]) (hl0 : t.kidSlots c0 = [])
    (hl1 : t.kidSlots c1 = [])
    (hwf : s.WellFormed) (hlf : ∀ i, i < s.tree.nnodes → s.depthOf i ≤ lcaFuel)
    (hfuel : t.nnodes + 1 ≤ fuel) (hg : t.nnodes ≤ gene2species.length)
    (hrec : t.nnodes ≤ recon0.length) (hev : t.nnodes ≤ events0.length)
    (h1 : sp < s.tree.nnodes)
    (hg0 : gene2species[c0]? = some (sp : Int)) (hg1 : gene2species[c1]? = some (sp : Int)) :
    ∃ recon events, reconcile lcaFuel fuel t s gene2species recon0 = .ok recon ∧
      labelEvents t recon events0 = .ok events ∧
      recon[r]? = some (sp : Int) ∧ events[r]? = some .dup := by
  obtain ⟨hr, hall⟩ := cherry_nodes hs r c0 c1 hroot htree hk hl0 hl1
  have hrne : t.kidSlots r ≠ [] := by rw [hk]; simp
  have hc0 : c0 < t.nnodes := hs.kids_lt r c0 (by simp [Tree.kids, hk])
  have hc1 : c1 < t.nnodes := hs.kids_lt r c1 (by simp [Tree.kids, hk])
  obtain ⟨recon, events, hrun, hlab, hleaf, hint⟩ := reconcile_label hs hbin r hroot htree hwf
    lcaFuel fuel hlf hfuel gene2species recon0 events0 hg
    (fun i hi hl => by
      rcases hall i hi with e | e | e
      · rw [e] at hl; exact absurd hl hrne
      · rw [e]; exact ⟨sp, h1, hg0⟩
      · rw [e]; exact ⟨sp, h1, hg1⟩)
    hrec hev
  obtain ⟨d0, d1, a, b, l, hk1, ha, hb, hl, hra, hrb, hisl, hrr, hdup, _⟩ := hint r hr hrne
  rw [hk] at hk1
  simp only [List.cons.injEq, Option.some.injEq, and_true] at hk1
  obtain ⟨e0, e1⟩ := hk1
  subst e0 e1
  rw [hleaf c0 hc0 hl0, hg0] at hra
  rw [hleaf c1 hc1 hl1, hg1] at hrb
  simp only [Option.some.injEq, Nat.cast_inj] at hra hrb
  subst hra
  have els : l = sp := (isLca_eq_left_iff hwf l sp b hl h1 hisl).mpr (by rw [← hrb]; exact ⟨0, rfl⟩)
  subst els
  exact ⟨recon, events, hrun, hlab, hrr, hdup.mpr (Or.inl rfl)⟩

theorem reconcile_cherry_duplication_witness :
    cherryTree.Sound ∧ cherryTree.Binary ∧ cherryTree.kidSlots 2 = [some 0, some 1] ∧
    fiveSpecies.WellFormed ∧
    ∃ recon events, reconcile 2 4 cherryTree fiveSpecies [3, 3, 9] [7, 7, 7] = .ok recon ∧
      labelEvents cherryTree recon [.gene, .gene, .gene] = .ok events ∧
      recon[2]? = some ((3 : Nat) : Int) ∧ events[2]? = some .dup :=
  ⟨by decide, by decide, rfl, by decide,
    reconcile_cherry_duplication cherryTree fiveSpecies [3, 3, 9] [7, 7, 7]
      [.gene, .gene, .gene] 2 4 2 0 1 3 (by decide) (by decide) rfl (by decide) rfl rfl rfl
      (by decide) (by decide) (by decide) (by decide) (by decide) (by decide) (by decide)
      rfl rfl⟩

/-- C23: duplications and speciations in terms of the species tree.  For
every well-formed binary gene tree, every well-formed species tree with
current depths and every leaf map with in-range species identities,
`reconcile` followed by `labelEvents` returns, and every internal gene node
`v` has two children `c0`, `c1`, mapped to the species nodes `a = recon[c0]`
and `b = recon[c1]`, such that `events[v]` is DUPLICATION exactly when `a` is
an ancestor-or-equal of `b` or `b` is an ancestor-or-equal of `a`, and
SPECIATION exactly when neither is an ancestor-or-equal of the other. -/
theorem labelEvents_reconcile_spec (t : Tree) (s : SpeciesTree)
    (gene2species recon0 : List Int) (events0 : List Event) (lcaFuel fuel r : Nat)
    (hs : t.Sound) (hbin : t.Binary) (hroot : t.root = some r)
    (htree : (preorder t.kids (t.nnodes + 1) r).Perm (List.range t.nnodes))
    (hwf : s.WellFormed) (hlf : ∀ i, i < s.tree.nnodes → s.depthOf i ≤ lcaFuel)
    (hfuel : t.nnodes + 1 ≤ fuel) (hg : t.nnodes ≤ gene2species.length)
    (hgr : ∀ i, i < t.nnodes → t.kidSlots i = [] → InSpecies s gene2species i)
    (hrec : t.nnodes ≤ recon0.length) (hev : t.nnodes ≤ events0.length) :
    ∃ recon events, reconcile lcaFuel fuel t s gene2species recon0 = .ok recon ∧
      labelEvents t recon events0 = .ok events ∧
      ∀ v, v < t.nnodes → t.kidSlots v ≠ [] → ∃ (c0 c1 a b : Nat),
        t.kidSlots v = [some c0, some c1] ∧
        recon[c0]? = some (a : Int) ∧ recon[c1]? = some (b : Int) ∧
        (events[v]? = some .dup ↔ (s.tree.IsAnc a b ∨ s.tree.IsAnc b a)) ∧
        (events[v]? = some .spec ↔ (¬ s.tree.IsAnc a b ∧ ¬ s.tree.IsAnc b a)) := by
  obtain ⟨recon, events, hrun, hlab, _, hint⟩ := reconcile_label hs hbin r hroot htree hwf
    lcaFuel fuel hlf hfuel gene2species recon0 events0 hg hgr hrec hev
  refine ⟨recon, events, hrun, hlab, fun v hv hne => ?_⟩
  obtain ⟨c0, c1, a, b, l, hk, ha, hb, hl, hra, hrb, hisl, _, hdup, hsp⟩ := hint v hv hne
  have ea : l = a ↔ s.tree.IsAnc a b := isLca_eq_left_iff hwf l a b hl ha hisl
  have eb : l = b ↔ s.tree.IsAnc b a := isLca_eq_left_iff hwf l b a hl hb (isLca_symm hisl)
  refine ⟨c0, c1, a, b, hk, hra, hrb, ?_, ?_⟩
  · rw [hdup, ea, eb]
  · rw [hsp, Ne, Ne, ea, eb]

theorem labelEvents_reconcile_spec_witness :
    cherryTree.Sound ∧ cherryTree.Binary ∧ cherryTree.root = some 2 ∧
    (preorder cherryTree.kids (cherryTree.nnodes + 1) 2).Perm (List.range cherryTree.nnodes) ∧
    fiveSpecies.WellFormed ∧
    ∃ recon events, reconcile 2 4 cherryTree fiveSpecies [0, 2, 9] [7, 7, 7] = .ok recon ∧
      labelEvents cherryTree recon [.gene, .gene, .gene] = .ok events ∧
      ∀ v, v < cherryTree.nnodes → cherryTree.kidSlots v ≠ [] → ∃ (c0 c1 a b : Nat),
        cherryTree.kidSlots v = [some c0, some c1] ∧
        recon[c0]? = some (a : Int) ∧ recon[c1]? = some (b : Int) ∧
        (events[v]? = some .dup ↔ (fiveSpecies.tree.IsAnc a b ∨ fiveSpecies.tree.IsAnc b a)) ∧
        (events[v]? = some .spec ↔
          (¬ fiveSpecies.tree.IsAnc a b ∧ ¬ fiveSpecies.tree.IsAnc b a)) :=
  ⟨by decide, by decide, rfl, by decide, by decide,
    labelEvents_reconcile_spec cherryTree fiveSpecies [0, 2, 9] [7, 7, 7] [.gene, .gene, .gene]
      2 4 2 (by decide) (by decide) rfl (by decide) (by decide) (by decide) (by decide)
      (by decide)
      (fun i hi hl => by
        have hi3 : i < 3 := hi
        interval_cases i
        · exact ⟨0, by decide, rfl⟩
        · exact ⟨2, by decide, rfl⟩
        · exact absurd hl (by decide))
      (by decide) (by decide)⟩

/-! ## Walks that end -/

theorem flatMap_sublist_flatMap {α β : Type} (g h : α → List β) : ∀ (l : List α),
    (∀ c ∈ l, (g c).Sublist (h c)) → (l.flatMap g).Sublist (l.flatMap h)
  | [], _ => by simp
  | a :: l, hgh => by
    rw [List.flatMap_cons, List.flatMap_cons]
    exact (hgh a (List.mem_cons_self _ _)).append
      (flatMap_sublist_flatMap g h l fun c hc => hgh c (List.mem_cons_of_mem _ hc))

theorem sublist_flatMap_of_mem {α β : Type} (g : α → List β) : ∀ (l : List α) (c : α),
    c ∈ l → (g c).Sublist (l.flatMap g)
  | [], _, h => by cases h
  | a :: l, c, h => by
    rw [List.flatMap_cons]
    rcases List.mem_cons.mp h with rfl | h
    · exact List.sublist_append_left _ _
    · exact (sublist_flatMap_of_mem g l c h).trans (List.sublist_append_right _ _)

theorem preorder_sublist_succ (K : Nat → List Nat) : ∀ (f x : Nat),
    (preorder K f x).Sublist (preorder K (f + 1) x)
  | 0, _ => List.nil_sublist _
  | f + 1, x => by
    show (x :: (K x).flatMap (preorder K f)).Sublist (x :: (K x).flatMap (preorder K (f + 1)))
    exact (flatMap_sublist_flatMap _ _ _ fun c _ => preorder_sublist_succ K f c).cons₂ x

theorem preorder_sublist_le (K : Nat → List Nat) (f g x : Nat) (h : f ≤ g) :
    (preorder K f x).Sublist (preorder K g x) := by
  induction h with
  | refl => exact List.Sublist.refl _
  | step _ ih => exact ih.trans (preorder_sublist_succ K _ x)

theorem trav_unique {K : Nat → List Nat} {x : Nat} {l1 l2 : List Nat} (h1 : Trav K x l1)
    (h2 : Trav K x l2) : l1 = l2 := by
  obtain ⟨f1, c1, e1⟩ := h1
  obtain ⟨f2, c2, e2⟩ := h2
  rcases Nat.le_total f1 f2 with h | h
  · rw [← e1, ← e2]; exact ((covered_mono K f1 x c1 f2 h).2).symm
  · rw [← e1, ← e2]; exact (covered_mono K f2 x c2 f1 h).2

theorem trav_cons {K : Nat → List Nat} {x : Nat} {l : List Nat} (h : Trav K x l) :
    ∃ g : Nat → List Nat, (∀ c ∈ K x, Trav K c (g c)) ∧ l = x :: (K x).flatMap g := by
  obtain ⟨f, hc, e⟩ := h
  cases f with
  | zero => cases hc
  | succ f => exact ⟨preorder K f, fun c hcm => ⟨f, hc c hcm, rfl⟩, e.symm⟩

theorem common_fuel (K : Nat → List Nat) (g : Nat → List Nat) : ∀ (l : List Nat),
    (∀ c ∈ l, Trav K c (g c)) → ∃ f, ∀ c ∈ l, covered K f c ∧ preorder K f c = g c
  | [], _ => ⟨0, fun c hc => by cases hc⟩
  | a :: l, h => by
    obtain ⟨f1, h1⟩ := common_fuel K g l fun c hc => h c (List.mem_cons_of_mem _ hc)
    obtain ⟨f2, c2, e2⟩ := h a (List.mem_cons_self _ _)
    refine ⟨max f1 f2, fun c hc => ?_⟩
    rcases List.mem_cons.mp hc with rfl | hc
    · obtain ⟨hcv, he⟩ := covered_mono K f2 c c2 (max f1 f2) (le_max_right _ _)
      exact ⟨hcv, he.trans e2⟩
    · obtain ⟨hcv, he⟩ := covered_mono K f1 c (h1 c hc).1 (max f1 f2) (le_max_left _ _)
      exact ⟨hcv, he.trans (h1 c hc).2⟩

theorem trav_mk {K : Nat → List Nat} {x : Nat} (g : Nat → List Nat)
    (h : ∀ c ∈ K x, Trav K c (g c)) : Trav K x (x :: (K x).flatMap g) := by
  obtain ⟨f, hf⟩ := common_fuel K g (K x) h
  refine ⟨f + 1, fun c hc => (hf c hc).1, ?_⟩
  show x :: (K x).flatMap (preorder K f) = x :: (K x).flatMap g
  rw [List.flatMap_congr fun c hc => (hf c hc).2]

theorem trav_mem_self {K : Nat → List Nat} {x : Nat} {l : List Nat} (h : Trav K x l) :
    x ∈ l := by
  obtain ⟨f, hc, e⟩ := h
  rw [← e]; exact mem_preorder_self K f x hc

theorem preorder_congr (K K1 : Nat → List Nat) : ∀ (f c : Nat),
    (∀ y ∈ preorder K f c, K1 y = K y) →
    preorder K1 f c = preorder K f c ∧ (covered K f c → covered K1 f c)
  | 0, _, _ => ⟨rfl, fun h => h⟩
  | f + 1, c, h => by
    have hc : K1 c = K c := h c (List.mem_cons_self _ _)
    have ih : ∀ d ∈ K c, preorder K1 f d = preorder K f d ∧ (covered K f d → covered K1 f d) :=
      fun d hd => preorder_congr K K1 f d fun y hy =>
        h y (List.mem_cons_of_mem _ (List.mem_flatMap.mpr ⟨d, hd, hy⟩))
    constructor
    · show c :: (K1 c).flatMap (preorder K1 f) = c :: (K c).flatMap (preorder K f)
      rw [hc, List.flatMap_congr fun d hd => (ih d hd).1]
    · intro hcov d hd
      rw [hc] at hd
      exact (ih d hd).2 (hcov d hd)

theorem trav_congr {K K1 : Nat → List Nat} {x : Nat} {l : List Nat}
    (h : ∀ y ∈ l, K1 y = K y) (ht : Trav K x l) : Trav K1 x l := by
  obtain ⟨f, hc, e⟩ := ht
  subst e
  obtain ⟨he, hcov⟩ := preorder_congr K K1 f x h
  exact ⟨f, hcov hc, he⟩

theorem covered_sub (K : Nat → List Nat) : ∀ (f y x : Nat), covered K f y →
    x ∈ preorder K f y → covered K f x ∧ (preorder K f x).Sublist (preorder K f y)
  | 0, _, _, h, _ => by cases h
  | f + 1, y, x, h, hx => by
    rcases List.mem_cons.mp hx with rfl | hx
    · exact ⟨h, List.Sublist.refl _⟩
    · obtain ⟨c, hc, hxc⟩ := List.mem_flatMap.mp hx
      obtain ⟨h1, h2⟩ := covered_sub K f c x (h c hc) hxc
      obtain ⟨h3, h4⟩ := covered_succ K f x h1
      refine ⟨h3, ?_⟩
      rw [h4]
      exact (h2.trans (sublist_flatMap_of_mem _ _ c hc)).trans (List.sublist_cons_self _ _)

theorem trav_sub {K : Nat → List Nat} {y x : Nat} {l : List Nat} (h : Trav K y l)
    (hx : x ∈ l) : ∃ l1, Trav K x l1 ∧ l1.Sublist l := by
  obtain ⟨f, hc, e⟩ := h
  subst e
  obtain ⟨h1, h2⟩ := covered_sub K f y x hc hx
  exact ⟨_, ⟨f, h1, rfl⟩, h2⟩

theorem trav_fuel {K : Nat → List Nat} {r : Nat} {l : List Nat} (n : Nat) (h : Trav K r l)
    (hn : l.length = n) : covered K (n + 1) r ∧ preorder K (n + 1) r = l := by
  obtain ⟨f, hc, e⟩ := h
  rcases Nat.le_total f (n + 1) with hle | hle
  · obtain ⟨h1, h2⟩ := covered_mono K f r hc (n + 1) hle
    exact ⟨h1, h2.trans e⟩
  · have hcov : covered K (n + 1) r := by
      by_contra hnc
      have h1 := length_of_not_covered K (n + 1) r hnc
      have h2 := (preorder_sublist_le K (n + 1) f r hle).length_le
      rw [e, hn] at h2
      omega
    exact ⟨hcov, ((covered_mono K (n + 1) r hcov f hle).2).symm.trans e⟩

theorem nodup_of_flatMap {g : Nat → List Nat} : ∀ (l : List Nat), (∀ c ∈ l, c ∈ g c) →
    (l.flatMap g).Nodup → l.Nodup
  | [], _, _ => List.nodup_nil
  | a :: l, hg, hnd => by
    rw [List.flatMap_cons] at hnd
    obtain ⟨_, h2, hdisj⟩ := List.nodup_append.mp hnd
    refine List.nodup_cons.mpr ⟨fun ha => ?_, nodup_of_flatMap l
      (fun c hc => hg c (List.mem_cons_of_mem _ hc)) h2⟩
    exact hdisj (hg a (List.mem_cons_self _ _)) (List.mem_flatMap.mpr ⟨a, ha, hg a
      (List.mem_cons_of_mem _ ha)⟩)

/-! ## Rerooting: the walk over the new children lists -/

theorem anc_of_mem_preorder (t : Tree)
    (hlink : ∀ x c, c ∈ t.kids x → t.parentOf c = some x) : ∀ (f y z : Nat),
    z ∈ preorder t.kids f y → ∃ k, t.anc z k = some y
  | 0, _, _, h => by cases h
  | f + 1, y, z, h => by
    rcases List.mem_cons.mp h with rfl | h
    · exact ⟨0, rfl⟩
    · obtain ⟨c, hc, hz⟩ := List.mem_flatMap.mp h
      obtain ⟨k, hk⟩ := anc_of_mem_preorder t hlink f c z hz
      exact ⟨k + 1, by rw [Tree.anc, hk]; exact hlink y c hc⟩

theorem chain_anc (t : Tree) (u : Nat → Nat) (m : Nat)
    (hchain : ∀ i, i ≤ m → t.parentOf (u i) = some (u (i + 1))) (i : Nat) :
    ∀ k, i + k ≤ m + 1 → t.anc (u i) k = some (u (i + k))
  | 0, _ => rfl
  | k + 1, h => by
    rw [Tree.anc, chain_anc t u m hchain i k (by omega)]
    exact hchain (i + k) (by omega)

theorem chain_inj (t : Tree) (u : Nat → Nat) (m r : Nat)
    (hchain : ∀ i, i ≤ m → t.parentOf (u i) = some (u (i + 1))) (hum : u (m + 1) = r)
    (hr : t.parentOf r = none) (i j : Nat) (hi : i ≤ m + 1) (hj : j ≤ m + 1)
    (h : u i = u j) : i = j := by
  have h1 := chain_anc t u m hchain i (m + 1 - i) (by omega)
  have h2 := chain_anc t u m hchain j (m + 1 - j) (by omega)
  rw [show i + (m + 1 - i) = m + 1 by omega, hum] at h1
  rw [show j + (m + 1 - j) = m + 1 by omega, hum, ← h] at h2
  have := Tree.anc_to_root_unique t r hr (u i) _ _ h1 h2
  omega

theorem chain_anc_inv (t : Tree) (u : Nat → Nat) (m r : Nat)
    (hchain : ∀ i, i ≤ m → t.parentOf (u i) = some (u (i + 1))) (hum : u (m + 1) = r)
    (hr : t.parentOf r = none) (j k c : Nat) (hj : j ≤ m + 1)
    (h : t.anc (u j) k = some c) : j + k ≤ m + 1 ∧ c = u (j + k) := by
  rcases Nat.lt_or_ge (m + 1) (j + k) with hlt | hge
  · exfalso
    have h1 := chain_anc t u m hchain j (m + 1 - j) (by omega)
    rw [show j + (m + 1 - j) = m + 1 by omega, hum] at h1
    have e : k = (m + 1 - j) + (k - (m + 1 - j)) := by omega
    rw [e, Tree.anc_add, h1] at h
    have := Tree.anc_root t r hr _ c h
    omega
  · have h1 := chain_anc t u m hchain j k hge
    rw [h1] at h
    exact ⟨hge, (Option.some.inj h).symm⟩

theorem flatMap_set_perm (g g1 : Nat → List Nat) (l : List Nat) (q a b : Nat)
    (hq : l[q]? = some a) (hnd : l.Nodup)
    (hg : ∀ c ∈ l, c ≠ a → g1 c = g c) :
    ((l.set q b).flatMap g1 ++ g a).Perm (l.flatMap g ++ g1 b) := by
  have hql : q < l.length := by
    rcases Nat.lt_or_ge q l.length with h | h
    · exact h
    · rw [List.getElem?_eq_none h] at hq; cases hq
  have e : l[q] = a := by
    rw [List.getElem?_eq_getElem hql] at hq; exact Option.some.inj hq
  have hl : l = l.take q ++ a :: l.drop (q + 1) := by
    rw [← e, ← List.drop_eq_getElem_cons hql, List.take_append_drop]
  have hs : l.set q b = l.take q ++ b :: l.drop (q + 1) := by
    rw [List.set_eq_take_append_cons_drop, if_pos hql]
  have hnd1 := hnd
  rw [hl] at hnd1
  have hL : ∀ c ∈ l.take q, g1 c = g c := fun c hc => hg c (List.mem_of_mem_take hc) (by
    rintro rfl
    have := (List.nodup_append.mp hnd1).2.2
    exact this hc (List.mem_cons_self _ _))
  have hR : ∀ c ∈ l.drop (q + 1), g1 c = g c := fun c hc => hg c (List.mem_of_mem_drop hc) (by
    rintro rfl
    have := (List.nodup_append.mp hnd1).2.1
    exact (List.nodup_cons.mp this).1 hc)
  rw [hs]
  conv => rhs; rw [hl]
  simp only [List.flatMap_append, List.flatMap_cons]
  rw [List.flatMap_congr hL, List.flatMap_congr hR]
  rw [← Multiset.coe_eq_coe]
  simp only [← Multiset.coe_add]
  abel

theorem mem_set_nodup {l : List Nat} {q a b c : Nat} (hnd : l.Nodup) (hq : l[q]? = some a)
    (hc : c ∈ l.set q b) : c = b ∨ (c ∈ l ∧ c ≠ a) := by
  have hql : q < l.length := by
    rcases Nat.lt_or_ge q l.length with h | h
    · exact h
    · rw [List.getElem?_eq_none h] at hq; cases hq
  have e : l[q] = a := by
    rw [List.getElem?_eq_getElem hql] at hq; exact Option.some.inj hq
  have hl : l = l.take q ++ a :: l.drop (q + 1) := by
    rw [← e, ← List.drop_eq_getElem_cons hql, List.take_append_drop]
  rw [List.set_eq_take_append_cons_drop, if_pos hql] at hc
  rw [hl] at hnd
  obtain ⟨_, h2, hdisj⟩ := List.nodup_append.mp hnd
  rcases List.mem_append.mp hc with h | h
  · exact Or.inr ⟨List.mem_of_mem_take h, fun e1 => hdisj h (e1 ▸ List.mem_cons_self _ _)⟩
  · rcases List.mem_cons.mp h with h | h
    · exact Or.inl h
    · exact Or.inr ⟨List.mem_of_mem_drop h, fun e1 => (List.nodup_cons.mp h2).1 (e1 ▸ h)⟩

theorem trav_reroot_step (t : Tree) (K1 : Nat → List Nat) (x a W : Nat) (q : Nat)
    (GW Pa Px : List Nat) (hq : (t.kids x)[q]? = some a)
    (hK1 : K1 x = (t.kids x).set q W) (hW : W ∉ t.kids x) (hPx : Trav t.kids x Px)
    (hnd : Px.Nodup) (hPa : Trav t.kids a Pa) (hGW : Trav K1 W GW)
    (hun : ∀ c l, c ∈ t.kids x → c ≠ a → Trav t.kids c l → Trav K1 c l) :
    ∃ G, Trav K1 x G ∧ (G ++ Pa).Perm (Px ++ GW) := by
  obtain ⟨g, hg, hPxe⟩ := trav_cons hPx
  have hkn : (t.kids x).Nodup := by
    rw [hPxe] at hnd
    exact nodup_of_flatMap _ (fun c hc => trav_mem_self (hg c hc)) (List.nodup_cons.mp hnd).2
  have ha : a ∈ t.kids x := List.getElem?_mem hq
  have hga : g a = Pa := trav_unique (hg a ha) hPa
  have hg1 : ∀ c ∈ t.kids x, c ≠ a → (fun c => if c = W then GW else g c) c = g c := by
    intro c hc _
    have : c ≠ W := fun e => hW (e ▸ hc)
    simp [this]
  refine ⟨x :: (K1 x).flatMap (fun c => if c = W then GW else g c), trav_mk _ fun c hc => ?_, ?_⟩
  · rw [hK1] at hc
    rcases mem_set_nodup hkn hq hc with e | ⟨hck, hca⟩
    · subst e; simpa using hGW
    · have e := hg1 c hck hca
      simp only at e
      rw [e]
      exact hun c _ hck hca (hg c hck)
  · have hperm := flatMap_set_perm g (fun c => if c = W then GW else g c) (t.kids x) q a W hq hkn
      hg1
    simp only [if_true] at hperm
    rw [hK1, hPxe, ← hga]
    simp only [List.cons_append]
    exact List.Perm.cons x hperm

theorem trav_reroot (t : Tree) (K1 : Nat → List Nat) (u : Nat → Nat) (m r S : Nat)
    (P : List Nat)
    (hlink : ∀ x c, c ∈ t.kids x → t.parentOf c = some x)
    (hr : t.parentOf r = none)
    (hchain : ∀ i, i ≤ m → t.parentOf (u i) = some (u (i + 1)))
    (hum : u (m + 1) = r) (hm : 1 ≤ m)
    (hS : t.parentOf S = some r) (hSu : S ≠ u m)
    (hKr : (t.kids r).Perm [u m, S])
    (hP : Trav t.kids r P) (hPn : P.Nodup)
    (hK1r : K1 r = [u 0, u 1])
    (hK1u : ∀ i, 1 ≤ i → i ≤ m → ∃ q, (t.kids (u i))[q]? = some (u (i - 1)) ∧
      K1 (u i) = (t.kids (u i)).set q (if i = m then S else u (i + 1)))
    (hK1o : ∀ x, x ≠ r → (∀ i, 1 ≤ i → i ≤ m → x ≠ u i) → K1 x = t.kids x) :
    ∃ P1, Trav K1 r P1 ∧ P1.Perm P := by
  have hinj := chain_inj t u m r hchain hum hr
  obtain ⟨f, hcov, hpre⟩ := hP
  have hP : Trav t.kids r P := ⟨f, hcov, hpre⟩
  have hkidP : ∀ x c, x ∈ P → c ∈ t.kids x → c ∈ P := by
    intro x c hx hc
    rw [← hpre] at hx ⊢
    exact mem_preorder_kid t.kids f r x c hcov hx hc
  have hSk : S ∈ t.kids r := hKr.mem_iff.mpr (by simp)
  have humk : u m ∈ t.kids r := hKr.mem_iff.mpr (by simp)
  have hrP : r ∈ P := trav_mem_self hP
  have hSP : S ∈ P := hkidP r S hrP hSk
  have hprev : ∀ i, 1 ≤ i → i ≤ m → u (i - 1) ∈ t.kids (u i) := fun i h1 h2 => by
    obtain ⟨q, hq, _⟩ := hK1u i h1 h2
    exact List.getElem?_mem hq
  have hmemP : ∀ d, d ≤ m + 1 → u (m + 1 - d) ∈ P := by
    intro d
    induction d with
    | zero => intro _; rw [Nat.sub_zero, hum]; exact hrP
    | succ d ih =>
      intro hd
      have h1 := ih (by omega)
      rcases Nat.eq_zero_or_pos d with h0 | hpos
      · subst h0
        rw [Nat.sub_zero, hum] at h1
        rw [show m + 1 - (0 + 1) = m by omega]
        exact hkidP r _ h1 humk
      · have := hprev (m + 1 - d) (by omega) (by omega)
        rw [show m + 1 - d - 1 = m + 1 - (d + 1) by omega] at this
        exact hkidP _ _ h1 this
  have huP : ∀ i, i ≤ m + 1 → u i ∈ P := fun i hi => by
    have := hmemP (m + 1 - i) (by omega)
    rwa [show m + 1 - (m + 1 - i) = i by omega] at this
  have hun : ∀ c l, (∀ j, 1 ≤ j → j ≤ m + 1 → c ≠ u j) → Trav t.kids c l → Trav K1 c l := by
    intro c l hc ht
    have hy : ∀ y ∈ l, ∀ j, 1 ≤ j → j ≤ m + 1 → y ≠ u j := by
      intro y hyl j h1 h2 e
      obtain ⟨f1, _, hp1⟩ := ht
      rw [← hp1] at hyl
      obtain ⟨k, hk⟩ := anc_of_mem_preorder t hlink f1 c y hyl
      rw [e] at hk
      obtain ⟨h3, h4⟩ := chain_anc_inv t u m r hchain hum hr j k c h2 hk
      exact hc (j + k) (by omega) h3 h4
    refine trav_congr (fun y hyl => hK1o y ?_ fun i h1 h2 => hy y hyl i h1 (by omega)) ht
    rw [← hum]
    exact hy y hyl (m + 1) (by omega) (le_refl _)
  have hhang : ∀ i c, 1 ≤ i → i ≤ m → c ∈ t.kids (u i) → c ≠ u (i - 1) →
      ∀ j, 1 ≤ j → j ≤ m + 1 → c ≠ u j := by
    intro i c h1 h2 hc hne j hj1 hj2 e
    have hp := hlink _ _ hc
    rw [e] at hp
    rcases Nat.lt_or_ge m j with hlt | hge
    · have : j = m + 1 := by omega
      rw [this, hum, hr] at hp; cases hp
    · rw [hchain j hge] at hp
      have := hinj (j + 1) i (by omega) (by omega) (Option.some.inj hp)
      apply hne
      rw [e, ← this]
      rfl
  have hSn : ∀ j, 1 ≤ j → j ≤ m + 1 → S ≠ u j := by
    intro j hj1 hj2 e
    rcases Nat.lt_or_ge m j with hlt | hge
    · have : j = m + 1 := by omega
      rw [e, this, hum, hr] at hS; cases hS
    · have hp := hchain j hge
      rw [← e, hS, ← hum] at hp
      have := hinj (m + 1) (j + 1) (le_refl _) (by omega) (Option.some.inj hp)
      have : j = m := by omega
      exact hSu (this ▸ e)
  have hWn : ∀ i, 1 ≤ i → i ≤ m → (if i = m then S else u (i + 1)) ∉ t.kids (u i) := by
    intro i h1 h2 hmem
    have hp := hlink _ _ hmem
    split at hp
    · rw [hS, ← hum] at hp
      have := hinj (m + 1) i (le_refl _) (by omega) (Option.some.inj hp)
      omega
    · rw [hchain (i + 1) (by omega)] at hp
      have := hinj (i + 1 + 1) i (by omega) (by omega) (Option.some.inj hp)
      omega
  have hex : ∀ x, x ∈ P → ∃ l, Trav t.kids x l ∧ l.Nodup := fun x hx => by
    obtain ⟨l, hl, hsub⟩ := trav_sub hP hx
    exact ⟨l, hl, hsub.nodup hPn⟩
  obtain ⟨Ps, hPs, _⟩ := hex S hSP
  obtain ⟨Pm, hPm, _⟩ := hex (u m) (huP m (by omega))
  have claim : ∀ d i, i + d = m → 1 ≤ i → ∃ G, Trav K1 (u i) G ∧
      ∀ Pp, Trav t.kids (u (i - 1)) Pp → (G ++ Pp).Perm (Pm ++ Ps) := by
    intro d
    induction d with
    | zero =>
      intro i hi h1
      have him : i = m := by omega
      subst him
      obtain ⟨q, hq, hset⟩ := hK1u i h1 (le_refl _)
      obtain ⟨Pa, hPa, _⟩ := hex (u (i - 1)) (huP _ (by omega))
      have hW := hWn i h1 (le_refl _)
      rw [if_pos rfl] at hset hW
      obtain ⟨Pi, hPi, hPind⟩ := hex (u i) (huP i (by omega))
      obtain ⟨G, hG, hperm⟩ := trav_reroot_step t K1 (u i) (u (i - 1)) S q Ps Pa Pi hq hset hW
        hPi hPind hPa (hun S Ps hSn hPs)
        (fun c l hc hne hl => hun c l (hhang i c h1 (le_refl _) hc hne) hl)
      refine ⟨G, hG, fun Pp hPp => ?_⟩
      rw [trav_unique hPp hPa, trav_unique hPm hPi]
      exact hperm
    | succ d ih =>
      intro i hi h1
      obtain ⟨G1, hG1, hperm1⟩ := ih (i + 1) (by omega) (by omega)
      obtain ⟨q, hq, hset⟩ := hK1u i h1 (by omega)
      obtain ⟨Pa, hPa, _⟩ := hex (u (i - 1)) (huP _ (by omega))
      have hW := hWn i h1 (by omega)
      have hne : ¬ i = m := by omega
      rw [if_neg hne] at hset hW
      obtain ⟨Pi, hPi, hPind⟩ := hex (u i) (huP i (by omega))
      obtain ⟨G, hG, hperm⟩ := trav_reroot_step t K1 (u i) (u (i - 1)) (u (i + 1)) q G1 Pa Pi hq
        hset hW hPi hPind hPa hG1
        (fun c l hc hne => hun c l (hhang i c h1 (by omega) hc hne))
      refine ⟨G, hG, fun Pp hPp => ?_⟩
      rw [trav_unique hPp hPa]
      exact hperm.trans (List.perm_append_comm.trans (hperm1 Pi hPi))
  obtain ⟨G1, hG1, hperm1⟩ := claim (m - 1) 1 (by omega) (le_refl _)
  obtain ⟨P0, hP0, _⟩ := hex (u 0) (huP 0 (by omega))
  have hP0new : Trav K1 (u 0) P0 := hun (u 0) P0 (fun j h1 h2 e => by
    have := hinj 0 j (by omega) h2 e
    omega) hP0
  have h01 : u 1 ≠ u 0 := fun e => by
    have := hinj 1 0 (by omega) (by omega) e
    omega
  have hnew : Trav K1 r (r :: (K1 r).flatMap fun c => if c = u 0 then P0 else G1) :=
    trav_mk _ fun c hc => by
      rw [hK1r] at hc
      simp only [List.mem_cons, List.mem_nil_iff, or_false] at hc
      rcases hc with e | e
      · subst e; simpa using hP0new
      · subst e; simpa [h01] using hG1
  refine ⟨_, hnew, ?_⟩
  obtain ⟨g, hg, hPe⟩ := trav_cons hP
  have e1 : g (u m) = Pm := trav_unique (hg _ humk) hPm
  have e2 : g S = Ps := trav_unique (hg _ hSk) hPs
  have hold : ((t.kids r).flatMap g).Perm (Pm ++ Ps) := by
    have := List.Perm.flatMap_right g hKr
    simpa [e1, e2] using this
  rw [hPe, hK1r]
  simp only [List.flatMap_cons, List.flatMap_nil, List.append_nil, if_true, h01, if_false]
  exact List.Perm.cons r ((List.perm_append_comm.trans (hperm1 P0 hP0)).trans hold.symm)

/-! ## Rerooting: the run of `Tree::reroot` -/

theorem findvalFrom_spec (l : List (Option Nat)) (val : Option Nat) : ∀ (count i : Nat),
    (∃ j, i ≤ j ∧ j < i + count ∧ l[j]? = some val) →
    ∃ q : Nat, findvalFrom l val count i = .ok (q : Int) ∧ i ≤ q ∧ q < i + count ∧
      l[q]? = some val
  | 0, i, h => by
    obtain ⟨j, h1, h2, _⟩ := h
    omega
  | count + 1, i, h => by
    obtain ⟨j, h1, h2, hj⟩ := h
    have hil : i < l.length := by
      rcases Nat.lt_or_ge j l.length with hlt | hge
      · omega
      · rw [List.getElem?_eq_none hge] at hj; cases hj
    have hi : l[i]? = some l[i] := List.getElem?_eq_getElem hil
    by_cases hx : l[i] = val
    · refine ⟨i, ?_, le_refl _, by omega, by rw [hi, hx]⟩
      simp [findvalFrom, rd_ok hi, hx]
    · have hji : j ≠ i := by
        rintro rfl
        rw [hi] at hj
        exact hx (Option.some.inj hj)
      obtain ⟨q, hrun, hq1, hq2, hq3⟩ := findvalFrom_spec l val count (i + 1)
        ⟨j, by omega, by omega, hj⟩
      refine ⟨q, ?_, by omega, by omega, hq3⟩
      simp [findvalFrom, rd_ok hi, hx, hrun]

theorem findval_spec (l : List (Option Nat)) (size : Nat) (val : Option Nat)
    (h : val ∈ l.take size) :
    ∃ q : Nat, findval l size val = .ok (q : Int) ∧ (l.take size)[q]? = some val := by
  obtain ⟨j, hj⟩ := List.mem_iff_getElem?.mp h
  have hjs : j < size := by
    rcases Nat.lt_or_ge j size with hlt | hge
    · exact hlt
    · rw [List.getElem?_take] at hj
      simp [Nat.not_lt.mpr hge] at hj
  have hj1 : l[j]? = some val := by
    rw [List.getElem?_take, if_pos hjs] at hj; exact hj
  obtain ⟨q, hrun, _, hq2, hq3⟩ := findvalFrom_spec l val size 0 ⟨j, Nat.zero_le _, by omega, hj1⟩
  refine ⟨q, hrun, ?_⟩
  rw [List.getElem?_take, if_pos (by omega)]
  exact hq3

theorem kidSlots_congr {T T1 : Tree} {y : Nat} (h : T1.nodes[y]? = T.nodes[y]?) :
    T1.kidSlots y = T.kidSlots y := by
  simp only [Tree.kidSlots, h]

theorem parentOf_congr {T T1 : Tree} {y : Nat} (h : T1.nodes[y]? = T.nodes[y]?) :
    T1.parentOf y = T.parentOf y := by
  simp only [Tree.parentOf, h]

theorem parentOf_of_node {T : Tree} {x : Nat} {nd : Node} (h : T.nodes[x]? = some nd) :
    T.parentOf x = nd.parent := by
  simp [Tree.parentOf, h]

theorem setChild_spec (T : Tree) (x q : Nat) (w : Option Nat) (nd : Node)
    (hnd : T.nodes[x]? = some nd) (hq : q < nd.children.length) :
    ∃ T1, T.setChild (some x) (q : Int) w = .ok T1 ∧
      T1.nnodes = T.nnodes ∧ T1.root = T.root ∧ T1.nodes.length = T.nodes.length ∧
      T1.nodes[x]? = some { nd with children := nd.children.set q w } ∧
      ∀ y, y ≠ x → T1.nodes[y]? = T.nodes[y]? := by
  have hx : x < T.nodes.length := by
    rcases Nat.lt_or_ge x T.nodes.length with hlt | hge
    · exact hlt
    · rw [List.getElem?_eq_none hge] at hnd; cases hnd
  refine ⟨{ T with nodes := T.nodes.set x { nd with children := nd.children.set q w } }, ?_,
    rfl, rfl, by simp, by simp [List.getElem?_set_self hx], fun y hy => ?_⟩
  · simp [Tree.setChild, deref, rd_ok hnd, idx_ok, wr_ok _ hq, wr_ok _ hx]
  · simp [List.getElem?_set_ne (Ne.symm hy)]

theorem setParent_spec (T : Tree) (x : Nat) (p : Option Nat) (nd : Node)
    (hnd : T.nodes[x]? = some nd) :
    ∃ T1, T.setParent (some x) p = .ok T1 ∧
      T1.nnodes = T.nnodes ∧ T1.root = T.root ∧ T1.nodes.length = T.nodes.length ∧
      T1.nodes[x]? = some { nd with parent := p } ∧
      ∀ y, y ≠ x → T1.nodes[y]? = T.nodes[y]? := by
  have hx : x < T.nodes.length := by
    rcases Nat.lt_or_ge x T.nodes.length with hlt | hge
    · exact hlt
    · rw [List.getElem?_eq_none hge] at hnd; cases hnd
  refine ⟨{ T with nodes := T.nodes.set x { nd with parent := p } }, ?_,
    rfl, rfl, by simp, by simp [List.getElem?_set_self hx], fun y hy => ?_⟩
  · simp [Tree.setParent, deref, rd_ok hnd, wr_ok _ hx]
  · simp [List.getElem?_set_ne (Ne.symm hy)]

theorem setName_spec (T : Tree) (x : Nat) (v : Int) (nd : Node)
    (hnd : T.nodes[x]? = some nd) :
    ∃ T1, T.setName (some x) v = .ok T1 ∧
      T1.nnodes = T.nnodes ∧ T1.root = T.root ∧ T1.nodes.length = T.nodes.length ∧
      T1.nodes[x]? = some { nd with name := v } ∧
      ∀ y, y ≠ x → T1.nodes[y]? = T.nodes[y]? := by
  have hx : x < T.nodes.length := by
    rcases Nat.lt_or_ge x T.nodes.length with hlt | hge
    · exact hlt
    · rw [List.getElem?_eq_none hge] at hnd; cases hnd
  refine ⟨{ T with nodes := T.nodes.set x { nd with name := v } }, ?_,
    rfl, rfl, by simp, by simp [List.getElem?_set_self hx], fun y hy => ?_⟩
  · simp [Tree.setName, deref, rd_ok hnd, wr_ok _ hx]
  · simp [List.getElem?_set_ne (Ne.symm hy)]

theorem node_of_lt {T : Tree} {x : Nat} (h : x < T.nodes.length) :
    ∃ nd, T.nodes[x]? = some nd :=
  ⟨_, List.getElem?_eq_getElem h⟩

theorem relink_spec (T : Tree) (x q : Nat) (w p w0 : Option Nat) (nd : Node)
    (hnd : T.nodes[x]? = some nd) (hq : (nd.children.take nd.nchildren)[q]? = some w0) :
    ∃ T1 T2, T.setChild (some x) (q : Int) w = .ok T1 ∧ T1.setParent (some x) p = .ok T2 ∧
      T2.nnodes = T.nnodes ∧ T2.root = T.root ∧ T2.nodes.length = T.nodes.length ∧
      T2.kidSlots x = (T.kidSlots x).set q w ∧ T2.parentOf x = p ∧
      ∀ y, y ≠ x → T2.nodes[y]? = T.nodes[y]? := by
  have hql : q < nd.children.length := by
    rcases Nat.lt_or_ge q (nd.children.take nd.nchildren).length with hlt | hge
    · rw [List.length_take] at hlt; omega
    · rw [List.getElem?_eq_none hge] at hq; cases hq
  obtain ⟨T1, h1, hn1, hr1, hl1, hx1, ho1⟩ := setChild_spec T x q w nd hnd hql
  obtain ⟨T2, h2, hn2, hr2, hl2, hx2, ho2⟩ := setParent_spec T1 x p _ hx1
  refine ⟨T1, T2, h1, h2, hn2.trans hn1, hr2.trans hr1, hl2.trans hl1, ?_, ?_,
    fun y hy => (ho2 y hy).trans (ho1 y hy)⟩
  · rw [kidSlots_of_node hx2, kidSlots_of_node hnd]
    exact List.set_take
  · rw [parentOf_of_node hx2]

theorem rerootLoop_run (t : Tree) (u : Nat → Nat) (m r S : Nat) (stop1 stop2 : Option Nat)
    (hstops : ∀ x, (some x = stop1 ∨ some x = stop2) ↔ (x = u m ∨ x = S))
    (hchain : ∀ i, i ≤ m → t.parentOf (u i) = some (u (i + 1)))
    (hum : u (m + 1) = r)
    (hinj : ∀ i j, i ≤ m + 1 → j ≤ m + 1 → u i = u j → i = j)
    (hSn : ∀ j, j ≤ m + 1 → S ≠ u j)
    (hnode : ∀ i, i ≤ m + 1 → u i < t.nodes.length)
    (hslot : ∀ i, 1 ≤ i → i ≤ m → some (u (i - 1)) ∈ t.kidSlots (u i)) :
    ∀ (d j fuel : Nat) (T : Tree), j + 1 + d = m → d ≤ fuel → RerootInv t u r j T →
      ∃ T1, rerootLoop stop1 stop2 fuel T (some (u (j + 1))) (some (u j)) =
          .ok (T1, some (u m), some (u (m - 1))) ∧ RerootInv t u r (m - 1) T1 := by
  intro d
  induction d with
  | zero =>
    intro j fuel T hj _ hI
    have hjm : j + 1 = m := by omega
    have hstop : ¬ ((some (u (j + 1)) : Option Nat) ≠ stop1 ∧ some (u (j + 1)) ≠ stop2) := by
      intro ⟨h1, h2⟩
      rcases (hstops (u (j + 1))).mpr (Or.inl (by rw [hjm])) with h | h
      · exact h1 h
      · exact h2 h
    refine ⟨T, ?_, ?_⟩
    · rw [rerootLoop.eq_def]
      dsimp only
      rw [if_neg hstop, hjm]
      rw [show j = m - 1 by omega]
    · rw [show m - 1 = j by omega]; exact hI
  | succ d ih =>
    intro j fuel T hj hfuel hI
    obtain ⟨fuel1, rfl⟩ : ∃ f, fuel = f + 1 := ⟨fuel - 1, by omega⟩
    have hcond : (some (u (j + 1)) : Option Nat) ≠ stop1 ∧ some (u (j + 1)) ≠ stop2 := by
      constructor
      · intro h
        rcases (hstops (u (j + 1))).mp (Or.inl h) with e | e
        · have := hinj (j + 1) m (by omega) (by omega) e; omega
        · exact hSn (j + 1) (by omega) e.symm
      · intro h
        rcases (hstops (u (j + 1))).mp (Or.inr h) with e | e
        · have := hinj (j + 1) m (by omega) (by omega) e; omega
        · exact hSn (j + 1) (by omega) e.symm
    obtain ⟨hIn, hIr, hIl, hIkr, hIp0, hIk0, hIC, hID⟩ := hI
    obtain ⟨nd, hnd⟩ := node_of_lt (hnode (j + 1) (by omega))
    have hxr : u (j + 1) ≠ r := fun e => by
      have := hinj (j + 1) (m + 1) (by omega) (le_refl _) (e.trans hum.symm); omega
    have hx0 : u (j + 1) ≠ u 0 := fun e => by
      have := hinj (j + 1) 0 (by omega) (by omega) e; omega
    have hxi : ∀ i, 1 ≤ i → i ≤ j → u (j + 1) ≠ u i := fun i _ h2 e => by
      have := hinj (j + 1) i (by omega) (by omega) e; omega
    have hTnd : T.nodes[u (j + 1)]? = some nd := (hID _ hxr hx0 hxi).trans hnd
    have hmem := hslot (j + 1) (by omega) (by omega)
    rw [Nat.add_sub_cancel, kidSlots_of_node hnd] at hmem
    obtain ⟨q, hfind, hq⟩ := findval_spec nd.children nd.nchildren (some (u j)) hmem
    have hpar : nd.parent = some (u (j + 1 + 1)) := by
      rw [← parentOf_of_node hnd]; exact hchain (j + 1) (by omega)
    obtain ⟨T1, T2, hsc, hsp, h2n, h2r, h2l, h2k, h2p, h2o⟩ := relink_spec T (u (j + 1)) q
      (some (u (j + 1 + 1))) (some (u j)) _ nd hTnd hq
    have hI2 : RerootInv t u r (j + 1) T2 := by
      refine ⟨h2n.trans hIn, h2r.trans hIr, h2l.trans hIl, ?_, ?_, ?_, ?_, ?_⟩
      · rw [kidSlots_congr (h2o r (Ne.symm hxr))]; exact hIkr
      · rw [parentOf_congr (h2o _ (Ne.symm hx0))]; exact hIp0
      · rw [kidSlots_congr (h2o _ (Ne.symm hx0))]; exact hIk0
      · intro i h1 h2
        rcases Nat.lt_or_ge j i with hlt | hge
        · have e : i = j + 1 := by omega
          subst e
          refine ⟨q, ?_, ?_⟩
          · rw [Nat.add_sub_cancel, kidSlots_of_node hnd]; exact hq
          · rw [h2k, kidSlots_congr (hID _ hxr hx0 hxi)]
        · obtain ⟨q1, hq1, hk1⟩ := hIC i h1 hge
          refine ⟨q1, hq1, ?_⟩
          rw [kidSlots_congr (h2o _ (Ne.symm (hxi i h1 hge)))]
          exact hk1
      · intro x h1 h2 h3
        rw [h2o x (h3 (j + 1) (by omega) (le_refl _))]
        exact hID x h1 h2 fun i hi1 hi2 => h3 i hi1 (by omega)
    obtain ⟨T3, hrun, hI3⟩ := ih (j + 1) fuel1 T2 (by omega) (by omega) hI2
    refine ⟨T3, ?_, hI3⟩
    have hne : ¬ ((q : Int) = -1) := by omega
    rw [rerootLoop.eq_def]
    dsimp only
    rw [if_pos hcond]
    simp only [Tree.node_some hTnd, onTree_ok, run_bind_ok, hfind, hne, if_false, hpar, hsc,
      hsp]
    exact hrun

/-! ## `Tree::reroot` on a branch -/

theorem take_two_set {l : List (Option Nat)} (h : 2 ≤ l.length) (a b : Option Nat) :
    ((l.set 0 a).set 1 b).take 2 = [a, b] := by
  match l, h with
  | _ :: _ :: _, _ => simp

theorem reroot_run (t : Tree) (u : Nat → Nat) (m r S A B fuel : Nat) (ndr : Node)
    (hroot : t.root = some r) (hn : 2 ≤ t.nnodes)
    (hrnode : t.nodes[r]? = some ndr) (hr2 : ndr.nchildren = 2)
    (hc0 : ndr.children[0]? = some (some A)) (hc1 : ndr.children[1]? = some (some B))
    (hAB : (A = u m ∧ B = S) ∨ (A = S ∧ B = u m))
    (hchain : ∀ i, i ≤ m → t.parentOf (u i) = some (u (i + 1)))
    (hum : u (m + 1) = r) (hm : 1 ≤ m)
    (hinj : ∀ i j, i ≤ m + 1 → j ≤ m + 1 → u i = u j → i = j)
    (hSn : ∀ j, j ≤ m + 1 → S ≠ u j)
    (hnode : ∀ i, i ≤ m + 1 → u i < t.nodes.length) (hSlt : S < t.nodes.length)
    (hslot : ∀ i, 1 ≤ i → i ≤ m → some (u (i - 1)) ∈ t.kidSlots (u i))
    (hfuel : m ≤ fuel) :
    ∃ T, t.reroot fuel (some (u 0)) true = .ok T ∧ T.root = some r ∧ T.nnodes = t.nnodes ∧
      T.parentOf (u 0) = some r ∧ T.kidSlots r = [some (u 0), some (u 1)] ∧
      (∀ i, 1 ≤ i → i ≤ m → ∃ q, (t.kidSlots (u i))[q]? = some (some (u (i - 1))) ∧
        T.kidSlots (u i) = (t.kidSlots (u i)).set q (some (if i = m then S else u (i + 1)))) ∧
      ∀ x, x ≠ r → (∀ i, 1 ≤ i → i ≤ m → x ≠ u i) → T.kidSlots x = t.kidSlots x := by
  have h0r : u 0 ≠ r := fun e => by
    have := hinj 0 (m + 1) (by omega) (le_refl _) (e.trans hum.symm); omega
  have h0m : u 0 ≠ u m := fun e => by
    have := hinj 0 m (by omega) (by omega) e; omega
  have hmr : u m ≠ r := fun e => by
    have := hinj m (m + 1) (by omega) (le_refl _) (e.trans hum.symm); omega
  have hSr : S ≠ r := fun e => hSn (m + 1) (le_refl _) (e.trans hum.symm)
  have hS0 : S ≠ u 0 := hSn 0 (by omega)
  have hSm : S ≠ u m := hSn m (by omega)
  have hA0 : A ≠ u 0 := by
    rcases hAB with ⟨e, _⟩ | ⟨e, _⟩
    · rw [e]; exact Ne.symm h0m
    · rw [e]; exact hS0
  have hB0 : B ≠ u 0 := by
    rcases hAB with ⟨_, e⟩ | ⟨_, e⟩
    · rw [e]; exact hS0
    · rw [e]; exact Ne.symm h0m
  -- the trivial case does not apply
  have htriv : rerootTrivial t (some (u 0)) true = .ok false := by
    have h1 : ¬ ((some r : Option Nat) = some (u 0)) := fun e => h0r (Option.some.inj e).symm
    have h2 : ¬ ((some A : Option Nat) = some (u 0)) := fun e => hA0 (Option.some.inj e)
    have h3 : ¬ ((some B : Option Nat) = some (u 0)) := fun e => hB0 (Option.some.inj e)
    simp [rerootTrivial, hroot, h1, Tree.node_some hrnode, hr2, rd_ok hc0, rd_ok hc1, h2, h3]
  have hrooted : t.isRooted = true := (Tree.isRooted_iff t).mpr ⟨r, ndr, hroot, hrnode, hr2⟩
  -- start the reversal
  obtain ⟨nd0, hnd0⟩ := node_of_lt (hnode 0 (by omega))
  have hpar0 : nd0.parent = some (u 1) := by
    rw [← parentOf_of_node hnd0]; exact hchain 0 (by omega)
  have hcl : 2 ≤ ndr.children.length := by
    rcases Nat.lt_or_ge 1 ndr.children.length with h | h
    · exact h
    · rw [List.getElem?_eq_none h] at hc1; cases hc1
  obtain ⟨ta, hta, han, har, hal, hax, hao⟩ := setChild_spec t r 0 (some (u 0)) ndr hrnode
    (by omega)
  obtain ⟨tb, htb, hbn, hbr, hbl, hbx, hbo⟩ := setChild_spec ta r 1 (some (u 1)) _ hax
    (by simp; omega)
  have hb0 : tb.nodes[u 0]? = some nd0 := ((hbo _ h0r).trans (hao _ h0r)).trans hnd0
  obtain ⟨tc, htc, hcn, hcr, hcl1, hcx, hco⟩ := setParent_spec tb (u 0) (some r) nd0 hb0
  have hI0 : RerootInv t u r 0 tc := by
    refine ⟨hcn.trans (hbn.trans han), hcr.trans (hbr.trans har), hcl1.trans (hbl.trans hal),
      ?_, ?_, ?_, fun i h1 h2 => (by omega), fun x h1 h2 _ => ?_⟩
    · rw [kidSlots_congr (hco r (Ne.symm h0r)), kidSlots_of_node hbx]
      simp only [hr2]
      exact take_two_set hcl _ _
    · rw [parentOf_of_node hcx]
    · rw [kidSlots_of_node hcx, kidSlots_of_node hnd0]
    · exact ((hco x h2).trans (hbo x h1)).trans (hao x h1)
  -- reverse parent child relationships
  have hstops : ∀ x, ((some x : Option Nat) = some A ∨ (some x : Option Nat) = some B) ↔
      (x = u m ∨ x = S) := by
    intro x
    simp only [Option.some.injEq]
    rcases hAB with ⟨e1, e2⟩ | ⟨e1, e2⟩
    · rw [e1, e2]
    · rw [e1, e2]; exact Or.comm
  obtain ⟨T2, hloop, hI2⟩ := rerootLoop_run t u m r S (some A) (some B) hstops hchain hum hinj
    hSn hnode hslot (m - 1) 0 fuel tc (by omega) (by omega) hI0
  obtain ⟨h2n, h2r, h2l, h2kr, h2p0, h2k0, h2C, h2D⟩ := hI2
  -- handle last two nodes
  obtain ⟨ndm, hndm⟩ := node_of_lt (hnode m (by omega))
  have hTm : T2.nodes[u m]? = some ndm :=
    (h2D _ hmr (Ne.symm h0m) fun i _ h2 e => by
      have := hinj m i (by omega) (by omega) e; omega).trans hndm
  have hmemm := hslot m hm (le_refl _)
  rw [kidSlots_of_node hndm] at hmemm
  obtain ⟨q, hfind, hq⟩ := findval_spec ndm.children ndm.nchildren (some (u (m - 1))) hmemm
  obtain ⟨T3, T4, hsc, hsp, h4n, h4r, h4l, h4k, h4p, h4o⟩ := relink_spec T2 (u m) q (some S)
    (some (u (m - 1))) _ ndm hTm hq
  obtain ⟨ndS, hndS⟩ : ∃ nd, T4.nodes[S]? = some nd :=
    node_of_lt (by rw [h4l, h2l]; exact hSlt)
  obtain ⟨T5, hsS, h5n, h5r, h5l, h5x, h5o⟩ := setParent_spec T4 S (some (u m)) ndS hndS
  obtain ⟨ndr5, hndr5⟩ : ∃ nd, T5.nodes[r]? = some nd :=
    node_of_lt (by
      rw [h5l, h4l, h2l]
      rcases Nat.lt_or_ge r t.nodes.length with h | h
      · exact h
      · rw [List.getElem?_eq_none h] at hrnode; cases hrnode)
  have h5root : T5.root = some r := by rw [h5r, h4r, h2r, hroot]
  obtain ⟨T6, hsn, h6n, h6r, h6l, h6x, h6o⟩ := setName_spec T5 r ((T5.nnodes : Int) - 1) ndr5
    hndr5
  have h5nn : T5.nnodes = t.nnodes := by rw [h5n, h4n, h2n]
  have hassert : ¬ ((T5.nnodes : Int) - 1 = 0) := by rw [h5nn]; omega
  have hrun : t.reroot fuel (some (u 0)) true = .ok T6 := by
    simp only [Nat.cast_zero, Nat.cast_one] at hta htb
    rcases hAB with ⟨e1, e2⟩ | ⟨e1, e2⟩
    · simp only [e1, e2] at hc0 hc1 hloop
      have hne : ¬ ((some S : Option Nat) = some (u m)) := fun e => hSm (Option.some.inj e)
      simp only [Tree.reroot, htriv, onTree_ok, run_bind_ok, hrooted, if_true, Tree.node_some
        hrnode, rd_ok hc0, rd_ok hc1, bind_ok, pure_eq_ok, hroot, Tree.node_some hnd0, hpar0,
        hta, htb, htc, run_pure, hloop, hne, if_false, ne_eq, not_true, not_false_eq_true,
        reduceCtorEq, Tree.node_some hTm, hfind, hsc, hsp, hsS, h5root, hsn, hassert]
    · simp only [e1, e2] at hc0 hc1 hloop
      simp only [Tree.reroot, htriv, onTree_ok, run_bind_ok, hrooted, if_true, Tree.node_some
        hrnode, rd_ok hc0, rd_ok hc1, bind_ok, pure_eq_ok, hroot, Tree.node_some hnd0, hpar0,
        hta, htb, htc, run_pure, hloop, if_false, ne_eq, not_true, not_false_eq_true,
        reduceCtorEq, Tree.node_some hTm, hfind, hsc, hsp, hsS, h5root, hsn, hassert]
  have hk6 : ∀ x, T6.kidSlots x = T5.kidSlots x := fun x => by
    by_cases e : x = r
    · subst e; rw [kidSlots_of_node h6x, kidSlots_of_node hndr5]
    · exact kidSlots_congr (h6o x e)
  have hk5 : ∀ x, T5.kidSlots x = T4.kidSlots x := fun x => by
    by_cases e : x = S
    · subst e; rw [kidSlots_of_node h5x, kidSlots_of_node hndS]
    · exact kidSlots_congr (h5o x e)
  have hk4 : ∀ x, x ≠ u m → T6.kidSlots x = T2.kidSlots x := fun x hx => by
    rw [hk6, hk5]; exact kidSlots_congr (h4o x hx)
  refine ⟨T6, hrun, h6r.trans h5root, h6n.trans h5nn, ?_, ?_, fun i h1 h2 => ?_,
    fun x h1 h2 => ?_⟩
  · rw [parentOf_congr (h6o _ h0r), parentOf_congr (h5o _ (Ne.symm hS0)),
      parentOf_congr (h4o _ h0m)]
    exact h2p0
  · rw [hk4 r (Ne.symm hmr)]; exact h2kr
  · rcases Nat.lt_or_ge i m with hlt | hge
    · obtain ⟨q1, hq1, hk1⟩ := h2C i h1 (by omega)
      have hne : ¬ i = m := by omega
      refine ⟨q1, hq1, ?_⟩
      rw [if_neg hne, hk4 _ (fun e => by
        have := hinj i m (by omega) (by omega) e; omega)]
      exact hk1
    · have e : i = m := by omega
      subst e
      refine ⟨q, by rw [kidSlots_of_node hndm]; exact hq, ?_⟩
      rw [if_pos rfl, hk6, hk5, h4k, kidSlots_congr (hTm.trans hndm.symm)]
  · rw [hk4 x (h2 m hm (le_refl _))]
    by_cases e : x = u 0
    · rw [e]; exact h2k0
    · exact kidSlots_congr (h2D x h1 e fun i hi1 hi2 => h2 i hi1 (by omega))

theorem filterMap_id_map_some : ∀ (l : List Nat), (l.map some).filterMap id = l
  | [] => rfl
  | a :: l => by simp [filterMap_id_map_some l]

theorem chain_sibling_ne (t : Tree) (u : Nat → Nat) (m r S : Nat)
    (hchain : ∀ i, i ≤ m → t.parentOf (u i) = some (u (i + 1))) (hum : u (m + 1) = r)
    (hr : t.parentOf r = none) (hS : t.parentOf S = some r) (hSu : S ≠ u m) :
    ∀ j, j ≤ m + 1 → S ≠ u j := by
  intro j hj e
  rcases Nat.lt_or_ge m j with hlt | hge
  · have : j = m + 1 := by omega
    rw [e, this, hum, hr] at hS; cases hS
  · have hp := hchain j hge
    rw [← e, hS, ← hum] at hp
    have := chain_inj t u m r hchain hum hr (m + 1) (j + 1) (le_refl _) (by omega)
      (Option.some.inj hp)
    have : j = m := by omega
    exact hSu (this ▸ e)

theorem chain_length_le (u : Nat → Nat) (k n : Nat)
    (hinj : ∀ i j, i < k → j < k → u i = u j → i = j) (hlt : ∀ i, i < k → u i < n) :
    k ≤ n := by
  have hnd : ((List.range k).map u).Nodup := by
    rw [List.nodup_map_iff_inj_on (List.nodup_range k)]
    intro i hi j hj e
    exact hinj i j (List.mem_range.mp hi) (List.mem_range.mp hj) e
  have hsub : (List.range k).map u ⊆ List.range n := by
    intro x hx
    obtain ⟨i, hi, rfl⟩ := List.mem_map.mp hx
    exact List.mem_range.mpr (hlt i (List.mem_range.mp hi))
  have := (List.subperm_of_subset hnd hsub).length_le
  simpa using this

/-- C7: rerooting on a branch keeps the children lists a tree.  For every
well-formed rooted binary tree `t` (a well-formed tree with all pointers
inside the arena, whose root `r` has exactly two children, and in which the
walk from the root along the children lists meets every node exactly once)
and every node `v` that is neither the root nor a child of the root, the call
`reroot(v, onBranch = true)` returns; afterwards the root is still `r`, the
node `v` is in the children list of the root and its parent link is the root,
and the walk from the root along the children lists again meets every node of
the tree exactly once. -/
theorem reroot_spec (t : Tree) (v r fuel : Nat) (hwf : t.WellFormed) (hval : t.Valid)
    (hroot : t.root = some r) (hrooted : t.isRooted = true)
    (htree : (preorder t.kids (t.nnodes + 1) r).Perm (List.range t.nnodes))
    (hv : v < t.nnodes) (hvr : v ≠ r) (hvk : v ∉ t.kids r) (hfuel : t.nnodes ≤ fuel) :
    ∃ T, t.reroot fuel (some v) true = .ok T ∧ T.root = some r ∧ T.nnodes = t.nnodes ∧
      v ∈ T.kids r ∧ T.parentOf v = some r ∧
      (preorder T.kids (T.nnodes + 1) r).Perm (List.range T.nnodes) := by
  obtain ⟨hlen, hnamed, _, hslots, hlinks, hparents, r1, hr1, hroot1, huniq⟩ := hwf
  have er : r1 = r := by rw [hroot] at hroot1; exact (Option.some.inj hroot1).symm
  rw [er] at hr1 huniq
  have hs : t.Sound := by
    refine ⟨hval, hnamed, fun nd hnd s hsm e => ?_⟩
    obtain ⟨i, hi⟩ := List.mem_iff_getElem?.mp hnd
    have hil : i < t.nnodes := by
      rcases Nat.lt_or_ge i t.nodes.length with h | h
      · omega
      · rw [List.getElem?_eq_none h] at hi; cases hi
    have hsm1 : s ∈ t.kidSlots i := by rw [kidSlots_of_node hi]; exact hsm
    obtain ⟨c, _, hc⟩ := hslots i hil s hsm1
    rw [hc] at e; cases e
  have hrp : t.parentOf r = none := (huniq r hr1).mpr rfl
  have hkn0 : ∀ x, ¬ x < t.nnodes → t.kids x = [] := fun x hx => by
    have : t.nodes[x]? = none := List.getElem?_eq_none (by omega)
    simp [Tree.kids, Tree.kidSlots, this]
  have hlink : ∀ x c, c ∈ t.kids x → t.parentOf c = some x := by
    intro x c hc
    by_cases hx : x < t.nnodes
    · exact (hlinks x hx c (hs.kids_lt x c hc)).mp hc
    · rw [hkn0 x hx] at hc; cases hc
  -- the walk of the old tree
  have hcov := covered_of_perm t.kids _ r htree
  have hP : Trav t.kids r (preorder t.kids (t.nnodes + 1) r) := ⟨_, hcov, rfl⟩
  have hPn : (preorder t.kids (t.nnodes + 1) r).Nodup :=
    htree.nodup_iff.mpr (List.nodup_range _)
  -- the two children of the root
  obtain ⟨r2, ndr, hroot2, hrnode, hr2⟩ := (Tree.isRooted_iff t).mp hrooted
  have er2 : r2 = r := by rw [hroot] at hroot2; exact (Option.some.inj hroot2).symm
  rw [er2] at hrnode
  obtain ⟨A, B, hA, hB, hc0, hc1, hkr⟩ := kidSlots_binary hs r hr1 ndr hrnode hr2
  have hkids : t.kids r = [A, B] := by simp [Tree.kids, hkr]
  -- the path from `v` to the root
  have hvP : v ∈ preorder t.kids (t.nnodes + 1) r :=
    htree.mem_iff.mpr (List.mem_range.mpr hv)
  obtain ⟨D, hD⟩ := anc_of_mem_preorder t hlink _ r v hvP
  have hanc : ∀ i, i ≤ D → ∃ x, t.anc v i = some x := by
    intro i hi
    have e : D = i + (D - i) := by omega
    rw [e, Tree.anc_add] at hD
    cases h : t.anc v i with
    | none => rw [h] at hD; cases hD
    | some x => exact ⟨x, rfl⟩
  obtain ⟨u, hu⟩ : ∃ u : Nat → Nat, ∀ i, i ≤ D → t.anc v i = some (u i) :=
    ⟨fun i => (t.anc v i).getD 0, fun i hi => by
      obtain ⟨x, hx⟩ := hanc i hi
      simp [hx]⟩
  have hu0 : u 0 = v := by
    have := hu 0 (Nat.zero_le _)
    simpa [Tree.anc] using this.symm
  have huD : u D = r := by
    have := hu D (le_refl _)
    rw [hD] at this
    exact (Option.some.inj this).symm
  have hstep : ∀ i, i < D → t.parentOf (u i) = some (u (i + 1)) := by
    intro i hi
    have h1 := hu (i + 1) (by omega)
    rw [Tree.anc, hu i (by omega)] at h1
    exact h1
  have hD2 : 2 ≤ D := by
    rcases Nat.lt_or_ge D 2 with hlt | hge
    · exfalso
      rcases Nat.eq_zero_or_pos D with h0 | hpos
      · rw [h0] at huD; exact hvr (hu0.symm.trans huD)
      · have h1 : D = 1 := by omega
        have hp := hstep 0 (by omega)
        rw [hu0, Nat.zero_add, ← h1, huD] at hp
        exact hvk ((hlinks r hr1 v hv).mpr hp)
    · exact hge
  obtain ⟨m, rfl⟩ : ∃ m, D = m + 1 := ⟨D - 1, by omega⟩
  have hm : 1 ≤ m := by omega
  have hchain : ∀ i, i ≤ m → t.parentOf (u i) = some (u (i + 1)) :=
    fun i hi => hstep i (by omega)
  have hinj := chain_inj t u m r hchain huD hrp
  have hult : ∀ i, i ≤ m + 1 → u i < t.nnodes := by
    intro i
    induction i with
    | zero => intro _; rw [hu0]; exact hv
    | succ i ih =>
      intro hi
      exact hparents (u i) (ih (by omega)) _ (hchain i (by omega))
  -- the top of the path and its sibling
  have humk : u m ∈ t.kids r := by
    have hp := hchain m (le_refl _)
    rw [huD] at hp
    exact (hlinks r hr1 (u m) (hult m (by omega))).mpr hp
  have hABne : A ≠ B := by
    obtain ⟨g, hg, hPe⟩ := trav_cons hP
    have hknd : (t.kids r).Nodup := by
      rw [hPe] at hPn
      exact nodup_of_flatMap _ (fun c hc => trav_mem_self (hg c hc)) (List.nodup_cons.mp hPn).2
    rw [hkids] at hknd
    intro e
    rw [e] at hknd
    simp at hknd
  obtain ⟨S, hAB⟩ : ∃ S, (A = u m ∧ B = S) ∨ (A = S ∧ B = u m) := by
    rw [hkids] at humk
    simp only [List.mem_cons, List.mem_nil_iff, or_false] at humk
    rcases humk with e | e
    · exact ⟨B, Or.inl ⟨e.symm, rfl⟩⟩
    · exact ⟨A, Or.inr ⟨rfl, e.symm⟩⟩
  have hSk : S ∈ t.kids r := by
    rw [hkids]
    rcases hAB with ⟨_, e⟩ | ⟨e, _⟩
    · rw [← e]; simp
    · rw [← e]; simp
  have hSu : S ≠ u m := by
    rcases hAB with ⟨e1, e2⟩ | ⟨e1, e2⟩
    · rw [← e1, ← e2]; exact Ne.symm hABne
    · rw [← e1, ← e2]; exact hABne
  have hS : t.parentOf S = some r := hlink r S hSk
  have hSlt : S < t.nnodes := hs.kids_lt r S hSk
  have hSn := chain_sibling_ne t u m r S hchain huD hrp hS hSu
  have hKr : (t.kids r).Perm [u m, S] := by
    rw [hkids]
    rcases hAB with ⟨e1, e2⟩ | ⟨e1, e2⟩
    · rw [e1, e2]
    · rw [e1, e2]; exact List.Perm.swap _ _ _
  have hslotk : ∀ i, 1 ≤ i → i ≤ m → u (i - 1) ∈ t.kids (u i) := by
    intro i h1 h2
    have hp := hchain (i - 1) (by omega)
    rw [show i - 1 + 1 = i by omega] at hp
    exact (hlinks (u i) (hult i (by omega)) _ (hult (i - 1) (by omega))).mpr hp
  have hmn : m + 2 ≤ t.nnodes := chain_length_le u (m + 2) t.nnodes
    (fun i j hi hj e => hinj i j (by omega) (by omega) e) (fun i hi => hult i (by omega))
  -- the run of `reroot`
  obtain ⟨T, hrun, hTr, hTn, hTp, hTkr, hTku, hTko⟩ := reroot_run t u m r S A B fuel ndr hroot
    (by omega) hrnode hr2 hc0 hc1 hAB hchain huD hm hinj hSn
    (fun i hi => by rw [hlen]; exact hult i hi) (by rw [hlen]; exact hSlt)
    (fun i h1 h2 => by
      rw [hs.kidSlots_eq (u i)]
      exact List.mem_map_of_mem _ (hslotk i h1 h2))
    (by omega)
  rw [hu0] at hrun hTp
  -- the children lists of the new tree
  have hK1r : T.kids r = [u 0, u 1] := by simp [Tree.kids, hTkr]
  have hK1u : ∀ i, 1 ≤ i → i ≤ m → ∃ q, (t.kids (u i))[q]? = some (u (i - 1)) ∧
      T.kids (u i) = (t.kids (u i)).set q (if i = m then S else u (i + 1)) := by
    intro i h1 h2
    obtain ⟨q, hq, hk⟩ := hTku i h1 h2
    refine ⟨q, (hs.kids_get (u i) q _).mpr hq, ?_⟩
    rw [Tree.kids, hk, hs.kidSlots_eq (u i), ← List.map_set, filterMap_id_map_some]
  have hK1o : ∀ x, x ≠ r → (∀ i, 1 ≤ i → i ≤ m → x ≠ u i) → T.kids x = t.kids x := by
    intro x h1 h2
    rw [Tree.kids, hTko x h1 h2, Tree.kids]
  obtain ⟨P1, hP1, hperm⟩ := trav_reroot t T.kids u m r S _ hlink hrp hchain huD hm hS hSu hKr
    hP hPn hK1r hK1u hK1o
  have hperm1 : P1.Perm (List.range t.nnodes) := hperm.trans htree
  have hlen1 : P1.length = t.nnodes := by rw [hperm1.length_eq, List.length_range]
  obtain ⟨_, hpre1⟩ := trav_fuel t.nnodes hP1 hlen1
  refine ⟨T, hrun, hTr, hTn, ?_, hTp, ?_⟩
  · rw [hK1r, hu0]; simp
  · rw [hTn, hpre1]; exact hperm1

theorem reroot_spec_witness :
    sevenTree.WellFormed ∧ sevenTree.Valid ∧ sevenTree.root = some 6 ∧
    sevenTree.isRooted = true ∧
    (preorder sevenTree.kids (sevenTree.nnodes + 1) 6).Perm (List.range sevenTree.nnodes) ∧
    0 ∉ sevenTree.kids 6 ∧
    ∃ T, sevenTree.reroot 7 (some 0) true = .ok T ∧ T.root = some 6 ∧
      T.nnodes = sevenTree.nnodes ∧ 0 ∈ T.kids 6 ∧ T.parentOf 0 = some 6 ∧
      (preorder T.kids (T.nnodes + 1) 6).Perm (List.range T.nnodes) :=
  ⟨by unfold Tree.WellFormed; decide, by decide, rfl, rfl, by decide, by decide,
    reroot_spec sevenTree 0 6 7 (by unfold Tree.WellFormed; decide) (by decide) rfl rfl
      (by decide) (by decide) (by decide) (by decide) (by decide)⟩

example : ∃ T, sevenTree.reroot 7 (some 0) true = .ok T ∧
    preorder T.kids 8 6 = [6, 0, 2, 4, 5, 3, 1] :=
  ⟨_, rfl, by decide⟩

end Spidir
